import Mathlib

/-! # bombahead-go: the tactical helpers over a game snapshot

A shallow embedding of `models.go`, `enums.go`, `helpers.go` and of the two decoding
functions of `client.go`, followed by the properties established about them.

Conventions of the embedding.

* Go `int` values are `Int`; the one place where 64-bit wrap-around can change
  a result (the row-major index of `Field.CellAt`) is wrapped explicitly with
  `wrapInt64`.
* `CellType` and `Action` are Go string types, so they are `String` here and
  the named constants are the strings of `enums.go`.
* A Go `map[Position]bool` that only ever stores `true` is a list with
  membership as lookup; a `map[K]V` is an association list whose newest
  binding shadows older ones.
* `GameHelpers.State` is a non-nil pointer in every property below (every
  public method dereferences it first), so it is held by value.
* Loops whose termination is not structural carry a fuel argument and return
  `none` when the fuel runs out; the theorems show which fuel is enough.
* The float64 values of `DistanceTo` are whole numbers; they are held as `Int`
  and every conversion and sum is rounded as IEEE 754 does (nearest, ties to
  even).
* `encoding/json` is not part of the repository: a raw message is held by what
  `json.Unmarshal` makes of it for a `string` and for an `int` target.
-/

namespace Bombahead

/-! ## enums.go -/

abbrev Action := String

def MoveUp : Action := "move_up"
def MoveDown : Action := "move_down"
def MoveLeft : Action := "move_left"
def MoveRight : Action := "move_right"
def PlaceBomb : Action := "place_bomb"
def DoNothing : Action := "nothing"

abbrev CellType := String

def Air : CellType := "AIR"
def Wall : CellType := "WALL"
def Box : CellType := "BOX"

/-! ## models.go -/

structure Position where
  X : Int
  Y : Int
deriving DecidableEq, Repr

structure Player where
  ID : String
  Pos : Position
  Health : Int
  Score : Int
deriving DecidableEq, Repr

structure Bomb where
  Pos : Position
  Fuse : Int
deriving DecidableEq, Repr

structure Field where
  Width : Int
  Height : Int
  Cells : List CellType
deriving DecidableEq, Repr

/-- Two's-complement reduction of an integer to the range of a Go `int`
(64 bits). -/
def wrapInt64 (z : Int) : Int := (z + 2 ^ 63) % 2 ^ 64 - 2 ^ 63

/-- The method `Field.CellAt`. The slice access `f.Cells[idx]` is the only operation
of the method that can fault; it is written with the proof that the index is
in range on that path. -/
def Field.CellAt (f : Field) (pos : Position) : CellType :=
  if pos.X < 0 ∨ pos.X ≥ f.Width ∨ pos.Y < 0 ∨ pos.Y ≥ f.Height then Wall
  else
    let idx := wrapInt64 (pos.Y * f.Width + pos.X)
    if h : idx < 0 ∨ idx ≥ (f.Cells.length : Int) then Wall
    else f.Cells.get ⟨idx.toNat, by omega⟩

/-- The float64 nearest to the natural number `n`, for `n < 2 ^ (53 + e + fuel)`: with
`e` the first exponent such that `n < 2 ^ (53 + e)`, the multiple of `2 ^ e` nearest to
`n`, the even multiple when `n` is halfway. The numbers below `2 ^ 53` are exact. -/
def roundNatAt (n : Nat) : Nat → Nat → Nat
  | 0, _ => n
  | fuel + 1, e =>
    if n < 2 ^ (53 + e) then
      let q := 2 ^ e
      let m := n / q
      let r := n % q
      if 2 * r < q then m * q
      else if 2 * r > q then (m + 1) * q
      else if m % 2 = 0 then m * q
      else (m + 1) * q
    else roundNatAt n fuel (e + 1)

/-- The conversion `float64(z)` of a Go `int`: IEEE 754 round to nearest, ties to even.
The float64 values met in `DistanceTo` are whole numbers and are held as `Int`. -/
def float64OfInt (z : Int) : Int :=
  if z < 0 then -(roundNatAt z.natAbs 64 0 : Int) else (roundNatAt z.natAbs 64 0 : Int)

/-- The float64 sum `a + b` of two whole float64 values: the exact sum, rounded. -/
def float64Add (a b : Int) : Int := float64OfInt (a + b)

/-- The conversion `int(f)` of a whole float64 value: exact when `f` fits a Go `int`, and
left open by the language otherwise (`none`). -/
def intOfFloat64 (f : Int) : Option Int :=
  if -(2 : Int) ^ 63 ≤ f ∧ f < 2 ^ 63 then some f else none

/-- The method `Position.DistanceTo`:
`int(math.Abs(float64(p.X-other.X)) + math.Abs(float64(p.Y-other.Y)))`. -/
def Position.DistanceTo (p other : Position) : Option Int :=
  intOfFloat64 (float64Add |float64OfInt (wrapInt64 (p.X - other.X))|
    |float64OfInt (wrapInt64 (p.Y - other.Y))|)

structure GameState where
  CurrentTick : Int := 0
  Me : Option Player := none
  Opponents : List Player := []
  Players : List Player := []
  Field : Field
  Bombs : List Bomb := []
  Explosions : List Position := []
deriving DecidableEq

/-! ## helpers.go -/

structure GameHelpers where
  State : GameState

def defaultBombRange : Nat := 2

/-- The bounds test that opens `IsWalkable`, `IsSafe`, and the lane and neighbour
loops: `pos.X < 0 || pos.X >= Width || pos.Y < 0 || pos.Y >= Height`. -/
def GameHelpers.outOfBounds (h : GameHelpers) (pos : Position) : Bool :=
  decide (pos.X < 0) || decide (pos.X ≥ h.State.Field.Width) ||
    decide (pos.Y < 0) || decide (pos.Y ≥ h.State.Field.Height)

/-- The loop `for _, bomb := range Bombs { if bomb.Pos == pos { return false } }`
shared by `IsWalkable` and `IsSafe`: `true` when some bomb sits on `pos`. -/
def bombAt : List Bomb → Position → Bool
  | [], _ => false
  | b :: rest, pos => if b.Pos = pos then true else bombAt rest pos

def GameHelpers.IsWalkable (h : GameHelpers) (pos : Position) : Bool :=
  if h.outOfBounds pos then false
  else
    let cell := h.State.Field.CellAt pos
    if cell = Wall ∨ cell = Box then false
    else if bombAt h.State.Bombs pos then false
    else true

def GameHelpers.GetAdjacentWalkablePositions (h : GameHelpers) (pos : Position) :
    List Position :=
  let candidates : List Position :=
    [⟨pos.X, pos.Y - 1⟩, ⟨pos.X + 1, pos.Y⟩, ⟨pos.X, pos.Y + 1⟩, ⟨pos.X - 1, pos.Y⟩]
  candidates.foldl (fun result next => if h.IsWalkable next then result ++ [next] else result) []

/-- Lookup `v, ok := m[k]` in a Go map held as an association list. -/
def mapGet {β : Type} : List (Position × β) → Position → Option β
  | [], _ => none
  | (k', v) :: rest, k => if k' = k then some v else mapGet rest k

/-- Assignment `m[k] = v` on a Go map held as an association list. -/
def mapSet {β : Type} (m : List (Position × β)) (k : Position) (v : β) : List (Position × β) :=
  (k, v) :: m

/-- One lane of `blastCells`: the inner loop `for step := 1; step <= defaultBombRange; step++`
in direction `d`, with `n` iterations left and the loop counter at `step`. A `break` ends
the lane. -/
def GameHelpers.blastLane (h : GameHelpers) (origin d : Position) : Nat → Int → List Position
  | 0, _ => []
  | n + 1, step =>
    let pos : Position := ⟨origin.X + d.X * step, origin.Y + d.Y * step⟩
    if h.outOfBounds pos then []
    else
      let cell := h.State.Field.CellAt pos
      if cell = Wall then []
      else if cell = Box then [pos]
      else pos :: h.blastLane origin d n (step + 1)

def GameHelpers.blastCells (h : GameHelpers) (origin : Position) : List Position :=
  let directions : List Position := [⟨0, -1⟩, ⟨1, 0⟩, ⟨0, 1⟩, ⟨-1, 0⟩]
  directions.foldl (fun cells d => cells ++ h.blastLane origin d defaultBombRange 1) [origin]

/-- The loop `for i, b := range Bombs { bombIndex[b.Pos] = i }`, entered at index `i`. -/
def buildBombIndex : List Bomb → Nat → List (Position × Nat) → List (Position × Nat)
  | [], _, m => m
  | b :: rest, i, m => buildBombIndex rest (i + 1) (mapSet m b.Pos i)

/-- The three variables the loops of `computeDangerPositions` update. -/
structure DangerState where
  danger : List Position
  triggered : List Bool
  queue : List Nat

/-- The body shared by the explosion loop and by the blast loop of
`computeDangerPositions`: `danger[cell] = true`, then the bomb registered at `cell`, when
there is one and it is not triggered yet, is triggered and enqueued. -/
def markCell (bombIndex : List (Position × Nat)) (s : DangerState) (cell : Position) :
    DangerState :=
  let danger := cell :: s.danger
  match mapGet bombIndex cell with
  | some idx =>
    if !(s.triggered.getD idx false) then
      { danger := danger, triggered := s.triggered.set idx true, queue := s.queue ++ [idx] }
    else { s with danger := danger }
  | none => { s with danger := danger }

/-- The loop `for i, b := range Bombs { if b.Fuse <= 1 && !triggered[i] {...} }`, entered at
index `i`. -/
def seedFuses : List Bomb → Nat → DangerState → DangerState
  | [], _, s => s
  | b :: rest, i, s =>
    if b.Fuse ≤ 1 ∧ !(s.triggered.getD i false) then
      seedFuses rest (i + 1) { s with triggered := s.triggered.set i true, queue := s.queue ++ [i] }
    else seedFuses rest (i + 1) s

/-- The worklist loop `for len(queue) > 0` of `computeDangerPositions`. The result is
`none` when the fuel runs out or when `Bombs[idx]` is out of range. -/
def GameHelpers.dangerLoop (h : GameHelpers) (bombIndex : List (Position × Nat)) :
    Nat → DangerState → Option (List Position)
  | 0, _ => none
  | fuel + 1, s =>
    match s.queue with
    | [] => some s.danger
    | idx :: queue =>
      match h.State.Bombs[idx]? with
      | none => none
      | some b =>
        let blast := h.blastCells b.Pos
        h.dangerLoop bombIndex fuel (blast.foldl (markCell bombIndex) { s with queue := queue })

/-- The map `bombIndex` of `computeDangerPositions`. -/
def GameHelpers.bombIndex (h : GameHelpers) : List (Position × Nat) :=
  buildBombIndex h.State.Bombs 0 []

/-- The state of `computeDangerPositions` when its worklist loop is entered: nothing is
dangerous, triggered or queued at first, then come the loop over the explosions and the
loop over the fuses. The early return on `h.State == nil` is not taken, the state being
held by value. -/
def GameHelpers.dangerSeed (h : GameHelpers) : DangerState :=
  let triggered := List.replicate h.State.Bombs.length false
  let s0 : DangerState := { danger := [], triggered := triggered, queue := [] }
  seedFuses h.State.Bombs 0 (h.State.Explosions.foldl (markCell h.bombIndex) s0)

/-- The method `computeDangerPositions` with its worklist loop run on the given fuel. -/
def GameHelpers.computeDangerPositionsFuel (h : GameHelpers) (fuel : Nat) :
    Option (List Position) :=
  h.dangerLoop h.bombIndex fuel h.dangerSeed

/-- The danger map. The worklist loop takes one more round than there are bombs at most
(`computeDangerPositionsFuel_eq`), which is the fuel given here. -/
def GameHelpers.computeDangerPositions (h : GameHelpers) : List Position :=
  match h.computeDangerPositionsFuel (h.State.Bombs.length + 1) with
  | some danger => danger
  | none => []

def GameHelpers.IsSafe (h : GameHelpers) (pos : Position) : Bool :=
  if h.outOfBounds pos then false
  else if bombAt h.State.Bombs pos then false
  else
    let danger := h.computeDangerPositions
    if pos ∈ danger then false else true

abbrev PrevMap := List (Position × Position)

/-- The variables of the loop of `bfs`. -/
structure SearchState where
  queue : List Position
  visited : List Position
  prev : PrevMap

/-- The inner loop `for _, next := range h.GetAdjacentWalkablePositions(cur)` of `bfs`. -/
def bfsExpand (cur : Position) : List Position → SearchState → SearchState
  | [], s => s
  | next :: rest, s =>
    if next ∈ s.visited then bfsExpand cur rest s
    else bfsExpand cur rest
      { queue := s.queue ++ [next], visited := next :: s.visited, prev := mapSet s.prev next cur }

/-- The loop `for len(queue) > 0` of `bfs`: `some (some prev)` when a goal is dequeued,
`some none` (the nil map) when the queue runs empty, `none` when the fuel runs out. -/
def GameHelpers.bfsLoop (h : GameHelpers) (start : Position) (goal : Position → Bool) :
    Nat → SearchState → Option (Option PrevMap)
  | 0, _ => none
  | fuel + 1, s =>
    match s.queue with
    | [] => some none
    | cur :: queue =>
      if cur ≠ start ∧ goal cur then some (some s.prev)
      else h.bfsLoop start goal fuel
        (bfsExpand cur (h.GetAdjacentWalkablePositions cur) { s with queue := queue })

def GameHelpers.bfs (h : GameHelpers) (fuel : Nat) (start : Position) (goal : Position → Bool)
    (allowUnsafeStart : Bool) : Option (Option PrevMap) :=
  if !allowUnsafeStart ∧ !h.IsWalkable start then some none
  else h.bfsLoop start goal fuel { queue := [start], visited := [start], prev := [] }

/-- The first loop of `rebuildPath`, which walks the predecessors back from `target`:
`some none` is the early `return nil`, `none` is running out of fuel. -/
def rebuildLoop (start : Position) (prev : PrevMap) :
    Nat → Position → List Position → Option (Option (List Position))
  | 0, _, _ => none
  | fuel + 1, cur, path =>
    if cur = start then some (some path)
    else
      match mapGet prev cur with
      | none => some none
      | some p => rebuildLoop start prev fuel p (path ++ [p])

/-- The function `rebuildPath`: the nil slice is `[]`, and the in-place swap loop is the
reversal of the list. -/
def rebuildPath (fuel : Nat) (start target : Position) (prev : PrevMap) :
    Option (List Position) :=
  match rebuildLoop start prev fuel target [target] with
  | none => none
  | some none => some []
  | some (some path) => some path.reverse

def actionFromStep (fromPos toPos : Position) : Action :=
  if toPos.X = fromPos.X ∧ toPos.Y = fromPos.Y - 1 then MoveUp
  else if toPos.X = fromPos.X + 1 ∧ toPos.Y = fromPos.Y then MoveRight
  else if toPos.X = fromPos.X ∧ toPos.Y = fromPos.Y + 1 then MoveDown
  else if toPos.X = fromPos.X - 1 ∧ toPos.Y = fromPos.Y then MoveLeft
  else DoNothing

/-- The method `GetNextActionTowards`; `none` when a loop runs out of `fuel`. -/
def GameHelpers.GetNextActionTowards (h : GameHelpers) (fuel : Nat) (start target : Position) :
    Option Action :=
  if start = target then some DoNothing
  else
    match h.bfs fuel start (fun pos => decide (pos = target)) false with
    | none => none
    | some none => some DoNothing
    | some (some prev) =>
      match rebuildPath fuel start target prev with
      | none => none
      | some (p0 :: p1 :: _) => some (actionFromStep p0 p1)
      | some _ => some DoNothing

/-- The inner loop `for _, next := range h.GetAdjacentWalkablePositions(cur)` of
`GetNearestSafePosition`, on the pair (queue, visited). -/
def safeExpand : List Position → List Position × List Position → List Position × List Position
  | [], s => s
  | next :: rest, (queue, visited) =>
    if next ∉ visited then safeExpand rest (queue ++ [next], next :: visited)
    else safeExpand rest (queue, visited)

/-- The loop `for len(queue) > 0` of `GetNearestSafePosition`. -/
def GameHelpers.safeLoop (h : GameHelpers) (start : Position) :
    Nat → List Position → List Position → Option Position
  | 0, _, _ => none
  | _ + 1, [], _ => some start
  | fuel + 1, cur :: queue, visited =>
    if h.IsWalkable cur && h.IsSafe cur then some cur
    else
      let s := safeExpand (h.GetAdjacentWalkablePositions cur) (queue, visited)
      h.safeLoop start fuel s.1 s.2

/-- The method `GetNearestSafePosition`; `none` when a loop runs out of `fuel`. -/
def GameHelpers.GetNearestSafePosition (h : GameHelpers) (fuel : Nat) (start : Position) :
    Option Position :=
  if h.IsWalkable start && h.IsSafe start then some start
  else
    match h.bfs fuel start (fun pos => h.IsWalkable pos && h.IsSafe pos) true with
    | none => none
    | some none => some start
    | some (some _) => h.safeLoop start fuel [start] [start]

/-- The inner loop over the four neighbours of `cur` in `FindNearestBox`; each `continue`
goes on with the rest of the candidates. -/
def GameHelpers.boxExpand (h : GameHelpers) :
    List Position → List Position × List Position → List Position × List Position
  | [], s => s
  | next :: rest, (queue, visited) =>
    if h.outOfBounds next then h.boxExpand rest (queue, visited)
    else if next ∈ visited then h.boxExpand rest (queue, visited)
    else if h.State.Field.CellAt next = Wall then h.boxExpand rest (queue, visited)
    else h.boxExpand rest (queue ++ [next], next :: visited)

/-- The loop `for len(queue) > 0` of `FindNearestBox`. -/
def GameHelpers.boxLoop (h : GameHelpers) :
    Nat → List Position → List Position → Option (Position × Bool)
  | 0, _, _ => none
  | _ + 1, [], _ => some (⟨0, 0⟩, false)
  | fuel + 1, cur :: queue, visited =>
    if h.State.Field.CellAt cur = Box then some (cur, true)
    else
      let s := h.boxExpand
        [⟨cur.X, cur.Y - 1⟩, ⟨cur.X + 1, cur.Y⟩, ⟨cur.X, cur.Y + 1⟩, ⟨cur.X - 1, cur.Y⟩]
        (queue, visited)
      h.boxLoop fuel s.1 s.2

/-- The method `FindNearestBox`; `none` when the loop runs out of `fuel`. -/
def GameHelpers.FindNearestBox (h : GameHelpers) (fuel : Nat) (start : Position) :
    Option (Position × Bool) :=
  h.boxLoop fuel [start] [start]

/-- A number of rounds no search loop exceeds: one per tile of the board, one for a start
outside of it, and the round that sees the empty queue. -/
def GameHelpers.searchFuel (h : GameHelpers) : Nat :=
  h.State.Field.Width.toNat * h.State.Field.Height.toNat + 2

/-! ## client.go -/

/-- A raw JSON message, as far as `json.Unmarshal` into a `string` and into an `int`
tells messages apart: a JSON string with its decoded text; a JSON number written without
fraction and exponent with its value; the JSON value `null`; and anything else (`true`,
`false`, a number with a fraction or an exponent, an array, an object, bytes that are no
JSON value). -/
inductive RawJSON
  | string (s : String)
  | integer (n : Int)
  | null
  | other
deriving DecidableEq, Repr

/-- The call `json.Unmarshal(raw, &s)` on a fresh `var s string`: the text of `s` when the
call returns no error, `none` when it returns one. A JSON string is stored; `null` leaves
`s` empty and is no error; everything else is an error of the library. -/
def unmarshalString : RawJSON → Option String
  | .string s => some s
  | .null => some ""
  | _ => none

/-- The call `json.Unmarshal(raw, &n)` on a fresh `var n int`: the value of `n` when the
call returns no error, `none` when it returns one. An integer literal that fits 64 bits is
stored; `null` leaves `n` at 0 and is no error; everything else is an error of the library. -/
def unmarshalInt : RawJSON → Option Int
  | .integer n => if -(2 : Int) ^ 63 ≤ n ∧ n < 2 ^ 63 then some n else none
  | .null => some 0
  | _ => none

/-- The error values built in `client.go`. -/
inductive ClientError
  | unsupportedCellEncoding (raw : RawJSON)
  | decodeFieldCell (i : Nat) (err : ClientError)
  | unmarshalClassicState
deriving DecidableEq, Repr

/-- The function `decodeCell`: the cell together with the error, `none` standing for `nil`. -/
def decodeCell (raw : RawJSON) : CellType × Option ClientError :=
  match unmarshalString raw with
  | some s => (s, none)
  | none =>
    match unmarshalInt raw with
    | some n =>
      if n = 0 then (Wall, none)
      else if n = 1 then (Air, none)
      else if n = 2 then (Box, none)
      else (Air, none)
    | none => (Air, some (.unsupportedCellEncoding raw))

structure fieldWire where
  Width : Int
  Height : Int
  Field : List RawJSON
deriving DecidableEq, Repr

structure classicStatePayload where
  Players : List Player
  Field : fieldWire
  Bombs : List Bomb
  Explosions : List Position
deriving DecidableEq

/-- How a call of `parseClassicState` ends: with a state and a nil error, with an error and
a nil state, or in the run-time panic of `make` on a negative length. -/
inductive ParseOutcome
  | state (s : GameState)
  | error (err : ClientError)
  | panicMakeSlice
deriving DecidableEq

/-- The loop `for i := 0; i < len(cells) && i < len(payload.Field.Field); i++` of
`parseClassicState`, entered at index `i` with the raw cells from `i` on: `Except.error`
is the early return on a cell that does not decode. -/
def decodeCells : List RawJSON → Nat → List CellType → Except ClientError (List CellType)
  | [], _, cells => .ok cells
  | raw :: rest, i, cells =>
    if i < cells.length then
      match decodeCell raw with
      | (cell, none) => decodeCells rest (i + 1) (cells.set i cell)
      | (_, some err) => .error (.decodeFieldCell i err)
    else .ok cells

/-- The loop `for _, p := range payload.Players` of `parseClassicState`, on the pair
(`state.Me`, `state.Opponents`). -/
def assignPlayers (myID : String) :
    List Player → Option Player × List Player → Option Player × List Player
  | [], s => s
  | p :: rest, (me, opponents) =>
    if p.ID = myID then assignPlayers myID rest (some p, opponents)
    else assignPlayers myID rest (me, opponents ++ [p])

/-- The function `parseClassicState`. The first argument is what
`json.Unmarshal(data, &payload)` leaves: the payload, or `none` when it returns an error.
The length given to `make` is the Go `int` product of width and height; the cells start
as the zero value of `CellType`, the empty string. Of the panics of `make` only the one
on a negative length is modelled: on a length beyond what the runtime can allocate the
program panics too, where the model goes on and returns a state. -/
def parseClassicState (unmarshalled : Option classicStatePayload) (myID : String) :
    ParseOutcome :=
  match unmarshalled with
  | none => .error .unmarshalClassicState
  | some payload =>
    let n := wrapInt64 (payload.Field.Width * payload.Field.Height)
    if n < 0 then .panicMakeSlice
    else
      match decodeCells payload.Field.Field 0 (List.replicate n.toNat "") with
      | .error err => .error err
      | .ok cells =>
        let s := assignPlayers myID payload.Players (none, [])
        let state : GameState :=
          { Players := payload.Players,
            Field := ⟨payload.Field.Width, payload.Field.Height, cells⟩,
            Bombs := payload.Bombs,
            Explosions := payload.Explosions,
            Me := s.1,
            Opponents := s.2 }
        if state.Me = none ∧ payload.Players.length > 0 then
          match payload.Players with
          | player :: _ =>
            if payload.Players.length > 1 then
              .state { state with Me := some player, Opponents := payload.Players.drop 1 }
            else .state { state with Me := some player }
          | [] => .state state
        else .state state

/-! ## Vocabulary of the properties -/

/-- The tile `q` lets a blast in: it is on the board and is not a Wall. -/
def GameHelpers.blastEnters (h : GameHelpers) (q : Position) : Prop :=
  h.outOfBounds q = false ∧ h.State.Field.CellAt q ≠ Wall

instance (h : GameHelpers) (q : Position) : Decidable (h.blastEnters q) := by
  unfold GameHelpers.blastEnters; infer_instance

/-- The detonating bomb positions, as the spec words them: a bomb with fuse at most 1
detonates, a bomb lying on an explosion detonates, and a bomb lying in the blast footprint
of a detonating bomb detonates, whatever its fuse. -/
inductive Detonating (h : GameHelpers) : Position → Prop
  | fuse (b : Bomb) : b ∈ h.State.Bombs → b.Fuse ≤ 1 → Detonating h b.Pos
  | explosion (b : Bomb) : b ∈ h.State.Bombs → b.Pos ∈ h.State.Explosions → Detonating h b.Pos
  | chain (q : Position) (b : Bomb) : Detonating h q → b ∈ h.State.Bombs →
      b.Pos ∈ h.blastCells q → Detonating h b.Pos

/-- A set of positions is closed under the three detonation rules of the spec. -/
def DetonationClosed (h : GameHelpers) (D : Set Position) : Prop :=
  (∀ b ∈ h.State.Bombs, b.Fuse ≤ 1 → b.Pos ∈ D) ∧
  (∀ b ∈ h.State.Bombs, b.Pos ∈ h.State.Explosions → b.Pos ∈ D) ∧
  (∀ q ∈ D, ∀ b ∈ h.State.Bombs, b.Pos ∈ h.blastCells q → b.Pos ∈ D)

/-- Soundness half of the loop invariant of `computeDangerPositions`: the flags have one
entry per bomb, what is queued is triggered, what is triggered detonates, and what is
dangerous is an explosion or lies in the footprint of a detonating bomb. -/
structure DangerSound (h : GameHelpers) (s : DangerState) : Prop where
  len : s.triggered.length = h.State.Bombs.length
  queued : ∀ i ∈ s.queue, s.triggered.getD i false = true
  trig : ∀ i, s.triggered.getD i false = true →
    ∃ b, h.State.Bombs[i]? = some b ∧ Detonating h b.Pos
  danger : ∀ p ∈ s.danger,
    p ∈ h.State.Explosions ∨ ∃ q, Detonating h q ∧ p ∈ h.blastCells q

/-- The cell `c` has been handled by `markCell`: it is dangerous and the bomb registered
at it, if any, is triggered. -/
def Covered (h : GameHelpers) (s : DangerState) (c : Position) : Prop :=
  c ∈ s.danger ∧ ∀ j, mapGet h.bombIndex c = some j → s.triggered.getD j false = true

/-- The state `s2` comes after `s1` in a run that only marks cells: nothing dangerous or
triggered is lost, what is newly triggered is queued, and the number of queued plus
untriggered bombs is unchanged. -/
structure Grows (s1 s2 : DangerState) : Prop where
  danger : ∀ p ∈ s1.danger, p ∈ s2.danger
  trig : ∀ i, s1.triggered.getD i false = true → s2.triggered.getD i false = true
  fresh : ∀ i, s2.triggered.getD i false = true →
    s1.triggered.getD i false = true ∨ i ∈ s2.queue
  queue : ∀ i ∈ s1.queue, i ∈ s2.queue
  len : s2.triggered.length = s1.triggered.length
  measure : s2.queue.length + s2.triggered.count false =
    s1.queue.length + s1.triggered.count false

/-- Completeness half of the loop invariant of `computeDangerPositions`: the footprint of
every bomb that is triggered and no longer queued has been marked. -/
def Processed (h : GameHelpers) (s : DangerState) : Prop :=
  ∀ i b, s.triggered.getD i false = true → i ∉ s.queue → h.State.Bombs[i]? = some b →
    ∀ c ∈ h.blastCells b.Pos, Covered h s c

/-- The tile `b` is reached from `a` in `n` steps along the step relation `R`. -/
inductive Hops (R : Position → Position → Prop) (a : Position) : Position → Nat → Prop
  | zero : Hops R a a 0
  | succ {b c : Position} {n : Nat} : Hops R a b n → R b c → Hops R a c (n + 1)

/-- The minimum hop count from `a` to `b` along `R` is `d`. -/
def MinHops (R : Position → Position → Prop) (a b : Position) (d : Nat) : Prop :=
  Hops R a b d ∧ ∀ k, Hops R a b k → d ≤ k

/-- The tile `q` is one of the four cardinal neighbours of `p`. -/
def Adjacent (p q : Position) : Prop :=
  (q.X = p.X ∧ q.Y = p.Y - 1) ∨ (q.X = p.X + 1 ∧ q.Y = p.Y) ∨
    (q.X = p.X ∧ q.Y = p.Y + 1) ∨ (q.X = p.X - 1 ∧ q.Y = p.Y)

instance (p q : Position) : Decidable (Adjacent p q) := by
  unfold Adjacent; infer_instance

/-- One 4-connected step onto a walkable tile. -/
def GameHelpers.WalkStep (h : GameHelpers) (p q : Position) : Prop :=
  Adjacent p q ∧ h.IsWalkable q = true

instance (h : GameHelpers) (p q : Position) : Decidable (h.WalkStep p q) := by
  unfold GameHelpers.WalkStep; infer_instance

/-- One 4-connected step onto a tile of the board that is not a Wall. -/
def GameHelpers.BoxStep (h : GameHelpers) (p q : Position) : Prop :=
  Adjacent p q ∧ h.outOfBounds q = false ∧ h.State.Field.CellAt q ≠ Wall

instance (h : GameHelpers) (p q : Position) : Decidable (h.BoxStep p q) := by
  unfold GameHelpers.BoxStep; infer_instance

/-- The common shape of the three search loops of `helpers.go`: a queue served first-in
first-out, the neighbours `nbrs cur` of the dequeued tile appended when not visited yet,
and the loop left at the first dequeued tile on which `stop` holds. The result is
`some (some (cur, s))` with the state at that moment, `some none` when the queue runs
empty, `none` when the fuel runs out. -/
def searchLoop (nbrs : Position → List Position) (stop : Position → Bool) :
    Nat → SearchState → Option (Option (Position × SearchState))
  | 0, _ => none
  | fuel + 1, s =>
    match s.queue with
    | [] => some none
    | cur :: queue =>
      if stop cur then some (some (cur, s))
      else searchLoop nbrs stop fuel (bfsExpand cur (nbrs cur) { s with queue := queue })

/-- The four neighbours of `cur` that `FindNearestBox` may enqueue: those on the board
that are not a Wall. -/
def GameHelpers.boxNeighbours (h : GameHelpers) (cur : Position) : List Position :=
  ([⟨cur.X, cur.Y - 1⟩, ⟨cur.X + 1, cur.Y⟩, ⟨cur.X, cur.Y + 1⟩, ⟨cur.X - 1, cur.Y⟩] :
    List Position).filter
      (fun next => !h.outOfBounds next && decide (h.State.Field.CellAt next ≠ Wall))

/-- The order in which a breadth-first search from the queue, with north, east, south,
west expansion over walkable tiles and no early exit, dequeues the tiles. -/
def GameHelpers.dequeueOrderLoop (h : GameHelpers) :
    Nat → List Position → List Position → Option (List Position)
  | 0, _, _ => none
  | _ + 1, [], _ => some []
  | fuel + 1, cur :: queue, visited =>
    let s := safeExpand (h.GetAdjacentWalkablePositions cur) (queue, visited)
    (h.dequeueOrderLoop fuel s.1 s.2).map (fun order => cur :: order)

/-- The breadth-first dequeue order from `start`. -/
def GameHelpers.dequeueOrder (h : GameHelpers) (fuel : Nat) (start : Position) :
    Option (List Position) :=
  h.dequeueOrderLoop fuel [start] [start]

/-- The invariant of `searchLoop` from `a` along `R`: the queue is `A ++ B` with the
tiles of `A` at minimum hop count `d` and those of `B` at `d + 1`; the visited tiles are
those up to `d`, the ones of `B`, and no other; each tile at `d + 1` is visited or has a
predecessor waiting in `A`; `prev` links each visited tile but `a` to a visited tile one
hop closer; `stop` fails on the tiles already served. -/
structure SearchInv (R : Position → Position → Prop) (stop : Position → Bool) (a : Position)
    (s : SearchState) (d : Nat) (A B : List Position) : Prop where
  split : s.queue = A ++ B
  levA : ∀ v ∈ A, MinHops R a v d
  levB : ∀ v ∈ B, MinHops R a v (d + 1)
  vis_le : ∀ v ∈ s.visited, ∃ k, k ≤ d + 1 ∧ MinHops R a v k
  vis_top : ∀ v ∈ s.visited, MinHops R a v (d + 1) → v ∈ B
  low : ∀ v k, Hops R a v k → k ≤ d → v ∈ s.visited
  next : ∀ v, MinHops R a v (d + 1) → v ∈ s.visited ∨ ∃ u ∈ A, R u v
  prev_ok : ∀ v u, mapGet s.prev v = some u →
    u ∈ s.visited ∧ R u v ∧ ∃ k, MinHops R a u k ∧ MinHops R a v (k + 1)
  prev_dom : ∀ v ∈ s.visited, v ≠ a → ∃ u, mapGet s.prev v = some u
  served : ∀ v ∈ s.visited, v ∉ s.queue → stop v = false
  count : d + B.length + 1 ≤ s.visited.length

/-- The tiles of the board, as a finite set. -/
def GameHelpers.boardCells (h : GameHelpers) : Finset Position :=
  (Finset.Ico 0 h.State.Field.Width ×ˢ Finset.Ico 0 h.State.Field.Height).image
    (fun p => (⟨p.1, p.2⟩ : Position))

/-- The bomb indices that the worklist loop of `computeDangerPositions` dequeues, in order:
the loop of `dangerLoop`, keeping `idx` of each round in place of the danger map. -/
def GameHelpers.dangerRounds (h : GameHelpers) (bombIndex : List (Position × Nat)) :
    Nat → DangerState → Option (List Nat)
  | 0, _ => none
  | fuel + 1, s =>
    match s.queue with
    | [] => some []
    | idx :: queue =>
      match h.State.Bombs[idx]? with
      | none => none
      | some b =>
        (h.dangerRounds bombIndex fuel
          ((h.blastCells b.Pos).foldl (markCell bombIndex) { s with queue := queue })).map
            (fun rounds => idx :: rounds)

/-- The tiles that `searchLoop` dequeues, in order: the same loop, keeping `cur` of each
round in place of the final state. -/
def searchOrder (nbrs : Position → List Position) (stop : Position → Bool) :
    Nat → SearchState → Option (List Position)
  | 0, _ => none
  | fuel + 1, s =>
    match s.queue with
    | [] => some []
    | cur :: queue =>
      if stop cur then some [cur]
      else (searchOrder nbrs stop fuel (bfsExpand cur (nbrs cur) { s with queue := queue })).map
        (fun order => cur :: order)

/-- The place of a move in the fixed order north, east, south, west. -/
def directionRank (a : Action) : Nat :=
  if a = MoveUp then 0
  else if a = MoveRight then 1
  else if a = MoveDown then 2
  else if a = MoveLeft then 3
  else 4

/-- The neighbour `n` of `a` is a best first step towards `v`: it begins a shortest path
from `a` to `v`, and no first step of a shortest path to `v` has a lower rank. -/
def BestStep (R : Position → Position → Prop) (a : Position) (rank : Position → Nat)
    (v n : Position) : Prop :=
  ∃ k, MinHops R a v (k + 1) ∧ R a n ∧ Hops R n v k ∧
    ∀ m, R a m → Hops R m v k → rank n ≤ rank m

/-- A best first step towards `x` ranks no higher than any first step of a shortest path
towards `y`. -/
def RankLE (R : Position → Position → Prop) (a : Position) (rank : Position → Nat)
    (x y : Position) : Prop :=
  ∀ n, BestStep R a rank x n → ∀ m k, MinHops R a y (k + 1) → R a m → Hops R m y k →
    rank n ≤ rank m

/-- The part of the invariant of `searchLoop` that speaks of the first step: the tiles
wait in the queue in the order of their best first steps, the level `B` under discovery
coming before the rest `A` of the level being served; the neighbours of a served tile are
visited; `prev` hands the best first steps of a tile down to the tiles discovered from it;
and the start waits alone. -/
structure BranchInv (R : Position → Position → Prop) (a : Position) (rank : Position → Nat)
    (s : SearchState) (A B : List Position) : Prop where
  sorted : (B ++ A).Pairwise (RankLE R a rank)
  done : ∀ u ∈ s.visited, u ∉ s.queue → ∀ v, R u v → v ∈ s.visited
  prev_best : ∀ v u, mapGet s.prev v = some u → u ≠ a →
    ∀ n, BestStep R a rank u n → BestStep R a rank v n
  root : a ∈ A → s.queue = [a]

/-! ## The snapshots of helpers_test.go and models_test.go -/

/-- The snapshot of `TestIsWalkable`. -/
def walkableTestState : GameState :=
  { Field := ⟨3, 3, [Air, Wall, Air, Air, Box, Air, Air, Air, Air]⟩, Bombs := [⟨⟨2, 2⟩, 3⟩] }

/-- The snapshot of `TestGetAdjacentWalkablePositions`. -/
def adjacentTestState : GameState :=
  { Field := ⟨3, 3, [Air, Wall, Air, Air, Air, Air, Air, Air, Air]⟩, Bombs := [⟨⟨2, 1⟩, 3⟩] }

/-- The 5x5 board without obstacle of `TestGetNextActionTowards`. -/
def openTestState : GameState :=
  { Field := ⟨5, 5, [Air, Air, Air, Air, Air, Air, Air, Air, Air, Air, Air, Air, Air, Air, Air,
      Air, Air, Air, Air, Air, Air, Air, Air, Air, Air]⟩ }

/-- The snapshot of `TestIsSafe_WithBlastBlockingAndChainReaction`. -/
def chainTestState : GameState :=
  { Field := ⟨5, 5, [Air, Air, Air, Air, Air, Air, Air, Wall, Air, Air, Air, Air, Air, Air, Air,
      Air, Air, Air, Air, Air, Air, Air, Air, Air, Air]⟩,
    Bombs := [⟨⟨2, 2⟩, 1⟩, ⟨⟨4, 2⟩, 5⟩], Explosions := [⟨0, 0⟩] }

/-- The snapshot of `TestGetNearestSafePosition`. -/
def nearestSafeTestState : GameState :=
  { Field := ⟨5, 5, [Air, Air, Air, Air, Air, Air, Air, Air, Air, Air, Air, Air, Air, Air, Air,
      Air, Air, Air, Air, Air, Air, Air, Air, Air, Air]⟩, Bombs := [⟨⟨2, 2⟩, 1⟩] }

/-- The first snapshot of `TestFindNearestBox`. -/
def boxTestState : GameState :=
  { Field := ⟨4, 3, [Air, Box, Air, Air, Air, Wall, Wall, Air, Air, Air, Air, Air]⟩ }

/-- The second snapshot of `TestGetNextActionTowards`: walls separate (0,0) from (2,2). -/
def unreachableTestState : GameState :=
  { Field := ⟨3, 3, [Air, Air, Air, Air, Wall, Wall, Air, Wall, Air]⟩ }

/-- The second snapshot of `TestFindNearestBox`: no Box on the board. -/
def noBoxTestState : GameState :=
  { Field := ⟨4, 3, [Air, Air, Air, Air, Air, Wall, Wall, Air, Air, Air, Air, Air]⟩ }

/-- A board of one tile with a bomb about to go off on it: no tile is safe. -/
def trappedTestState : GameState :=
  { Field := ⟨1, 1, [Air]⟩, Bombs := [⟨⟨0, 0⟩, 1⟩] }

/-! ## The payloads of client_test.go -/

/-- The payload of `TestParseClassicState_AssignsMeAndOpponents`, as unmarshalled. -/
def assignTestPayload : classicStatePayload :=
  { Players := [⟨"p1", ⟨0, 0⟩, 3, 1⟩, ⟨"p2", ⟨1, 0⟩, 2, 2⟩],
    Field := ⟨3, 2, [.string "AIR", .integer 0, .integer 2, .string "BOX", .string "WALL",
      .integer 1]⟩,
    Bombs := [⟨⟨1, 1⟩, 2⟩], Explosions := [⟨0, 1⟩] }

/-- The payload of `TestParseClassicState_FallbackWithoutWelcome`, as unmarshalled. -/
def fallbackTestPayload : classicStatePayload :=
  { Players := [⟨"first", ⟨0, 0⟩, 3, 1⟩, ⟨"second", ⟨1, 0⟩, 2, 2⟩],
    Field := ⟨1, 1, [.string "AIR"]⟩, Bombs := [], Explosions := [] }

/-- The payload of the fallback test with its first player alone. -/
def singlePlayerPayload : classicStatePayload :=
  { Players := [⟨"first", ⟨0, 0⟩, 3, 1⟩],
    Field := ⟨1, 1, [.string "AIR"]⟩, Bombs := [], Explosions := [] }

/-- A payload whose width and height are both 2^32, with no cell and no player. -/
def overflowPayload : classicStatePayload :=
  { Players := [], Field := ⟨4294967296, 4294967296, []⟩, Bombs := [], Explosions := [] }

/-- A payload that supplies three cells for a field of 2x2. -/
def shortFieldPayload : classicStatePayload :=
  { Players := [], Field := ⟨2, 2, [.string "BOX", .integer 0, .integer 1]⟩, Bombs := [],
    Explosions := [] }

/-- A payload that supplies three cells for a field of 1x2. -/
def longFieldPayload : classicStatePayload :=
  { Players := [], Field := ⟨1, 2, [.string "BOX", .integer 0, .integer 1]⟩, Bombs := [],
    Explosions := [] }

/-- A field of width 2^62 and height 5 that holds three cells only. -/
def overflowField : Field := ⟨4611686018427387904, 5, [Air, Box, Air]⟩

/-! ## Properties: the grid model -/

theorem outOfBounds_eq_true (h : GameHelpers) (pos : Position) :
    h.outOfBounds pos = true ↔
      (pos.X < 0 ∨ pos.X ≥ h.State.Field.Width ∨ pos.Y < 0 ∨ pos.Y ≥ h.State.Field.Height) := by
  simp [GameHelpers.outOfBounds, or_assoc]

theorem outOfBounds_eq_false (h : GameHelpers) (pos : Position) :
    h.outOfBounds pos = false ↔
      (0 ≤ pos.X ∧ pos.X < h.State.Field.Width ∧ 0 ≤ pos.Y ∧ pos.Y < h.State.Field.Height) := by
  rw [← Bool.not_eq_true, outOfBounds_eq_true]
  omega

theorem bombAt_eq_true (bombs : List Bomb) (pos : Position) :
    bombAt bombs pos = true ↔ ∃ b ∈ bombs, b.Pos = pos := by
  induction bombs with
  | nil => simp [bombAt]
  | cons b rest ih =>
    by_cases hb : b.Pos = pos
    · simp [bombAt, hb]
    · simp [bombAt, hb, ih]

theorem bombAt_eq_false (bombs : List Bomb) (pos : Position) :
    bombAt bombs pos = false ↔ ∀ b ∈ bombs, b.Pos ≠ pos := by
  rw [← Bool.not_eq_true, bombAt_eq_true]
  simp

theorem Wall_ne_Box : Wall ≠ Box := by decide

theorem Air_ne_Wall : Air ≠ Wall := by decide

theorem Air_ne_Box : Air ≠ Box := by decide

theorem CellAt_outOfBounds (h : GameHelpers) (pos : Position) (hob : h.outOfBounds pos = true) :
    h.State.Field.CellAt pos = Wall := by
  rw [outOfBounds_eq_true] at hob
  simp [Field.CellAt, hob]

theorem isWalkable_iff (h : GameHelpers) (pos : Position) :
    h.IsWalkable pos = true ↔
      h.outOfBounds pos = false ∧ h.State.Field.CellAt pos ≠ Wall ∧
        h.State.Field.CellAt pos ≠ Box ∧ bombAt h.State.Bombs pos = false := by
  unfold GameHelpers.IsWalkable
  cases hob : h.outOfBounds pos <;> cases hb : bombAt h.State.Bombs pos <;>
    by_cases hw : h.State.Field.CellAt pos = Wall <;>
    by_cases hx : h.State.Field.CellAt pos = Box <;> simp [hw, hx]

/-- Claim C8. `IsWalkable pos` holds exactly when `pos` lies inside
`[0,Width) x [0,Height)`, its terrain cell is neither Wall nor Box, and no bomb of the
snapshot is located at `pos`. On an in-bounds Air tile it therefore holds iff no bomb
occupies the tile, and it holds in every snapshot that differs only in a bomb list with
no bomb left on the tile. -/
theorem C8_isWalkable_spec (h : GameHelpers) (pos : Position) :
    (h.IsWalkable pos = true ↔
      ((0 ≤ pos.X ∧ pos.X < h.State.Field.Width ∧ 0 ≤ pos.Y ∧ pos.Y < h.State.Field.Height) ∧
        h.State.Field.CellAt pos ≠ Wall ∧ h.State.Field.CellAt pos ≠ Box ∧
        ∀ b ∈ h.State.Bombs, b.Pos ≠ pos)) ∧
    ((0 ≤ pos.X ∧ pos.X < h.State.Field.Width ∧ 0 ≤ pos.Y ∧ pos.Y < h.State.Field.Height) →
      h.State.Field.CellAt pos = Air →
      (h.IsWalkable pos = true ↔ ∀ b ∈ h.State.Bombs, b.Pos ≠ pos) ∧
      (GameHelpers.mk { h.State with
          Bombs := h.State.Bombs.filter (fun b => decide (b.Pos ≠ pos)) }).IsWalkable pos = true ∧
      ∀ bombs : List Bomb, (∀ b ∈ bombs, b.Pos ≠ pos) →
        (GameHelpers.mk { h.State with Bombs := bombs }).IsWalkable pos = true) := by
  refine ⟨?_, ?_⟩
  · rw [isWalkable_iff, outOfBounds_eq_false, bombAt_eq_false]
  · intro hin hair
    have key : ∀ bombs : List Bomb, (∀ b ∈ bombs, b.Pos ≠ pos) →
        (GameHelpers.mk { h.State with Bombs := bombs }).IsWalkable pos = true := by
      intro bombs hb
      rw [isWalkable_iff, outOfBounds_eq_false, bombAt_eq_false]
      refine ⟨hin, ?_, ?_, hb⟩
      · show h.State.Field.CellAt pos ≠ Wall
        rw [hair]; exact Air_ne_Wall
      · show h.State.Field.CellAt pos ≠ Box
        rw [hair]; exact Air_ne_Box
    refine ⟨?_, ?_, key⟩
    · rw [isWalkable_iff, outOfBounds_eq_false, bombAt_eq_false, hair]
      exact ⟨fun hh => hh.2.2.2, fun hh => ⟨hin, Air_ne_Wall, Air_ne_Box, hh⟩⟩
    · apply key
      intro b hb
      simpa using (List.mem_filter.mp hb).2

/-- Claim C9 (as amended). `CellAt` is Wall outside `[0,Width) x [0,Height)`. For a position
inside these bounds whose row-major index `pos.Y*Width + pos.X` fits a Go `int` (is below
2^63), it is Wall when that index is not an index of `Cells`, and the element of `Cells`
at that index otherwise. Whatever the index, the program computes it as a Go `int`, hence
reduced to 64 bits, and tests and reads that reduced index; the slice is only read at an
index in range, so the lookup cannot fault, whatever the length of `Cells`, and the result
is Wall or a cell of `Cells`. -/
theorem C9_cellAt_total (f : Field) (pos : Position) :
    ((pos.X < 0 ∨ pos.X ≥ f.Width ∨ pos.Y < 0 ∨ pos.Y ≥ f.Height) → f.CellAt pos = Wall) ∧
    (¬ (pos.X < 0 ∨ pos.X ≥ f.Width ∨ pos.Y < 0 ∨ pos.Y ≥ f.Height) →
      pos.Y * f.Width + pos.X < 2 ^ 63 →
      (pos.Y * f.Width + pos.X < 0 ∨ pos.Y * f.Width + pos.X ≥ (f.Cells.length : Int)) →
      f.CellAt pos = Wall) ∧
    (¬ (pos.X < 0 ∨ pos.X ≥ f.Width ∨ pos.Y < 0 ∨ pos.Y ≥ f.Height) →
      pos.Y * f.Width + pos.X < 2 ^ 63 →
      0 ≤ pos.Y * f.Width + pos.X → pos.Y * f.Width + pos.X < (f.Cells.length : Int) →
      f.Cells[(pos.Y * f.Width + pos.X).toNat]? = some (f.CellAt pos)) ∧
    (¬ (pos.X < 0 ∨ pos.X ≥ f.Width ∨ pos.Y < 0 ∨ pos.Y ≥ f.Height) →
      0 ≤ pos.Y * f.Width + pos.X) ∧
    (¬ (pos.X < 0 ∨ pos.X ≥ f.Width ∨ pos.Y < 0 ∨ pos.Y ≥ f.Height) →
      (wrapInt64 (pos.Y * f.Width + pos.X) < 0 ∨
        wrapInt64 (pos.Y * f.Width + pos.X) ≥ (f.Cells.length : Int)) →
      f.CellAt pos = Wall) ∧
    (¬ (pos.X < 0 ∨ pos.X ≥ f.Width ∨ pos.Y < 0 ∨ pos.Y ≥ f.Height) →
      0 ≤ wrapInt64 (pos.Y * f.Width + pos.X) →
      wrapInt64 (pos.Y * f.Width + pos.X) < (f.Cells.length : Int) →
      f.Cells[(wrapInt64 (pos.Y * f.Width + pos.X)).toNat]? = some (f.CellAt pos)) ∧
    (f.CellAt pos = Wall ∨ f.CellAt pos ∈ f.Cells) := by
  have hwall : ¬ (pos.X < 0 ∨ pos.X ≥ f.Width ∨ pos.Y < 0 ∨ pos.Y ≥ f.Height) →
      (wrapInt64 (pos.Y * f.Width + pos.X) < 0 ∨
        wrapInt64 (pos.Y * f.Width + pos.X) ≥ (f.Cells.length : Int)) →
      f.CellAt pos = Wall := by
    intro hin hidx
    simp only [Field.CellAt, hin, if_false]
    rw [dif_pos hidx]
  have hread : ¬ (pos.X < 0 ∨ pos.X ≥ f.Width ∨ pos.Y < 0 ∨ pos.Y ≥ f.Height) →
      0 ≤ wrapInt64 (pos.Y * f.Width + pos.X) →
      wrapInt64 (pos.Y * f.Width + pos.X) < (f.Cells.length : Int) →
      f.Cells[(wrapInt64 (pos.Y * f.Width + pos.X)).toNat]? = some (f.CellAt pos) := by
    intro hin h0 h1
    have hidx : ¬ (wrapInt64 (pos.Y * f.Width + pos.X) < 0 ∨
        wrapInt64 (pos.Y * f.Width + pos.X) ≥ (f.Cells.length : Int)) := by omega
    simp only [Field.CellAt, hin, if_false]
    rw [dif_neg hidx]
    simp [List.getElem?_eq_getElem]
  have hpos : ¬ (pos.X < 0 ∨ pos.X ≥ f.Width ∨ pos.Y < 0 ∨ pos.Y ≥ f.Height) →
      0 ≤ pos.Y * f.Width + pos.X := by
    intro hin
    have hy : 0 ≤ pos.Y := by omega
    have hw : 0 ≤ f.Width := by omega
    have := mul_nonneg hy hw
    omega
  have hfit : 0 ≤ pos.Y * f.Width + pos.X → pos.Y * f.Width + pos.X < 2 ^ 63 →
      wrapInt64 (pos.Y * f.Width + pos.X) = pos.Y * f.Width + pos.X := by
    intro h0 h1
    unfold wrapInt64
    omega
  refine ⟨?_, ?_, ?_, hpos, hwall, hread, ?_⟩
  · intro hob
    simp [Field.CellAt, hob]
  · intro hin hlt hidx
    apply hwall hin
    rw [hfit (hpos hin) hlt]
    exact hidx
  · intro hin hlt h0 h1
    have := hread hin (by rw [hfit h0 hlt]; exact h0) (by rw [hfit h0 hlt]; exact h1)
    rw [hfit h0 hlt] at this
    exact this
  · by_cases hin : pos.X < 0 ∨ pos.X ≥ f.Width ∨ pos.Y < 0 ∨ pos.Y ≥ f.Height
    · left
      simp [Field.CellAt, hin]
    · by_cases hidx : wrapInt64 (pos.Y * f.Width + pos.X) < 0 ∨
          wrapInt64 (pos.Y * f.Width + pos.X) ≥ (f.Cells.length : Int)
      · exact Or.inl (hwall hin hidx)
      · right
        have := hread hin (by omega) (by omega)
        exact List.mem_iff_getElem?.mpr ⟨_, this⟩

/-- The three cases of `TestFieldCellAt`: a missing index gives Wall, a position off the
board gives Wall, and (1,0) of the 2x2 field is the cell of index 1. -/
theorem C9_cellAt_total_witness :
    (Field.mk 3 1 [Air]).CellAt ⟨2, 0⟩ = Wall ∧
      (Field.mk 2 2 [Air, Box, Wall, Air]).CellAt ⟨-1, 0⟩ = Wall ∧
      [Air, Box, Wall, Air][((0 : Int) * 2 + 1).toNat]? =
        some ((Field.mk 2 2 [Air, Box, Wall, Air]).CellAt ⟨1, 0⟩) ∧
      (Field.mk 2 2 [Air, Box, Wall, Air]).CellAt ⟨1, 0⟩ = Box :=
  ⟨(C9_cellAt_total ⟨3, 1, [Air]⟩ ⟨2, 0⟩).2.1 (by decide) (by decide) (by decide),
   (C9_cellAt_total ⟨2, 2, [Air, Box, Wall, Air]⟩ ⟨-1, 0⟩).1 (by decide),
   (C9_cellAt_total ⟨2, 2, [Air, Box, Wall, Air]⟩ ⟨1, 0⟩).2.2.1 (by decide) (by decide)
     (by decide) (by decide),
   by decide⟩

/-- Claim C9 (as stated) fails. On the field of width 2^62 and height 5 with the three
cells Air, Box, Air the position (1,4) is inside the bounds and its row-major index
4 * 2^62 + 1 = 2^64 + 1 is not an index of `Cells`; as a Go `int` the index is 1, and
`CellAt` returns the cell of index 1, Box, not Wall. -/
theorem C9_counterexample :
    ¬ ((1 : Int) < 0 ∨ (1 : Int) ≥ overflowField.Width ∨ (4 : Int) < 0 ∨
        (4 : Int) ≥ overflowField.Height) ∧
      (4 : Int) * overflowField.Width + 1 = 18446744073709551617 ∧
      (4 : Int) * overflowField.Width + 1 ≥ (overflowField.Cells.length : Int) ∧
      overflowField.CellAt ⟨1, 4⟩ = Box ∧ overflowField.CellAt ⟨1, 4⟩ ≠ Wall := by
  decide

theorem C8_isWalkable_spec_witness :
    (GameHelpers.mk walkableTestState).IsWalkable ⟨2, 2⟩ = false ∧
      (GameHelpers.mk { walkableTestState with Bombs := [] }).IsWalkable ⟨2, 2⟩ = true :=
  ⟨by decide,
   ((C8_isWalkable_spec ⟨walkableTestState⟩ ⟨2, 2⟩).2 (by decide) (by decide)).2.2 []
      (by simp)⟩

theorem getAdjacentWalkablePositions_eq (h : GameHelpers) (pos : Position) :
    h.GetAdjacentWalkablePositions pos =
      ([⟨pos.X, pos.Y - 1⟩, ⟨pos.X + 1, pos.Y⟩, ⟨pos.X, pos.Y + 1⟩, ⟨pos.X - 1, pos.Y⟩] :
        List Position).filter h.IsWalkable := by
  unfold GameHelpers.GetAdjacentWalkablePositions
  cases h1 : h.IsWalkable ⟨pos.X, pos.Y - 1⟩ <;> cases h2 : h.IsWalkable ⟨pos.X + 1, pos.Y⟩ <;>
    cases h3 : h.IsWalkable ⟨pos.X, pos.Y + 1⟩ <;> cases h4 : h.IsWalkable ⟨pos.X - 1, pos.Y⟩ <;>
    simp [List.filter, h1, h2, h3, h4]

theorem neighbours_nodup (pos : Position) :
    ([⟨pos.X, pos.Y - 1⟩, ⟨pos.X + 1, pos.Y⟩, ⟨pos.X, pos.Y + 1⟩, ⟨pos.X - 1, pos.Y⟩] :
      List Position).Nodup := by
  simp only [List.nodup_cons, List.mem_cons, List.mem_singleton, Position.mk.injEq,
    List.not_mem_nil, not_false_eq_true, List.nodup_nil, and_true, not_or]
  omega

/-- Claim C10. `GetAdjacentWalkablePositions pos` is the list north, east, south, west of
`pos` filtered by `IsWalkable`, in that order; it has no duplicates and at most four
elements, each of them walkable and at Manhattan distance 1 from `pos`, and every
walkable cardinal neighbour is in it. -/
theorem C10_adjacent_spec (h : GameHelpers) (pos : Position) :
    h.GetAdjacentWalkablePositions pos =
        ([⟨pos.X, pos.Y - 1⟩, ⟨pos.X + 1, pos.Y⟩, ⟨pos.X, pos.Y + 1⟩, ⟨pos.X - 1, pos.Y⟩] :
          List Position).filter h.IsWalkable ∧
      (h.GetAdjacentWalkablePositions pos).Nodup ∧
      (h.GetAdjacentWalkablePositions pos).length ≤ 4 ∧
      (∀ q ∈ h.GetAdjacentWalkablePositions pos,
        h.IsWalkable q = true ∧ |q.X - pos.X| + |q.Y - pos.Y| = 1) ∧
      (∀ q : Position, |q.X - pos.X| + |q.Y - pos.Y| = 1 → h.IsWalkable q = true →
        q ∈ h.GetAdjacentWalkablePositions pos) ∧
      (GameHelpers.mk adjacentTestState).GetAdjacentWalkablePositions ⟨1, 1⟩ =
        [⟨1, 2⟩, ⟨0, 1⟩] := by
  refine ⟨getAdjacentWalkablePositions_eq h pos, ?_, ?_, ?_, ?_, by decide⟩
  · rw [getAdjacentWalkablePositions_eq]
    exact (neighbours_nodup pos).filter _
  · rw [getAdjacentWalkablePositions_eq]
    exact (List.length_filter_le _ _).trans (by simp)
  · intro q hq
    rw [getAdjacentWalkablePositions_eq, List.mem_filter] at hq
    refine ⟨hq.2, ?_⟩
    have hq1 := hq.1
    simp only [List.mem_cons, List.mem_singleton, List.not_mem_nil, or_false] at hq1
    rcases hq1 with rfl | rfl | rfl | rfl <;> simp
  · intro q hq hw
    rw [getAdjacentWalkablePositions_eq, List.mem_filter]
    refine ⟨?_, hw⟩
    obtain ⟨qx, qy⟩ := q
    simp only [List.mem_cons, List.mem_singleton, List.not_mem_nil, or_false, Position.mk.injEq]
    simp only at hq
    rcases abs_cases (qx - pos.X) with h1 | h1 <;> rcases abs_cases (qy - pos.Y) with h2 | h2 <;>
      omega

/-! ## Properties: the blast footprint -/

theorem mem_blastLane (h : GameHelpers) (o d p : Position) :
    p ∈ h.blastLane o d defaultBombRange 1 ↔
      (p = ⟨o.X + d.X, o.Y + d.Y⟩ ∧ h.blastEnters ⟨o.X + d.X, o.Y + d.Y⟩) ∨
      (p = ⟨o.X + 2 * d.X, o.Y + 2 * d.Y⟩ ∧ h.blastEnters ⟨o.X + d.X, o.Y + d.Y⟩ ∧
        h.State.Field.CellAt ⟨o.X + d.X, o.Y + d.Y⟩ ≠ Box ∧
        h.blastEnters ⟨o.X + 2 * d.X, o.Y + 2 * d.Y⟩) := by
  simp only [defaultBombRange, GameHelpers.blastLane, mul_one, one_add_one_eq_two,
    mul_comm d.X 2, mul_comm d.Y 2]
  unfold GameHelpers.blastEnters
  cases hob1 : h.outOfBounds ⟨o.X + d.X, o.Y + d.Y⟩ <;>
    cases hob2 : h.outOfBounds ⟨o.X + 2 * d.X, o.Y + 2 * d.Y⟩ <;>
    by_cases h1 : h.State.Field.CellAt ⟨o.X + d.X, o.Y + d.Y⟩ = Wall <;>
    by_cases h2 : h.State.Field.CellAt ⟨o.X + d.X, o.Y + d.Y⟩ = Box <;>
    by_cases h3 : h.State.Field.CellAt ⟨o.X + 2 * d.X, o.Y + 2 * d.Y⟩ = Wall <;>
    by_cases h4 : h.State.Field.CellAt ⟨o.X + 2 * d.X, o.Y + 2 * d.Y⟩ = Box <;>
    simp [h1, h2, h3, h4, Wall_ne_Box, Wall_ne_Box.symm, and_comm]

theorem blastCells_eq (h : GameHelpers) (o : Position) :
    h.blastCells o = o :: (h.blastLane o ⟨0, -1⟩ defaultBombRange 1 ++
      (h.blastLane o ⟨1, 0⟩ defaultBombRange 1 ++ (h.blastLane o ⟨0, 1⟩ defaultBombRange 1 ++
        h.blastLane o ⟨-1, 0⟩ defaultBombRange 1))) := by
  simp [GameHelpers.blastCells]

theorem mem_blastCells (h : GameHelpers) (o p : Position) :
    p ∈ h.blastCells o ↔ p = o ∨
      ∃ d ∈ ([⟨0, -1⟩, ⟨1, 0⟩, ⟨0, 1⟩, ⟨-1, 0⟩] : List Position),
        (p = ⟨o.X + d.X, o.Y + d.Y⟩ ∧ h.blastEnters ⟨o.X + d.X, o.Y + d.Y⟩) ∨
        (p = ⟨o.X + 2 * d.X, o.Y + 2 * d.Y⟩ ∧ h.blastEnters ⟨o.X + d.X, o.Y + d.Y⟩ ∧
          h.State.Field.CellAt ⟨o.X + d.X, o.Y + d.Y⟩ ≠ Box ∧
          h.blastEnters ⟨o.X + 2 * d.X, o.Y + 2 * d.Y⟩) := by
  rw [blastCells_eq]
  simp only [List.mem_cons, List.mem_append, mem_blastLane, List.mem_singleton,
    List.not_mem_nil, or_false, exists_eq_or_imp, exists_eq_left]

theorem origin_mem_blastCells (h : GameHelpers) (o : Position) : o ∈ h.blastCells o := by
  rw [blastCells_eq]; exact List.mem_cons_self _ _

/-- Claim C4. The footprint `blastCells o` consists of `o` and, for each of the four
directions `d` on its own, of `o+d` when that tile is on the board and not a Wall, and of
`o+2d` when moreover `o+d` is not a Box and `o+2d` is on the board and not a Wall. Hence
no Wall other than possibly `o` is in a footprint, nothing further than two tiles away
is, `o+2d` is in it exactly in the case just described, and the bombs (and explosions) of
the snapshot have no influence on it. -/
theorem C4_blastCells_spec (h : GameHelpers) (o : Position) :
    (∀ p : Position, p ∈ h.blastCells o ↔ p = o ∨
      ∃ d ∈ ([⟨0, -1⟩, ⟨1, 0⟩, ⟨0, 1⟩, ⟨-1, 0⟩] : List Position),
        (p = ⟨o.X + d.X, o.Y + d.Y⟩ ∧ h.blastEnters ⟨o.X + d.X, o.Y + d.Y⟩) ∨
        (p = ⟨o.X + 2 * d.X, o.Y + 2 * d.Y⟩ ∧ h.blastEnters ⟨o.X + d.X, o.Y + d.Y⟩ ∧
          h.State.Field.CellAt ⟨o.X + d.X, o.Y + d.Y⟩ ≠ Box ∧
          h.blastEnters ⟨o.X + 2 * d.X, o.Y + 2 * d.Y⟩)) ∧
    (∀ p ∈ h.blastCells o, p ≠ o →
      h.outOfBounds p = false ∧ h.State.Field.CellAt p ≠ Wall) ∧
    (∀ p ∈ h.blastCells o, |p.X - o.X| + |p.Y - o.Y| ≤ 2) ∧
    (∀ d ∈ ([⟨0, -1⟩, ⟨1, 0⟩, ⟨0, 1⟩, ⟨-1, 0⟩] : List Position),
      (⟨o.X + 2 * d.X, o.Y + 2 * d.Y⟩ ∈ h.blastCells o ↔
        (h.outOfBounds ⟨o.X + d.X, o.Y + d.Y⟩ = false ∧
          h.State.Field.CellAt ⟨o.X + d.X, o.Y + d.Y⟩ ≠ Wall ∧
          h.State.Field.CellAt ⟨o.X + d.X, o.Y + d.Y⟩ ≠ Box) ∧
        h.outOfBounds ⟨o.X + 2 * d.X, o.Y + 2 * d.Y⟩ = false ∧
          h.State.Field.CellAt ⟨o.X + 2 * d.X, o.Y + 2 * d.Y⟩ ≠ Wall)) ∧
    (∀ (bombs : List Bomb) (explosions : List Position),
      (GameHelpers.mk { h.State with Bombs := bombs, Explosions := explosions }).blastCells o =
        h.blastCells o) := by
  refine ⟨mem_blastCells h o, ?_, ?_, ?_, ?_⟩
  · intro p hp hpo
    rw [mem_blastCells] at hp
    rcases hp with rfl | ⟨d, -, ⟨rfl, h1⟩ | ⟨rfl, -, -, h2⟩⟩
    · exact absurd rfl hpo
    · exact h1
    · exact h2
  · intro p hp
    rw [mem_blastCells] at hp
    rcases hp with rfl | ⟨d, hd, hp⟩
    · simp
    · simp only [List.mem_cons, List.mem_singleton, List.not_mem_nil, or_false] at hd
      rcases hd with rfl | rfl | rfl | rfl <;> rcases hp with ⟨rfl, -⟩ | ⟨rfl, -⟩ <;>
        norm_num
  · intro d hd
    rw [mem_blastCells]
    unfold GameHelpers.blastEnters
    simp only [List.mem_cons, List.mem_singleton, List.not_mem_nil, or_false] at hd
    constructor
    · rintro (heq | ⟨d', hd', ⟨heq, -⟩ | ⟨heq, h1, h2, h3⟩⟩)
      · rw [Position.mk.injEq] at heq
        rcases hd with rfl | rfl | rfl | rfl <;> simp at heq
      · simp only [List.mem_cons, List.mem_singleton, List.not_mem_nil, or_false] at hd'
        rw [Position.mk.injEq] at heq
        rcases hd with rfl | rfl | rfl | rfl <;> rcases hd' with rfl | rfl | rfl | rfl <;>
          simp at heq
      · simp only [List.mem_cons, List.mem_singleton, List.not_mem_nil, or_false] at hd'
        rw [Position.mk.injEq] at heq
        have hdd : d = d' := by
          rcases hd with rfl | rfl | rfl | rfl <;> rcases hd' with rfl | rfl | rfl | rfl <;>
            simp at heq <;> rfl
        subst hdd
        exact ⟨⟨h1.1, h1.2, h2⟩, h3⟩
    · rintro ⟨⟨h1, h2, h3⟩, h4⟩
      exact Or.inr ⟨d, by simpa using hd, Or.inr ⟨rfl, ⟨h1, h2⟩, h3, h4⟩⟩
  · intro bombs explosions
    rfl

/-! ## Properties: the danger map -/

theorem getD_set_true (t : List Bool) (i j : Nat) :
    (t.set i true).getD j false = true ↔ (j = i ∧ i < t.length) ∨ t.getD j false = true := by
  simp only [List.getD_eq_getElem?_getD, List.getElem?_set]
  by_cases hij : i = j
  · subst hij
    by_cases hl : i < t.length
    · simp [hl]
    · have : t[i]? = none := List.getElem?_eq_none (by omega)
      simp [hl, this]
  · simp only [hij, if_false]
    constructor
    · exact Or.inr
    · rintro (⟨h1, -⟩ | h1)
      · exact absurd h1.symm hij
      · exact h1

theorem getD_lt_of_true (t : List Bool) (i : Nat) (ht : t.getD i false = true) :
    i < t.length := by
  by_contra hl
  have : t[i]? = none := List.getElem?_eq_none (by omega)
  simp [List.getD_eq_getElem?_getD, this] at ht

theorem count_false_set (t : List Bool) (i : Nat) (hi : i < t.length)
    (hf : t.getD i false = false) : (t.set i true).count false + 1 = t.count false := by
  induction t generalizing i with
  | nil => simp at hi
  | cons a t ih =>
    cases i with
    | zero =>
      have ha : a = false := by simpa using hf
      subst ha
      simp
    | succ i =>
      have hi' : i < t.length := by simpa using hi
      have hf' : t.getD i false = false := by simpa using hf
      have := ih i hi' hf'
      cases a <;> simp [List.count_cons] <;> omega

theorem mapGet_buildBombIndex (rest : List Bomb) (k : Nat) (m : List (Position × Nat))
    (p : Position) (i : Nat) (hget : mapGet (buildBombIndex rest k m) p = some i) :
    mapGet m p = some i ∨ ∃ b, rest[i - k]? = some b ∧ k ≤ i ∧ b.Pos = p := by
  induction rest generalizing k m with
  | nil => exact Or.inl hget
  | cons b rest ih =>
    rcases ih (k + 1) (mapSet m b.Pos k) hget with h1 | ⟨b', hb', hk, hp⟩
    · simp only [mapSet, mapGet] at h1
      by_cases hbp : b.Pos = p
      · rw [if_pos hbp] at h1
        have hik : k = i := by simpa using h1
        subst hik
        exact Or.inr ⟨b, by simp, le_refl _, hbp⟩
      · rw [if_neg hbp] at h1
        exact Or.inl h1
    · refine Or.inr ⟨b', ?_, by omega, hp⟩
      have : i - k = (i - (k + 1)) + 1 := by omega
      rw [this, List.getElem?_cons_succ]
      exact hb'

theorem mapGet_buildBombIndex_isSome (rest : List Bomb) (k : Nat) (m : List (Position × Nat))
    (p : Position) (hp : (mapGet m p).isSome = true ∨ ∃ b ∈ rest, b.Pos = p) :
    (mapGet (buildBombIndex rest k m) p).isSome = true := by
  induction rest generalizing k m with
  | nil =>
    rcases hp with hp | ⟨b, hb, -⟩
    · exact hp
    · simp at hb
  | cons b rest ih =>
    apply ih (k + 1) (mapSet m b.Pos k)
    by_cases hbp : b.Pos = p
    · left; simp [mapSet, mapGet, hbp]
    · rcases hp with hp | ⟨b', hb', hb'p⟩
      · left; simpa [mapSet, mapGet, hbp] using hp
      · rcases List.mem_cons.mp hb' with rfl | hmem
        · exact absurd hb'p hbp
        · exact Or.inr ⟨b', hmem, hb'p⟩

/-- What the bomb index of `computeDangerPositions` gives at a position: a bomb at that place. -/
theorem bombIndex_some (bombs : List Bomb) (p : Position) (i : Nat)
    (hget : mapGet (buildBombIndex bombs 0 []) p = some i) :
    ∃ b, bombs[i]? = some b ∧ b.Pos = p := by
  rcases mapGet_buildBombIndex bombs 0 [] p i hget with h1 | ⟨b, hb, -, hp⟩
  · simp [mapGet] at h1
  · exact ⟨b, by simpa using hb, hp⟩

theorem bombIndex_of_mem (bombs : List Bomb) (b : Bomb) (hb : b ∈ bombs) :
    ∃ i, mapGet (buildBombIndex bombs 0 []) b.Pos = some i :=
  Option.isSome_iff_exists.mp
    (mapGet_buildBombIndex_isSome bombs 0 [] b.Pos (Or.inr ⟨b, hb, rfl⟩))

theorem markCell_cases (bi : List (Position × Nat)) (s : DangerState) (c : Position) :
    (∃ j, mapGet bi c = some j ∧ s.triggered.getD j false = false ∧
      markCell bi s c = ⟨c :: s.danger, s.triggered.set j true, s.queue ++ [j]⟩) ∨
    ((∀ j, mapGet bi c = some j → s.triggered.getD j false = true) ∧
      markCell bi s c = ⟨c :: s.danger, s.triggered, s.queue⟩) := by
  unfold markCell
  cases hget : mapGet bi c with
  | none => right; exact ⟨by simp, rfl⟩
  | some j =>
    cases ht : s.triggered.getD j false with
    | false =>
      left
      refine ⟨j, rfl, ht, ?_⟩
      show (if (!s.triggered.getD j false) = true then _ else _) = _
      rw [ht]; rfl
    | true =>
      right
      refine ⟨fun j' hj' => by cases hj'; exact ht, ?_⟩
      show (if (!s.triggered.getD j false) = true then _ else _) = _
      rw [ht]; rfl

theorem Grows.refl (s : DangerState) : Grows s s :=
  ⟨fun _ hp => hp, fun _ hi => hi, fun _ hi => Or.inl hi, fun _ hi => hi, rfl, rfl⟩

theorem Grows.trans {s1 s2 s3 : DangerState} (h12 : Grows s1 s2) (h23 : Grows s2 s3) :
    Grows s1 s3 where
  danger p hp := h23.danger p (h12.danger p hp)
  trig i hi := h23.trig i (h12.trig i hi)
  fresh i hi := by
    rcases h23.fresh i hi with h2 | h2
    · rcases h12.fresh i h2 with h1 | h1
      · exact Or.inl h1
      · exact Or.inr (h23.queue i h1)
    · exact Or.inr h2
  queue i hi := h23.queue i (h12.queue i hi)
  len := h23.len.trans h12.len
  measure := h23.measure.trans h12.measure

theorem Covered.mono {h : GameHelpers} {s1 s2 : DangerState} {c : Position}
    (hg : Grows s1 s2) (hc : Covered h s1 c) : Covered h s2 c :=
  ⟨hg.danger c hc.1, fun j hj => hg.trig j (hc.2 j hj)⟩

theorem markCell_grows (h : GameHelpers) (s : DangerState) (c : Position)
    (hlen : s.triggered.length = h.State.Bombs.length) :
    Grows s (markCell h.bombIndex s c) ∧ Covered h (markCell h.bombIndex s c) c := by
  rcases markCell_cases h.bombIndex s c with ⟨j, hj, hf, heq⟩ | ⟨hall, heq⟩
  · obtain ⟨b, hb, -⟩ := bombIndex_some h.State.Bombs c j hj
    have hjlt : j < s.triggered.length := by
      rw [hlen]; exact (List.getElem?_eq_some.mp hb).1
    rw [heq]
    refine ⟨⟨?_, ?_, ?_, ?_, ?_, ?_⟩, ?_, ?_⟩
    · intro p hp; exact List.mem_cons_of_mem _ hp
    · intro i hi; exact (getD_set_true _ _ _).mpr (Or.inr hi)
    · intro i hi
      rcases (getD_set_true _ _ _).mp hi with ⟨rfl, -⟩ | h1
      · right; simp
      · exact Or.inl h1
    · intro i hi; exact List.mem_append_left _ hi
    · simp
    · have := count_false_set s.triggered j hjlt hf
      simp only [List.length_append, List.length_singleton]
      omega
    · exact List.mem_cons_self _ _
    · intro j' hj'
      rw [hj] at hj'
      cases hj'
      exact (getD_set_true _ _ _).mpr (Or.inl ⟨rfl, hjlt⟩)
  · rw [heq]
    exact ⟨⟨fun p hp => List.mem_cons_of_mem _ hp, fun _ hi => hi, fun _ hi => Or.inl hi,
      fun _ hi => hi, rfl, rfl⟩, List.mem_cons_self _ _, hall⟩

/-- A cell that `markCell` may be run on without breaking soundness: every bomb on it
detonates, and the cell is an explosion or in the footprint of a detonating bomb. -/
theorem markCell_sound (h : GameHelpers) (s : DangerState) (c : Position)
    (hs : DangerSound h s)
    (hbomb : ∀ b ∈ h.State.Bombs, b.Pos = c → Detonating h c)
    (hcell : c ∈ h.State.Explosions ∨ ∃ q, Detonating h q ∧ c ∈ h.blastCells q) :
    DangerSound h (markCell h.bombIndex s c) := by
  have hg := (markCell_grows h s c hs.len).1
  rcases markCell_cases h.bombIndex s c with ⟨j, hj, hf, heq⟩ | ⟨hall, heq⟩
  · obtain ⟨b, hb, hbc⟩ := bombIndex_some h.State.Bombs c j hj
    have hdet : Detonating h b.Pos := by
      rw [hbc]; exact hbomb b (List.mem_iff_getElem?.mpr ⟨j, hb⟩) hbc
    have hjlt : j < s.triggered.length := by
      rw [hs.len]; exact (List.getElem?_eq_some.mp hb).1
    refine ⟨hg.len.trans hs.len, ?_, ?_, ?_⟩
    · intro i hi
      rw [heq] at hi ⊢
      rcases List.mem_append.mp hi with h1 | h1
      · exact (getD_set_true _ _ _).mpr (Or.inr (hs.queued i h1))
      · have : i = j := by simpa using h1
        subst this
        exact (getD_set_true _ _ _).mpr (Or.inl ⟨rfl, hjlt⟩)
    · intro i hi
      rw [heq] at hi
      rcases (getD_set_true _ _ _).mp hi with ⟨rfl, -⟩ | h1
      · exact ⟨b, hb, hdet⟩
      · exact hs.trig i h1
    · intro p hp
      rw [heq] at hp
      rcases List.mem_cons.mp hp with rfl | h1
      · exact hcell
      · exact hs.danger p h1
  · rw [heq]
    refine ⟨hs.len, hs.queued, hs.trig, ?_⟩
    intro p hp
    rcases List.mem_cons.mp hp with rfl | h1
    · exact hcell
    · exact hs.danger p h1

theorem foldl_markCell (h : GameHelpers) (cells : List Position) (s : DangerState)
    (hs : DangerSound h s)
    (hbomb : ∀ c ∈ cells, ∀ b ∈ h.State.Bombs, b.Pos = c → Detonating h c)
    (hcell : ∀ c ∈ cells,
      c ∈ h.State.Explosions ∨ ∃ q, Detonating h q ∧ c ∈ h.blastCells q) :
    DangerSound h (cells.foldl (markCell h.bombIndex) s) ∧
      Grows s (cells.foldl (markCell h.bombIndex) s) ∧
      ∀ c ∈ cells, Covered h (cells.foldl (markCell h.bombIndex) s) c := by
  induction cells generalizing s with
  | nil => exact ⟨hs, Grows.refl s, fun c hc => by simp at hc⟩
  | cons c cells ih =>
    have h1 := markCell_sound h s c hs (hbomb c (List.mem_cons_self _ _))
      (hcell c (List.mem_cons_self _ _))
    have h2 := markCell_grows h s c hs.len
    obtain ⟨i1, i2, i3⟩ := ih (markCell h.bombIndex s c) h1
      (fun c' hc' => hbomb c' (List.mem_cons_of_mem _ hc'))
      (fun c' hc' => hcell c' (List.mem_cons_of_mem _ hc'))
    refine ⟨i1, h2.1.trans i2, ?_⟩
    intro c' hc'
    rcases List.mem_cons.mp hc' with rfl | hmem
    · exact h2.2.mono i2
    · exact i3 c' hmem

theorem seedFuses_spec (h : GameHelpers) (rest : List Bomb) (k : Nat) (s : DangerState)
    (hrest : ∀ i, rest[i]? = h.State.Bombs[k + i]?) (hs : DangerSound h s) :
    DangerSound h (seedFuses rest k s) ∧ Grows s (seedFuses rest k s) ∧
      ∀ i b, rest[i]? = some b → b.Fuse ≤ 1 →
        (seedFuses rest k s).triggered.getD (k + i) false = true := by
  induction rest generalizing k s with
  | nil => exact ⟨hs, Grows.refl s, fun i b hb => by simp at hb⟩
  | cons b rest ih =>
    have hb : h.State.Bombs[k]? = some b := by
      have := hrest 0
      simpa using this.symm
    have hklt : k < s.triggered.length := by
      rw [hs.len]; exact (List.getElem?_eq_some.mp hb).1
    have hrest' : ∀ i, rest[i]? = h.State.Bombs[k + 1 + i]? := by
      intro i
      have := hrest (i + 1)
      rw [List.getElem?_cons_succ] at this
      rw [this]; congr 1; omega
    unfold seedFuses
    by_cases hc : b.Fuse ≤ 1 ∧ (!(s.triggered.getD k false)) = true
    · rw [if_pos hc]
      have hf : s.triggered.getD k false = false := by simpa using hc.2
      have hmem : b ∈ h.State.Bombs := List.mem_iff_getElem?.mpr ⟨k, hb⟩
      have hs1 : DangerSound h
          { s with triggered := s.triggered.set k true, queue := s.queue ++ [k] } := by
        refine ⟨by simpa using hs.len, ?_, ?_, hs.danger⟩
        · intro i hi
          rcases List.mem_append.mp hi with h1 | h1
          · exact (getD_set_true _ _ _).mpr (Or.inr (hs.queued i h1))
          · have : i = k := by simpa using h1
            subst this
            exact (getD_set_true _ _ _).mpr (Or.inl ⟨rfl, hklt⟩)
        · intro i hi
          rcases (getD_set_true _ _ _).mp hi with ⟨rfl, -⟩ | h1
          · exact ⟨b, hb, Detonating.fuse b hmem hc.1⟩
          · exact hs.trig i h1
      have hg1 : Grows s
          { s with triggered := s.triggered.set k true, queue := s.queue ++ [k] } := by
        refine ⟨fun p hp => hp, ?_, ?_, ?_, by simp, ?_⟩
        · intro i hi; exact (getD_set_true _ _ _).mpr (Or.inr hi)
        · intro i hi
          rcases (getD_set_true _ _ _).mp hi with ⟨rfl, -⟩ | h1
          · right; simp
          · exact Or.inl h1
        · intro i hi; exact List.mem_append_left _ hi
        · have := count_false_set s.triggered k hklt hf
          simp only [List.length_append, List.length_singleton]
          omega
      obtain ⟨i1, i2, i3⟩ := ih (k + 1) _ hrest' hs1
      refine ⟨i1, hg1.trans i2, ?_⟩
      intro i b' hb' hfuse
      cases i with
      | zero => exact i2.trig k ((getD_set_true _ _ _).mpr (Or.inl ⟨rfl, hklt⟩))
      | succ i =>
        rw [List.getElem?_cons_succ] at hb'
        have := i3 i b' hb' hfuse
        rwa [show k + (i + 1) = k + 1 + i by omega]
    · rw [if_neg hc]
      obtain ⟨i1, i2, i3⟩ := ih (k + 1) s hrest' hs
      refine ⟨i1, i2, ?_⟩
      intro i b' hb' hfuse
      cases i with
      | zero =>
        have hbb : b' = b := by simpa using hb'.symm
        subst hbb
        have : s.triggered.getD k false = true := by
          by_contra hne
          exact hc ⟨hfuse, by simpa using hne⟩
        exact i2.trig k this
      | succ i =>
        rw [List.getElem?_cons_succ] at hb'
        have := i3 i b' hb' hfuse
        rwa [show k + (i + 1) = k + 1 + i by omega]

/-- The worklist loop of `computeDangerPositions` ends, on a fuel larger than the number of
queued plus untriggered bombs, in a state with an empty queue that keeps the invariant. -/
theorem dangerLoop_spec (h : GameHelpers) (fuel : Nat) (s : DangerState)
    (hs : DangerSound h s) (hp : Processed h s)
    (hfuel : s.queue.length + s.triggered.count false < fuel) :
    ∃ s', h.dangerLoop h.bombIndex fuel s = some s'.danger ∧ DangerSound h s' ∧
      Processed h s' ∧ s'.queue = [] ∧ (∀ p ∈ s.danger, p ∈ s'.danger) ∧
      (∀ i, s.triggered.getD i false = true → s'.triggered.getD i false = true) := by
  induction fuel generalizing s with
  | zero => omega
  | succ fuel ih =>
    obtain ⟨danger, triggered, queue⟩ := s
    cases queue with
    | nil => exact ⟨⟨danger, triggered, []⟩, rfl, hs, hp, rfl, fun p hp => hp, fun i hi => hi⟩
    | cons idx rest =>
      obtain ⟨b, hb, hdet⟩ := hs.trig idx (hs.queued idx (List.mem_cons_self _ _))
      have hs1 : DangerSound h ⟨danger, triggered, rest⟩ :=
        ⟨hs.len, fun i hi => hs.queued i (List.mem_cons_of_mem _ hi), hs.trig, hs.danger⟩
      obtain ⟨i1, i2, i3⟩ := foldl_markCell h (h.blastCells b.Pos) ⟨danger, triggered, rest⟩ hs1
        (fun c hc b' hb' hbc => by
          rw [← hbc]; exact Detonating.chain b.Pos b' hdet hb' (by rw [hbc]; exact hc))
        (fun c hc => Or.inr ⟨b.Pos, hdet, hc⟩)
      have hp2 : Processed h ((h.blastCells b.Pos).foldl (markCell h.bombIndex)
          ⟨danger, triggered, rest⟩) := by
        intro i b' hti hnq hb' c hc
        by_cases hidx : i = idx
        · subst hidx
          rw [hb] at hb'
          cases hb'
          exact i3 c hc
        · rcases i2.fresh i hti with h1 | h1
          · have hnq' : i ∉ idx :: rest := by
              intro hmem
              rcases List.mem_cons.mp hmem with h2 | h2
              · exact hidx h2
              · exact hnq (i2.queue i h2)
            have hcov := hp i b' h1 hnq' hb' c hc
            exact ⟨i2.danger c hcov.1, fun j hj => i2.trig j (hcov.2 j hj)⟩
          · exact absurd h1 hnq
      have hm := i2.measure
      simp only [List.length_cons] at hfuel hm
      obtain ⟨s', e1, e2, e3, e4, e5, e6⟩ := ih _ i1 hp2 (by omega)
      refine ⟨s', ?_, e2, e3, e4, fun p hp => e5 p (i2.danger p hp),
        fun i hi => e6 i (i2.trig i hi)⟩
      simp only [GameHelpers.dangerLoop, hb]
      exact e1

theorem dangerLoop_fuel_mono (h : GameHelpers) (bi : List (Position × Nat)) (fuel : Nat)
    (s : DangerState) (d : List Position) (hd : h.dangerLoop bi fuel s = some d) (k : Nat) :
    h.dangerLoop bi (fuel + k) s = some d := by
  induction fuel generalizing s with
  | zero => simp [GameHelpers.dangerLoop] at hd
  | succ fuel ih =>
    rw [show fuel + 1 + k = (fuel + k) + 1 by omega]
    obtain ⟨danger, triggered, queue⟩ := s
    cases queue with
    | nil => simpa [GameHelpers.dangerLoop] using hd
    | cons idx rest =>
      simp only [GameHelpers.dangerLoop] at hd ⊢
      cases hb : h.State.Bombs[idx]? with
      | none => simp [hb] at hd
      | some b =>
        simp only [hb] at hd ⊢
        exact ih _ hd

theorem dangerSeed_spec (h : GameHelpers) :
    DangerSound h h.dangerSeed ∧ Processed h h.dangerSeed ∧
      h.dangerSeed.queue.length + h.dangerSeed.triggered.count false = h.State.Bombs.length ∧
      (∀ e ∈ h.State.Explosions, Covered h h.dangerSeed e) ∧
      (∀ i b, h.State.Bombs[i]? = some b → b.Fuse ≤ 1 →
        h.dangerSeed.triggered.getD i false = true) := by
  have hnone : ∀ i, (List.replicate h.State.Bombs.length false).getD i false = false := by
    intro i
    rw [List.getD_eq_getElem?_getD, List.getElem?_replicate]
    split <;> rfl
  have hs0 : DangerSound h ⟨[], List.replicate h.State.Bombs.length false, []⟩ := by
    refine ⟨by simp, fun i hi => by simp at hi, ?_, fun p hp => by simp at hp⟩
    intro i hi
    rw [hnone i] at hi
    cases hi
  obtain ⟨a1, a2, a3⟩ := foldl_markCell h h.State.Explosions _ hs0
    (fun c hc b hb hbc => by
      rw [← hbc]; exact Detonating.explosion b hb (by rw [hbc]; exact hc))
    (fun c hc => Or.inl hc)
  obtain ⟨b1, b2, b3⟩ := seedFuses_spec h h.State.Bombs 0 _ (fun i => by simp) a1
  have hg := a2.trans b2
  refine ⟨b1, ?_, ?_, ?_, ?_⟩
  · intro i b hti hnq
    rcases hg.fresh i hti with h1 | h1
    · rw [hnone i] at h1
      cases h1
    · exact absurd h1 hnq
  · have := hg.measure
    simp only [List.length_nil, List.count_replicate_self, zero_add] at this
    exact this
  · intro e he
    exact (a3 e he).mono b2
  · intro i b hb hfuse
    have := b3 i b hb hfuse
    rwa [zero_add] at this

/-- The run of `computeDangerPositions` on one more unit of fuel than there are bombs ends
with an empty queue in a state that keeps the invariant and covers the seeds. -/
theorem computeDangerPositions_final (h : GameHelpers) :
    ∃ s', h.computeDangerPositionsFuel (h.State.Bombs.length + 1) = some s'.danger ∧
      DangerSound h s' ∧ Processed h s' ∧ s'.queue = [] ∧
      (∀ e ∈ h.State.Explosions, Covered h s' e) ∧
      (∀ i b, h.State.Bombs[i]? = some b → b.Fuse ≤ 1 →
        s'.triggered.getD i false = true) := by
  obtain ⟨c1, c2, c3, c4, c5⟩ := dangerSeed_spec h
  obtain ⟨s', e1, e2, e3, e4, e5, e6⟩ :=
    dangerLoop_spec h (h.State.Bombs.length + 1) h.dangerSeed c1 c2 (by omega)
  refine ⟨s', e1, e2, e3, e4, ?_, ?_⟩
  · intro e he
    have := c4 e he
    exact ⟨e5 e this.1, fun j hj => e6 j (this.2 j hj)⟩
  · intro i b hb hfuse
    exact e6 i (c5 i b hb hfuse)

theorem computeDangerPositionsFuel_eq (h : GameHelpers) (fuel : Nat)
    (hfuel : h.State.Bombs.length + 1 ≤ fuel) :
    h.computeDangerPositionsFuel fuel = some h.computeDangerPositions := by
  obtain ⟨s', e1, -⟩ := computeDangerPositions_final h
  have e2 : h.computeDangerPositions = s'.danger := by
    unfold GameHelpers.computeDangerPositions
    rw [e1]
  rw [e2]
  obtain ⟨k, rfl⟩ := Nat.exists_eq_add_of_le hfuel
  exact dangerLoop_fuel_mono h h.bombIndex _ _ _ e1 k

theorem mem_computeDangerPositions (h : GameHelpers) (p : Position) :
    p ∈ h.computeDangerPositions ↔
      p ∈ h.State.Explosions ∨ ∃ q, Detonating h q ∧ p ∈ h.blastCells q := by
  obtain ⟨s', e1, hs, hp, hq, hE, hF⟩ := computeDangerPositions_final h
  have e2 : h.computeDangerPositions = s'.danger := by
    unfold GameHelpers.computeDangerPositions
    rw [e1]
  rw [e2]
  have hcov : ∀ b ∈ h.State.Bombs, Covered h s' b.Pos →
      ∃ i b', s'.triggered.getD i false = true ∧ h.State.Bombs[i]? = some b' ∧
        b'.Pos = b.Pos := by
    intro b hb hc
    obtain ⟨j, hj⟩ := bombIndex_of_mem h.State.Bombs b hb
    obtain ⟨b', hb', hpos⟩ := bombIndex_some h.State.Bombs b.Pos j hj
    exact ⟨j, b', hc.2 j hj, hb', hpos⟩
  have hdet : ∀ q, Detonating h q →
      ∃ i b, s'.triggered.getD i false = true ∧ h.State.Bombs[i]? = some b ∧ b.Pos = q := by
    intro q hq'
    induction hq' with
    | fuse b hb hfuse =>
      obtain ⟨i, hi⟩ := List.mem_iff_getElem?.mp hb
      exact ⟨i, b, hF i b hi hfuse, hi, rfl⟩
    | explosion b hb hex => exact hcov b hb (hE b.Pos hex)
    | chain q b _ hb hblast ih =>
      obtain ⟨i, b0, ht, hb0, hpos⟩ := ih
      have hni : i ∉ s'.queue := by rw [hq]; simp
      apply hcov b hb
      apply hp i b0 ht hni hb0
      rw [hpos]; exact hblast
  constructor
  · exact hs.danger p
  · rintro (hex | ⟨q, hq', hblast⟩)
    · exact (hE p hex).1
    · obtain ⟨i, b0, ht, hb0, hpos⟩ := hdet q hq'
      have hni : i ∉ s'.queue := by rw [hq]; simp
      exact (hp i b0 ht hni hb0 p (by rw [hpos]; exact hblast)).1

theorem detonating_closed (h : GameHelpers) : DetonationClosed h {q | Detonating h q} :=
  ⟨fun b hb hf => Detonating.fuse b hb hf, fun b hb he => Detonating.explosion b hb he,
    fun q hq b hb hc => Detonating.chain q b hq hb hc⟩

theorem detonating_least (h : GameHelpers) (D : Set Position) (hD : DetonationClosed h D) :
    {q | Detonating h q} ⊆ D := by
  intro q hq
  induction hq with
  | fuse b hb hf => exact hD.1 b hb hf
  | explosion b hb he => exact hD.2.1 b hb he
  | chain q b _ hb hc ih => exact hD.2.2 q ih b hb hc

theorem detonating_is_bomb (h : GameHelpers) (q : Position) (hq : Detonating h q) :
    ∃ b ∈ h.State.Bombs, b.Pos = q := by
  cases hq with
  | fuse b hb _ => exact ⟨b, hb, rfl⟩
  | explosion b hb _ => exact ⟨b, hb, rfl⟩
  | chain _ b _ hb _ => exact ⟨b, hb, rfl⟩

/-- Claim C2. The danger map of `computeDangerPositions` is the set of the explosion
positions united with the blast footprints of the detonating bombs, where the detonating
bombs are the least set of bomb positions that holds every bomb with fuse at most 1, every
bomb on an explosion position, and every bomb in the footprint of a bomb of the set,
whatever its fuse; no other position is in the map. The worklist loop needs at most one
round per bomb and one more to see the empty queue. -/
theorem C2_danger_map_spec (h : GameHelpers) :
    (∀ fuel, h.State.Bombs.length + 1 ≤ fuel →
      h.computeDangerPositionsFuel fuel = some h.computeDangerPositions) ∧
    ∃ D : Set Position, DetonationClosed h D ∧
      (∀ D' : Set Position, DetonationClosed h D' → D ⊆ D') ∧
      (∀ q ∈ D, ∃ b ∈ h.State.Bombs, b.Pos = q) ∧
      ∀ p : Position, p ∈ h.computeDangerPositions ↔
        (p ∈ h.State.Explosions ∨ ∃ q ∈ D, p ∈ h.blastCells q) :=
  ⟨computeDangerPositionsFuel_eq h, {q | Detonating h q}, detonating_closed h,
    detonating_least h, detonating_is_bomb h, mem_computeDangerPositions h⟩

theorem C2_danger_map_spec_witness :
    chainTestState.Bombs.length + 1 ≤ 3 ∧
      (GameHelpers.mk chainTestState).computeDangerPositionsFuel 3 =
        some (GameHelpers.mk chainTestState).computeDangerPositions :=
  ⟨by decide, (C2_danger_map_spec ⟨chainTestState⟩).1 3 (by decide)⟩

theorem isSafe_iff (h : GameHelpers) (pos : Position) :
    h.IsSafe pos = true ↔
      h.outOfBounds pos = false ∧ bombAt h.State.Bombs pos = false ∧
        pos ∉ h.computeDangerPositions := by
  unfold GameHelpers.IsSafe
  cases hob : h.outOfBounds pos <;> cases hb : bombAt h.State.Bombs pos <;>
    by_cases hd : pos ∈ h.computeDangerPositions <;> simp [hd]

/-- Claim C3. `IsSafe pos` holds exactly when `pos` lies inside `[0,Width) x [0,Height)`,
no bomb of the snapshot is located at `pos`, and `pos` is not in the danger map; hence
no explosion position is safe. -/
theorem C3_isSafe_spec (h : GameHelpers) (pos : Position) :
    (h.IsSafe pos = true ↔
      ((0 ≤ pos.X ∧ pos.X < h.State.Field.Width ∧ 0 ≤ pos.Y ∧ pos.Y < h.State.Field.Height) ∧
        (∀ b ∈ h.State.Bombs, b.Pos ≠ pos) ∧ pos ∉ h.computeDangerPositions)) ∧
    (∀ e ∈ h.State.Explosions, h.IsSafe e = false) := by
  refine ⟨?_, ?_⟩
  · rw [isSafe_iff, outOfBounds_eq_false, bombAt_eq_false]
  · intro e he
    rw [← Bool.not_eq_true, isSafe_iff]
    intro hsafe
    exact hsafe.2.2 ((mem_computeDangerPositions h e).mpr (Or.inl he))

theorem C3_isSafe_spec_witness :
    (⟨0, 0⟩ : Position) ∈ chainTestState.Explosions ∧
      (GameHelpers.mk chainTestState).IsSafe ⟨0, 0⟩ = false :=
  ⟨by decide, (C3_isSafe_spec ⟨chainTestState⟩ ⟨0, 0⟩).2 ⟨0, 0⟩ (by decide)⟩

/-- Claim C5. In the snapshot of the chain-reaction test (5x5, Wall at (2,1), bombs at
(2,2) with fuse 1 and at (4,2) with fuse 5, an explosion at (0,0)): (2,0) is safe, the
Wall at (2,1) keeping the footprint of the first bomb away from it; (2,3) is unsafe;
(4,3) and (4,4) are unsafe, being in the footprint of the second bomb, which lies in the
footprint of the first one; (0,0) is unsafe. Without the first bomb, (4,3) and (4,4) are
safe: the fuse of 5 alone endangers nothing. -/
theorem C5_chain_reaction_example :
    (GameHelpers.mk chainTestState).IsSafe ⟨2, 0⟩ = true ∧
      (GameHelpers.mk chainTestState).IsSafe ⟨2, 3⟩ = false ∧
      (GameHelpers.mk chainTestState).IsSafe ⟨4, 3⟩ = false ∧
      (GameHelpers.mk chainTestState).IsSafe ⟨4, 4⟩ = false ∧
      (GameHelpers.mk chainTestState).IsSafe ⟨0, 0⟩ = false ∧
      chainTestState.Field.CellAt ⟨2, 1⟩ = Wall ∧
      (⟨2, 1⟩ : Position) ∉ (GameHelpers.mk chainTestState).blastCells ⟨2, 2⟩ ∧
      (⟨2, 0⟩ : Position) ∉ (GameHelpers.mk chainTestState).blastCells ⟨2, 2⟩ ∧
      (⟨2, 3⟩ : Position) ∈ (GameHelpers.mk chainTestState).blastCells ⟨2, 2⟩ ∧
      (⟨4, 2⟩ : Position) ∈ (GameHelpers.mk chainTestState).blastCells ⟨2, 2⟩ ∧
      (⟨4, 3⟩ : Position) ∈ (GameHelpers.mk chainTestState).blastCells ⟨4, 2⟩ ∧
      (⟨4, 4⟩ : Position) ∈ (GameHelpers.mk chainTestState).blastCells ⟨4, 2⟩ ∧
      (GameHelpers.mk { chainTestState with Bombs := [⟨⟨4, 2⟩, 5⟩] }).IsSafe ⟨4, 3⟩ = true ∧
      (GameHelpers.mk { chainTestState with Bombs := [⟨⟨4, 2⟩, 5⟩] }).IsSafe ⟨4, 4⟩ = true := by
  decide

theorem C4_blastCells_spec_witness :
    (⟨2, 3⟩ : Position) ∈ (GameHelpers.mk chainTestState).blastCells ⟨2, 2⟩ ∧
      (GameHelpers.mk chainTestState).outOfBounds ⟨2, 3⟩ = false ∧
      chainTestState.Field.CellAt ⟨2, 3⟩ ≠ Wall :=
  ⟨by decide, (C4_blastCells_spec ⟨chainTestState⟩ ⟨2, 2⟩).2.1 ⟨2, 3⟩ (by decide) (by decide)⟩

/-! ## Properties: breadth-first search -/

theorem Hops.start_eq {R : Position → Position → Prop} {a b : Position}
    (hh : Hops R a b 0) : b = a := by
  cases hh; rfl

theorem Hops.prepend {R : Position → Position → Prop} {a b c : Position} {n : Nat}
    (hab : R a b) (hbc : Hops R b c n) : Hops R a c (n + 1) := by
  induction hbc with
  | zero => exact Hops.succ Hops.zero hab
  | succ _ hstep ih => exact Hops.succ ih hstep

theorem Hops.weaken {R S : Position → Position → Prop} {a b : Position} {n : Nat}
    (hRS : ∀ p q, R p q → S p q) (hh : Hops R a b n) : Hops S a b n := by
  induction hh with
  | zero => exact Hops.zero
  | succ _ hstep ih => exact Hops.succ ih (hRS _ _ hstep)

theorem MinHops.unique {R : Position → Position → Prop} {a b : Position} {d e : Nat}
    (hd : MinHops R a b d) (he : MinHops R a b e) : d = e :=
  le_antisymm (hd.2 e he.1) (he.2 d hd.1)

theorem MinHops.self (R : Position → Position → Prop) (a : Position) : MinHops R a a 0 :=
  ⟨Hops.zero, fun _ _ => Nat.zero_le _⟩

theorem MinHops.pred {R : Position → Position → Prop} {a v : Position} {k : Nat}
    (hv : MinHops R a v (k + 1)) : ∃ u, MinHops R a u k ∧ R u v := by
  obtain ⟨hh, hmin⟩ := hv
  cases hh with
  | succ hu hstep =>
    refine ⟨_, ⟨hu, ?_⟩, hstep⟩
    intro j hj
    have := hmin (j + 1) (Hops.succ hj hstep)
    omega

theorem Hops.exists_min {R : Position → Position → Prop} {a v : Position} {k : Nat}
    (hh : Hops R a v k) : ∃ m, m ≤ k ∧ MinHops R a v m := by
  induction k using Nat.strong_induction_on with
  | _ k ih =>
    by_cases hex : ∃ j, j < k ∧ Hops R a v j
    · obtain ⟨j, hj, hhj⟩ := hex
      obtain ⟨m, hm, hmin⟩ := ih j hj hhj
      exact ⟨m, by omega, hmin⟩
    · refine ⟨k, le_refl _, hh, ?_⟩
      intro j hj
      by_contra hlt
      exact hex ⟨j, by omega, hj⟩

theorem MinHops.level {R : Position → Position → Prop} {a v : Position} {k : Nat}
    (hv : MinHops R a v k) (j : Nat) (hj : j ≤ k) : ∃ u, MinHops R a u j := by
  induction k generalizing v with
  | zero =>
    have : j = 0 := by omega
    subst this
    exact ⟨v, hv⟩
  | succ k ih =>
    by_cases hjk : j = k + 1
    · subst hjk; exact ⟨v, hv⟩
    · obtain ⟨u, hu, -⟩ := hv.pred
      exact ih hu (by omega)

/-- What `bfsExpand` does to the state: the new tiles `fresh` go to the back of the queue,
into the visited set, and get `cur` as predecessor. -/
theorem bfsExpand_spec (cur : Position) (ns : List Position) (s : SearchState) :
    ∃ fresh : List Position,
      (bfsExpand cur ns s).queue = s.queue ++ fresh ∧
      (∀ v, v ∈ (bfsExpand cur ns s).visited ↔ v ∈ s.visited ∨ v ∈ fresh) ∧
      (∀ v, v ∈ fresh ↔ v ∈ ns ∧ v ∉ s.visited) ∧
      (bfsExpand cur ns s).visited.length = s.visited.length + fresh.length ∧
      (s.visited.Nodup → (bfsExpand cur ns s).visited.Nodup) ∧
      (∀ v, mapGet (bfsExpand cur ns s).prev v =
        if v ∈ fresh then some cur else mapGet s.prev v) := by
  induction ns generalizing s with
  | nil => exact ⟨[], by simp [bfsExpand]⟩
  | cons n ns ih =>
    unfold bfsExpand
    by_cases hn : n ∈ s.visited
    · rw [if_pos hn]
      obtain ⟨fresh, h1, h2, h3, h4, h5, h6⟩ := ih s
      refine ⟨fresh, h1, h2, ?_, h4, h5, h6⟩
      intro v
      rw [h3, List.mem_cons]
      constructor
      · rintro ⟨hv, hnv⟩; exact ⟨Or.inr hv, hnv⟩
      · rintro ⟨rfl | hv, hnv⟩
        · exact absurd hn hnv
        · exact ⟨hv, hnv⟩
    · rw [if_neg hn]
      obtain ⟨fresh, h1, h2, h3, h4, h5, h6⟩ :=
        ih ⟨s.queue ++ [n], n :: s.visited, mapSet s.prev n cur⟩
      refine ⟨n :: fresh, ?_, ?_, ?_, ?_, ?_, ?_⟩
      · rw [h1]; simp
      · intro v
        rw [h2]
        simp only [List.mem_cons]
        tauto
      · intro v
        simp only [List.mem_cons, h3, not_or]
        constructor
        · rintro (rfl | ⟨hv, -, hnv⟩)
          · exact ⟨Or.inl rfl, hn⟩
          · exact ⟨Or.inr hv, hnv⟩
        · rintro ⟨rfl | hv, hnv⟩
          · exact Or.inl rfl
          · by_cases hvn : v = n
            · exact Or.inl hvn
            · exact Or.inr ⟨hv, hvn, hnv⟩
      · rw [h4]; simp only [List.length_cons]; omega
      · intro hnd
        exact h5 (List.nodup_cons.mpr ⟨hn, hnd⟩)
      · intro v
        rw [h6]
        by_cases hvf : v ∈ fresh
        · simp [hvf]
        · by_cases hvn : v = n
          · subst hvn
            simp [mapSet, mapGet]
          · have hnv : ¬ n = v := fun e => hvn e.symm
            simp [hvf, hvn, mapSet, mapGet, hnv]

theorem SearchInv.init (R : Position → Position → Prop) (stop : Position → Bool)
    (a : Position) : SearchInv R stop a ⟨[a], [a], []⟩ 0 [a] [] where
  split := rfl
  levA v hv := by
    have : v = a := by simpa using hv
    subst this; exact MinHops.self R v
  levB v hv := by simp at hv
  vis_le v hv := by
    have : v = a := by simpa using hv
    subst this; exact ⟨0, by omega, MinHops.self R v⟩
  vis_top v hv hm := by
    have : v = a := by simpa using hv
    subst this
    have := hm.unique (MinHops.self R v)
    omega
  low v k hh hk := by
    have hk0 : k = 0 := by omega
    subst hk0
    simp [hh.start_eq]
  next v hm := by
    obtain ⟨u, hu, hstep⟩ := hm.pred
    have := hu.1.start_eq
    subst this
    exact Or.inr ⟨u, by simp, hstep⟩
  prev_ok v u hget := by simp [mapGet] at hget
  prev_dom v hv hne := by
    have : v = a := by simpa using hv
    exact absurd this hne
  served v hv hnv := absurd hv hnv
  count := by simp

theorem SearchInv.shift {R : Position → Position → Prop} {stop : Position → Bool}
    {a : Position} {s : SearchState} {d : Nat} {B : List Position}
    (hinv : SearchInv R stop a s d [] B) (hB : B ≠ []) :
    SearchInv R stop a s (d + 1) B [] := by
  have hlow : ∀ v k, Hops R a v k → k ≤ d + 1 → v ∈ s.visited := by
    intro v k hh hk
    obtain ⟨m, hm, hmin⟩ := hh.exists_min
    by_cases hmd : m ≤ d
    · exact hinv.low v m hmin.1 hmd
    · have hmeq : m = d + 1 := by omega
      subst hmeq
      rcases hinv.next v hmin with hv | ⟨u, hu, -⟩
      · exact hv
      · simp at hu
  refine ⟨by simpa using hinv.split, hinv.levB, fun v hv => by simp at hv, ?_, ?_, hlow, ?_,
    hinv.prev_ok, hinv.prev_dom, hinv.served, ?_⟩
  · intro v hv
    obtain ⟨k, hk, hmin⟩ := hinv.vis_le v hv
    exact ⟨k, by omega, hmin⟩
  · intro v hv hm
    obtain ⟨k, hk, hmin⟩ := hinv.vis_le v hv
    have := hm.unique hmin
    omega
  · intro v hm
    obtain ⟨u, hu, hstep⟩ := hm.pred
    exact Or.inr ⟨u, hinv.vis_top u (hlow u (d + 1) hu.1 (le_refl _)) hu, hstep⟩
  · have := hinv.count
    have hpos : 0 < B.length := List.length_pos.mpr hB
    simp only [List.length_nil]
    omega

theorem SearchInv.step {R : Position → Position → Prop} {stop : Position → Bool}
    {nbrs : Position → List Position} (hn : ∀ p q, q ∈ nbrs p ↔ R p q)
    {a : Position} {s : SearchState} {d : Nat} {c : Position} {A B : List Position}
    (hinv : SearchInv R stop a s d (c :: A) B) (hstop : stop c = false) :
    ∃ B', SearchInv R stop a (bfsExpand c (nbrs c) { s with queue := A ++ B }) d A B' := by
  obtain ⟨fresh, h1, h2, h3, h4, -, h6⟩ :=
    bfsExpand_spec c (nbrs c) { s with queue := A ++ B }
  simp only at h1 h2 h3 h4 h6
  have hc : MinHops R a c d := hinv.levA c (List.mem_cons_self _ _)
  have hcv : c ∈ s.visited := hinv.low c d hc.1 (le_refl _)
  have hfresh : ∀ v ∈ fresh, MinHops R a v (d + 1) := by
    intro v hv
    obtain ⟨hvn, hvv⟩ := (h3 v).mp hv
    refine ⟨Hops.succ hc.1 ((hn c v).mp hvn), ?_⟩
    intro k hk
    by_contra hlt
    exact hvv (hinv.low v k hk (by omega))
  refine ⟨B ++ fresh, ?_, ?_, ?_, ?_, ?_, ?_, ?_, ?_, ?_, ?_, ?_⟩
  · rw [h1, List.append_assoc]
  · intro v hv; exact hinv.levA v (List.mem_cons_of_mem _ hv)
  · intro v hv
    rcases List.mem_append.mp hv with hv | hv
    · exact hinv.levB v hv
    · exact hfresh v hv
  · intro v hv
    rcases (h2 v).mp hv with hv | hv
    · exact hinv.vis_le v hv
    · exact ⟨d + 1, le_refl _, hfresh v hv⟩
  · intro v hv hm
    rcases (h2 v).mp hv with hv | hv
    · exact List.mem_append_left _ (hinv.vis_top v hv hm)
    · exact List.mem_append_right _ hv
  · intro v k hh hk
    exact (h2 v).mpr (Or.inl (hinv.low v k hh hk))
  · intro v hm
    rcases hinv.next v hm with hv | ⟨u, hu, hstep⟩
    · exact Or.inl ((h2 v).mpr (Or.inl hv))
    · rcases List.mem_cons.mp hu with rfl | hu
      · by_cases hvv : v ∈ s.visited
        · exact Or.inl ((h2 v).mpr (Or.inl hvv))
        · exact Or.inl ((h2 v).mpr (Or.inr ((h3 v).mpr ⟨(hn u v).mpr hstep, hvv⟩)))
      · exact Or.inr ⟨u, hu, hstep⟩
  · intro v u hget
    rw [h6] at hget
    by_cases hvf : v ∈ fresh
    · rw [if_pos hvf] at hget
      have : c = u := by simpa using hget
      subst this
      exact ⟨(h2 c).mpr (Or.inl hcv), (hn c v).mp ((h3 v).mp hvf).1, d, hc, hfresh v hvf⟩
    · rw [if_neg hvf] at hget
      obtain ⟨p1, p2, p3⟩ := hinv.prev_ok v u hget
      exact ⟨(h2 u).mpr (Or.inl p1), p2, p3⟩
  · intro v hv hne
    rw [h6]
    by_cases hvf : v ∈ fresh
    · exact ⟨c, by rw [if_pos hvf]⟩
    · rw [if_neg hvf]
      rcases (h2 v).mp hv with hv | hv
      · exact hinv.prev_dom v hv hne
      · exact absurd hv hvf
  · intro v hv hnq
    rw [h1] at hnq
    have hnf : v ∉ fresh := fun hf => hnq (List.mem_append_right _ hf)
    have hnr : v ∉ A ++ B := fun hf => hnq (List.mem_append_left _ hf)
    rcases (h2 v).mp hv with hv | hv
    · by_cases hvc : v = c
      · rw [hvc]; exact hstop
      · apply hinv.served v hv
        rw [hinv.split]
        intro hmem
        rcases List.mem_cons.mp hmem with h5 | h5
        · exact hvc h5
        · exact hnr h5
    · exact absurd hv hnf
  · have := hinv.count
    rw [h4, List.length_append]
    omega

/-- Among the tiles on which `stop` holds, none is closer to `a` than the level of the
head of the queue. -/
theorem SearchInv.stop_min {R : Position → Position → Prop} {stop : Position → Bool}
    {a : Position} {s : SearchState} {d : Nat} {A B : List Position}
    (hinv : SearchInv R stop a s d A B) (v : Position) (k : Nat) (hh : Hops R a v k)
    (hstop : stop v = true) : d ≤ k := by
  by_contra hlt
  have hv : v ∈ s.visited := hinv.low v k hh (by omega)
  have hnq : v ∉ s.queue := by
    rw [hinv.split]
    intro hmem
    rcases List.mem_append.mp hmem with h1 | h1
    · have := (hinv.levA v h1).2 k hh
      omega
    · have := (hinv.levB v h1).2 k hh
      omega
  rw [hinv.served v hv hnq] at hstop
  cases hstop

/-- A search that runs out of queue has served every reachable tile, `stop` failing on
each of them. -/
theorem SearchInv.exhausted {R : Position → Position → Prop} {stop : Position → Bool}
    {a : Position} {s : SearchState} {d : Nat} {A B : List Position}
    (hinv : SearchInv R stop a s d A B) (hq : s.queue = []) (v : Position) (k : Nat)
    (hh : Hops R a v k) : stop v = false := by
  have hAB : A = [] ∧ B = [] := by
    have := hinv.split
    rw [hq] at this
    exact List.append_eq_nil.mp this.symm
  obtain ⟨m, -, hmin⟩ := hh.exists_min
  have hmd : m ≤ d := by
    by_contra hlt
    obtain ⟨u, hu⟩ := hmin.level (d + 1) (by omega)
    rcases hinv.next u hu with hv | ⟨u', hu', -⟩
    · have := hinv.vis_top u hv hu
      rw [hAB.2] at this
      simp at this
    · rw [hAB.1] at hu'
      simp at hu'
  apply hinv.served v (hinv.low v m hmin.1 hmd)
  rw [hq]; simp

/-- Partial correctness of `searchLoop`: run from a state that keeps the invariant, it can
only end on the empty queue, with `stop` failing on every reachable tile, or on a tile `c`
at the head of the queue on which `stop` holds, the invariant still holding. -/
theorem searchLoop_spec {R : Position → Position → Prop} {stop : Position → Bool}
    {nbrs : Position → List Position} (hn : ∀ p q, q ∈ nbrs p ↔ R p q) (a : Position)
    (fuel : Nat) (s : SearchState) (d : Nat) (A B : List Position)
    (hinv : SearchInv R stop a s d A B) (r : Option (Position × SearchState))
    (hr : searchLoop nbrs stop fuel s = some r) :
    (r = none ∧ ∀ v k, Hops R a v k → stop v = false) ∨
    (∃ c sf d' A' B', r = some (c, sf) ∧ stop c = true ∧
      SearchInv R stop a sf d' (c :: A') B') := by
  induction fuel generalizing s d A B with
  | zero => simp [searchLoop] at hr
  | succ fuel ih =>
    obtain ⟨queue, visited, prev⟩ := s
    cases queue with
    | nil =>
      simp only [searchLoop] at hr
      left
      exact ⟨(Option.some.inj hr).symm, fun v k hh => hinv.exhausted rfl v k hh⟩
    | cons c rest =>
      have key : ∃ d' A' B', SearchInv R stop a ⟨c :: rest, visited, prev⟩ d' (c :: A') B' ∧
          rest = A' ++ B' := by
        cases A with
        | nil =>
          have hB : B = c :: rest := by simpa using hinv.split.symm
          have hne : B ≠ [] := by rw [hB]; simp
          have := hinv.shift hne
          rw [hB] at this
          exact ⟨d + 1, rest, [], this, by simp⟩
        | cons c' A' =>
          have hsplit := hinv.split
          simp only [List.cons_append, List.cons.injEq] at hsplit
          obtain ⟨hcc, hrest⟩ := hsplit
          subst hcc
          exact ⟨d, A', B, hinv, hrest⟩
      obtain ⟨d', A', B', hinv', hrest⟩ := key
      simp only [searchLoop] at hr
      by_cases hstop : stop c = true
      · rw [if_pos hstop] at hr
        right
        exact ⟨c, _, d', A', B', (Option.some.inj hr).symm, hstop, hinv'⟩
      · rw [if_neg hstop] at hr
        have hstop' : stop c = false := by simpa using hstop
        obtain ⟨B'', hstep⟩ := hinv'.step hn hstop'
        simp only at hstep
        rw [← hrest] at hstep
        exact ih _ d' A' B'' hstep hr

/-- Termination of `searchLoop`: when every tile it can visit belongs to the finite set `U`,
a fuel above the number of tiles of `U` not visited yet plus the length of the queue is
enough. -/
theorem searchLoop_terminates {stop : Position → Bool} {nbrs : Position → List Position}
    (U : Finset Position) (hU : ∀ p q, q ∈ nbrs p → q ∈ U) (fuel : Nat) (s : SearchState)
    (hnd : s.visited.Nodup) (hsub : ∀ v ∈ s.visited, v ∈ U)
    (hfuel : (U.card - s.visited.length) + s.queue.length < fuel) :
    ∃ r, searchLoop nbrs stop fuel s = some r := by
  induction fuel generalizing s with
  | zero => omega
  | succ fuel ih =>
    obtain ⟨queue, visited, prev⟩ := s
    cases queue with
    | nil => exact ⟨none, rfl⟩
    | cons c rest =>
      simp only [searchLoop]
      by_cases hstop : stop c = true
      · rw [if_pos hstop]; exact ⟨_, rfl⟩
      · rw [if_neg hstop]
        obtain ⟨fresh, h1, h2, h3, h4, h5, -⟩ :=
          bfsExpand_spec c (nbrs c) ⟨rest, visited, prev⟩
        simp only at h1 h2 h3 h4 h5
        have hnd' := h5 hnd
        have hsub' : ∀ v ∈ (bfsExpand c (nbrs c) ⟨rest, visited, prev⟩).visited, v ∈ U := by
          intro v hv
          rcases (h2 v).mp hv with hv | hv
          · exact hsub v hv
          · exact hU c v ((h3 v).mp hv).1
        have hle : (bfsExpand c (nbrs c) ⟨rest, visited, prev⟩).visited.length ≤ U.card := by
          rw [← List.toFinset_card_of_nodup hnd']
          apply Finset.card_le_card
          intro v hv
          exact hsub' v (List.mem_toFinset.mp hv)
        apply ih _ hnd' hsub'
        rw [h1, List.length_append]
        simp only [List.length_cons] at hfuel
        rw [h4] at hle ⊢
        omega

theorem searchLoop_fuel_mono {stop : Position → Bool} {nbrs : Position → List Position}
    (fuel : Nat) (s : SearchState) (r : Option (Position × SearchState))
    (hr : searchLoop nbrs stop fuel s = some r) (k : Nat) :
    searchLoop nbrs stop (fuel + k) s = some r := by
  induction fuel generalizing s with
  | zero => simp [searchLoop] at hr
  | succ fuel ih =>
    rw [show fuel + 1 + k = (fuel + k) + 1 by omega]
    obtain ⟨queue, visited, prev⟩ := s
    cases queue with
    | nil => simpa [searchLoop] using hr
    | cons c rest =>
      simp only [searchLoop] at hr ⊢
      by_cases hstop : stop c = true
      · rw [if_pos hstop] at hr ⊢; exact hr
      · rw [if_neg hstop] at hr ⊢; exact ih _ hr

theorem mem_boardCells (h : GameHelpers) (q : Position) (hq : h.outOfBounds q = false) :
    q ∈ h.boardCells := by
  rw [outOfBounds_eq_false] at hq
  unfold GameHelpers.boardCells
  rw [Finset.mem_image]
  exact ⟨(q.X, q.Y), by simp [hq.1, hq.2.1, hq.2.2.1, hq.2.2.2], rfl⟩

theorem card_boardCells (h : GameHelpers) :
    h.boardCells.card ≤ h.State.Field.Width.toNat * h.State.Field.Height.toNat := by
  unfold GameHelpers.boardCells
  refine Finset.card_image_le.trans ?_
  rw [Finset.card_product, Int.card_Ico, Int.card_Ico]
  simp

/-- The set of the tiles a search from `a` can visit holds less than `searchFuel` tiles. -/
theorem card_insert_boardCells (h : GameHelpers) (a : Position) :
    (insert a h.boardCells).card < h.searchFuel := by
  have h1 := Finset.card_insert_le a h.boardCells
  have h2 := card_boardCells h
  unfold GameHelpers.searchFuel
  omega

theorem mem_adjacent_iff (p q : Position) :
    q ∈ ([⟨p.X, p.Y - 1⟩, ⟨p.X + 1, p.Y⟩, ⟨p.X, p.Y + 1⟩, ⟨p.X - 1, p.Y⟩] : List Position) ↔
      Adjacent p q := by
  obtain ⟨qx, qy⟩ := q
  simp [Adjacent]

theorem mem_getAdjacentWalkablePositions (h : GameHelpers) (p q : Position) :
    q ∈ h.GetAdjacentWalkablePositions p ↔ h.WalkStep p q := by
  rw [getAdjacentWalkablePositions_eq, List.mem_filter, mem_adjacent_iff]
  rfl

theorem mem_boxNeighbours (h : GameHelpers) (p q : Position) :
    q ∈ h.boxNeighbours p ↔ h.BoxStep p q := by
  unfold GameHelpers.boxNeighbours GameHelpers.BoxStep
  rw [List.mem_filter, mem_adjacent_iff]
  simp

theorem walkStep_mem_board (h : GameHelpers) (a p q : Position)
    (hq : q ∈ h.GetAdjacentWalkablePositions p) : q ∈ insert a h.boardCells := by
  rw [mem_getAdjacentWalkablePositions] at hq
  exact Finset.mem_insert_of_mem (mem_boardCells h q ((isWalkable_iff h q).mp hq.2).1)

theorem boxStep_mem_board (h : GameHelpers) (a p q : Position)
    (hq : q ∈ h.boxNeighbours p) : q ∈ insert a h.boardCells := by
  rw [mem_boxNeighbours] at hq
  exact Finset.mem_insert_of_mem (mem_boardCells h q hq.2.1)

/-- Any search loop from `start` ends on `searchFuel` rounds or more. -/
theorem searchLoop_total (h : GameHelpers) (stop : Position → Bool)
    (nbrs : Position → List Position) (start : Position)
    (hU : ∀ p q, q ∈ nbrs p → q ∈ insert start h.boardCells) (fuel : Nat)
    (hfuel : h.searchFuel ≤ fuel) :
    ∃ r, searchLoop nbrs stop fuel ⟨[start], [start], []⟩ = some r := by
  apply searchLoop_terminates (insert start h.boardCells) hU
  · simp
  · intro v hv
    have : v = start := by simpa using hv
    rw [this]; exact Finset.mem_insert_self _ _
  · have := card_insert_boardCells h start
    have h2 : 2 ≤ h.searchFuel := Nat.le_add_left _ _
    simp only [List.length_singleton]
    omega

/-- The loop of `bfs` is `searchLoop` over the walkable neighbours, leaving at a goal other
than `start`, and returns the predecessor map of the final state. -/
theorem bfsLoop_eq (h : GameHelpers) (start : Position) (goal : Position → Bool) (fuel : Nat)
    (s : SearchState) :
    h.bfsLoop start goal fuel s =
      (searchLoop h.GetAdjacentWalkablePositions (fun c => decide (c ≠ start) && goal c)
        fuel s).map (Option.map (fun r => r.2.prev)) := by
  induction fuel generalizing s with
  | zero => rfl
  | succ fuel ih =>
    obtain ⟨queue, visited, prev⟩ := s
    cases queue with
    | nil => rfl
    | cons c rest =>
      simp only [GameHelpers.bfsLoop, searchLoop]
      by_cases hc : c ≠ start ∧ goal c = true
      · have hc' : (decide (c ≠ start) && goal c) = true := by simp [hc.1, hc.2]
        rw [if_pos hc, if_pos hc']
        rfl
      · have hc' : ¬ (decide (c ≠ start) && goal c) = true := by
          simpa using hc
        rw [if_neg hc, if_neg hc']
        exact ih _

theorem safeExpand_eq (cur : Position) (ns : List Position) (s : SearchState) :
    safeExpand ns (s.queue, s.visited) =
      ((bfsExpand cur ns s).queue, (bfsExpand cur ns s).visited) := by
  induction ns generalizing s with
  | nil => rfl
  | cons n ns ih =>
    unfold safeExpand bfsExpand
    by_cases hn : n ∈ s.visited
    · rw [if_neg (not_not.mpr hn), if_pos hn]
      exact ih s
    · rw [if_pos hn, if_neg hn]
      exact ih ⟨s.queue ++ [n], n :: s.visited, mapSet s.prev n cur⟩

/-- The loop of `GetNearestSafePosition` is `searchLoop` over the walkable neighbours,
leaving at a tile that is walkable and safe. -/
theorem safeLoop_eq (h : GameHelpers) (start : Position) (fuel : Nat) (s : SearchState) :
    h.safeLoop start fuel s.queue s.visited =
      (searchLoop h.GetAdjacentWalkablePositions (fun c => h.IsWalkable c && h.IsSafe c)
        fuel s).map (fun r => match r with
          | none => start
          | some (c, _) => c) := by
  induction fuel generalizing s with
  | zero => rfl
  | succ fuel ih =>
    obtain ⟨queue, visited, prev⟩ := s
    cases queue with
    | nil => rfl
    | cons c rest =>
      simp only [GameHelpers.safeLoop, searchLoop]
      by_cases hc : (h.IsWalkable c && h.IsSafe c) = true
      · rw [if_pos hc, if_pos hc]
        rfl
      · rw [if_neg hc, if_neg hc]
        have := safeExpand_eq c (h.GetAdjacentWalkablePositions c) ⟨rest, visited, prev⟩
        simp only at this
        rw [this]
        exact ih _

theorem boxExpand_eq (h : GameHelpers) (cur : Position) (ns : List Position)
    (s : SearchState) :
    h.boxExpand ns (s.queue, s.visited) =
      ((bfsExpand cur (ns.filter (fun next => !h.outOfBounds next &&
          decide (h.State.Field.CellAt next ≠ Wall))) s).queue,
        (bfsExpand cur (ns.filter (fun next => !h.outOfBounds next &&
          decide (h.State.Field.CellAt next ≠ Wall))) s).visited) := by
  induction ns generalizing s with
  | nil => rfl
  | cons n ns ih =>
    unfold GameHelpers.boxExpand
    by_cases hob : h.outOfBounds n = true
    · rw [if_pos hob, List.filter_cons_of_neg (by simp [hob])]
      exact ih s
    · rw [if_neg hob]
      by_cases hw : h.State.Field.CellAt n = Wall
      · rw [List.filter_cons_of_neg (by simp [hw])]
        by_cases hn : n ∈ s.visited
        · rw [if_pos hn]; exact ih s
        · rw [if_neg hn, if_pos hw]; exact ih s
      · have hob' : h.outOfBounds n = false := by simpa using hob
        rw [List.filter_cons_of_pos (by simp [hob', hw])]
        unfold bfsExpand
        by_cases hn : n ∈ s.visited
        · rw [if_pos hn, if_pos hn]; exact ih s
        · rw [if_neg hn, if_neg hw, if_neg hn]
          exact ih ⟨s.queue ++ [n], n :: s.visited, mapSet s.prev n cur⟩

/-- The loop of `FindNearestBox` is `searchLoop` over the neighbours on the board that are
not a Wall, leaving at a Box. -/
theorem boxLoop_eq (h : GameHelpers) (fuel : Nat) (s : SearchState) :
    h.boxLoop fuel s.queue s.visited =
      (searchLoop h.boxNeighbours (fun c => decide (h.State.Field.CellAt c = Box))
        fuel s).map (fun r => match r with
          | none => ((⟨0, 0⟩ : Position), false)
          | some (c, _) => (c, true)) := by
  induction fuel generalizing s with
  | zero => rfl
  | succ fuel ih =>
    obtain ⟨queue, visited, prev⟩ := s
    cases queue with
    | nil => rfl
    | cons c rest =>
      simp only [GameHelpers.boxLoop, searchLoop]
      by_cases hc : h.State.Field.CellAt c = Box
      · rw [if_pos hc, if_pos (by simpa using hc)]
        rfl
      · rw [if_neg hc, if_neg (by simpa using hc)]
        have := boxExpand_eq h c
          [⟨c.X, c.Y - 1⟩, ⟨c.X + 1, c.Y⟩, ⟨c.X, c.Y + 1⟩, ⟨c.X - 1, c.Y⟩] ⟨rest, visited, prev⟩
        simp only at this
        rw [this]
        exact ih _

theorem searchLoop_found_visited {stop : Position → Bool} {nbrs : Position → List Position}
    (U : Finset Position) (hU : ∀ p q, q ∈ nbrs p → q ∈ U) (fuel : Nat) (s : SearchState)
    (c : Position) (sf : SearchState) (hr : searchLoop nbrs stop fuel s = some (some (c, sf)))
    (hnd : s.visited.Nodup) (hsub : ∀ v ∈ s.visited, v ∈ U) :
    sf.visited.length ≤ U.card := by
  induction fuel generalizing s with
  | zero => simp [searchLoop] at hr
  | succ fuel ih =>
    obtain ⟨queue, visited, prev⟩ := s
    cases queue with
    | nil => simp [searchLoop] at hr
    | cons c' rest =>
      simp only [searchLoop] at hr
      by_cases hstop : stop c' = true
      · rw [if_pos hstop] at hr
        have := Option.some.inj (Option.some.inj hr)
        rw [Prod.mk.injEq] at this
        rw [← this.2, ← List.toFinset_card_of_nodup hnd]
        apply Finset.card_le_card
        intro v hv
        exact hsub v (List.mem_toFinset.mp hv)
      · rw [if_neg hstop] at hr
        obtain ⟨fresh, -, h2, h3, -, h5, -⟩ :=
          bfsExpand_spec c' (nbrs c') ⟨rest, visited, prev⟩
        simp only at h2 h3 h5
        apply ih _ hr (h5 hnd)
        intro v hv
        rcases (h2 v).mp hv with hv | hv
        · exact hsub v hv
        · exact hU c' v ((h3 v).mp hv).1

theorem SearchInv.prev_step {R : Position → Position → Prop} {stop : Position → Bool}
    {a : Position} {s : SearchState} {d : Nat} {A B : List Position}
    (hinv : SearchInv R stop a s d A B) (v : Position) (k : Nat) (hv : v ∈ s.visited)
    (hm : MinHops R a v (k + 1)) :
    ∃ u, mapGet s.prev v = some u ∧ u ∈ s.visited ∧ R u v ∧ MinHops R a u k := by
  have hne : v ≠ a := by
    intro e
    subst e
    have := hm.unique (MinHops.self R v)
    omega
  obtain ⟨u, hu⟩ := hinv.prev_dom v hv hne
  obtain ⟨p1, p2, k', p3, p4⟩ := hinv.prev_ok v u hu
  have := hm.unique p4
  have hk : k' = k := by omega
  subst hk
  exact ⟨u, hu, p1, p2, p3⟩

/-- The predecessor walk of `rebuildPath` from a visited tile `cur` at `k` hops reaches the
start in `k` rounds; read backwards it begins with the start and a neighbour `n` of it
from which `cur` is `k - 1` hops away. -/
theorem rebuildLoop_spec {R : Position → Position → Prop} {stop : Position → Bool}
    {a : Position} {s : SearchState} {d : Nat} {A B : List Position}
    (hinv : SearchInv R stop a s d A B) (k : Nat) (cur : Position) (path : List Position)
    (fuel : Nat) (hv : cur ∈ s.visited) (hm : MinHops R a cur k) (hfuel : k < fuel) :
    ∃ tail, rebuildLoop a s.prev fuel cur path = some (some (path ++ tail)) ∧
      ((k = 0 ∧ cur = a ∧ tail = []) ∨
        ∃ k' n rest, k = k' + 1 ∧ (cur :: tail).reverse = a :: n :: rest ∧ R a n ∧
          Hops R n cur k') := by
  induction k generalizing cur path fuel with
  | zero =>
    have hca := hm.1.start_eq
    cases fuel with
    | zero => omega
    | succ fuel =>
      refine ⟨[], ?_, Or.inl ⟨rfl, hca, rfl⟩⟩
      simp [rebuildLoop, hca]
  | succ k ih =>
    have hne : cur ≠ a := by
      intro e
      subst e
      have := hm.unique (MinHops.self R cur)
      omega
    obtain ⟨u, hu, huv, hstep, hmu⟩ := hinv.prev_step cur k hv hm
    cases fuel with
    | zero => omega
    | succ fuel =>
      obtain ⟨tail, ht, hcase⟩ := ih u (path ++ [u]) fuel huv hmu (by omega)
      refine ⟨u :: tail, ?_, Or.inr ?_⟩
      · simp only [rebuildLoop, if_neg hne, hu]
        rw [ht]; simp
      · rcases hcase with ⟨hk0, hua, htail⟩ | ⟨k', n, rest, hk, hrev, hRan, hhops⟩
        · subst hk0 hua htail
          exact ⟨0, cur, [], rfl, by simp, hstep, Hops.zero⟩
        · refine ⟨k, n, rest ++ [cur], rfl, ?_, hRan, ?_⟩
          · rw [List.reverse_cons, hrev]; simp
          · rw [hk]; exact Hops.succ hhops hstep

theorem actionFromStep_adjacent (p q : Position) (hadj : Adjacent p q) :
    (actionFromStep p q = MoveUp ∧ q = ⟨p.X, p.Y - 1⟩) ∨
    (actionFromStep p q = MoveRight ∧ q = ⟨p.X + 1, p.Y⟩) ∨
    (actionFromStep p q = MoveDown ∧ q = ⟨p.X, p.Y + 1⟩) ∨
    (actionFromStep p q = MoveLeft ∧ q = ⟨p.X - 1, p.Y⟩) := by
  obtain ⟨qx, qy⟩ := q
  unfold actionFromStep
  rcases hadj with ⟨h1, h2⟩ | ⟨h1, h2⟩ | ⟨h1, h2⟩ | ⟨h1, h2⟩ <;> simp only at h1 h2 <;>
    subst h1 h2
  · exact Or.inl ⟨if_pos ⟨rfl, rfl⟩, rfl⟩
  · refine Or.inr (Or.inl ⟨?_, rfl⟩)
    have h1 : ¬ (p.X + 1 = p.X ∧ p.Y = p.Y - 1) := by omega
    rw [if_neg h1, if_pos ⟨rfl, rfl⟩]
  · refine Or.inr (Or.inr (Or.inl ⟨?_, rfl⟩))
    have h1 : ¬ (p.X = p.X ∧ p.Y + 1 = p.Y - 1) := by omega
    have h2 : ¬ (p.X = p.X + 1 ∧ p.Y + 1 = p.Y) := by omega
    rw [if_neg h1, if_neg h2, if_pos ⟨rfl, rfl⟩]
  · refine Or.inr (Or.inr (Or.inr ⟨?_, rfl⟩))
    have h1 : ¬ (p.X - 1 = p.X ∧ p.Y = p.Y - 1) := by omega
    have h2 : ¬ (p.X - 1 = p.X + 1 ∧ p.Y = p.Y) := by omega
    have h3 : ¬ (p.X - 1 = p.X ∧ p.Y = p.Y + 1) := by omega
    rw [if_neg h1, if_neg h2, if_neg h3, if_pos ⟨rfl, rfl⟩]

/-! ## Properties: the pathfinder -/

/-- The search of the pathfinder for a reachable target other than the start: the loop
leaves at the target, and `rebuildPath` returns a path that begins with the start and a
walkable neighbour `n` of it, the target being one hop closer to `n` than to the start. -/
theorem pathfinder_core (h : GameHelpers) (start target : Position) (hne : start ≠ target)
    (hreach : ∃ k, Hops h.WalkStep start target k) (fuel : Nat) (hfuel : h.searchFuel ≤ fuel) :
    ∃ sf d n rest,
      searchLoop h.GetAdjacentWalkablePositions
        (fun c => decide (c ≠ start) && decide (c = target)) fuel ⟨[start], [start], []⟩ =
          some (some (target, sf)) ∧
      rebuildPath fuel start target sf.prev = some (start :: n :: rest) ∧
      h.WalkStep start n ∧ MinHops h.WalkStep start target (d + 1) ∧
      MinHops h.WalkStep n target d := by
  obtain ⟨r, hr⟩ := searchLoop_total h (fun c => decide (c ≠ start) && decide (c = target))
    h.GetAdjacentWalkablePositions start (walkStep_mem_board h start) fuel hfuel
  rcases searchLoop_spec (mem_getAdjacentWalkablePositions h) start fuel _ 0 [start] []
    (SearchInv.init _ _ _) r hr with ⟨-, hnone⟩ | ⟨c, sf, d', A', B', rfl, hstop, hinv⟩
  · exfalso
    obtain ⟨k, hk⟩ := hreach
    have := hnone target k hk
    simp [Ne.symm hne] at this
  · have hct : c = target := by
      simp only [Bool.and_eq_true, decide_eq_true_eq] at hstop
      exact hstop.2
    subst hct
    have hm : MinHops h.WalkStep start c d' := hinv.levA c (List.mem_cons_self _ _)
    have hd' : d' ≠ 0 := by
      intro e
      subst e
      exact hne hm.1.start_eq.symm
    obtain ⟨d, rfl⟩ := Nat.exists_eq_succ_of_ne_zero hd'
    have hv : c ∈ sf.visited := hinv.low c (d + 1) hm.1 (le_refl _)
    have hlen := searchLoop_found_visited (insert start h.boardCells)
      (walkStep_mem_board h start) fuel _ c sf hr (by simp)
      (fun v hv => by
        have : v = start := by simpa using hv
        rw [this]; exact Finset.mem_insert_self _ _)
    have hcount := hinv.count
    have hcard := card_insert_boardCells h start
    obtain ⟨tail, ht, hcase⟩ := rebuildLoop_spec hinv (d + 1) c [c] fuel hv hm (by omega)
    rcases hcase with ⟨hk0, -, -⟩ | ⟨k', n, rest, hk, hrev, hRan, hhops⟩
    · omega
    · have hkd : k' = d := by omega
      subst hkd
      refine ⟨sf, k', n, rest, hr, ?_, hRan, hm, hhops, ?_⟩
      · unfold rebuildPath
        rw [ht]
        simpa using hrev
      · intro j hj
        have := hm.2 (j + 1) (Hops.prepend hRan hj)
        omega

/-- Claim C1. For `start ≠ target`, `start` walkable and `target` reachable from `start` by
4-connected steps over walkable tiles, `GetNextActionTowards` returns on `searchFuel`
rounds or more one of the four move actions, never DoNothing or PlaceBomb; the neighbour
`n` of `start` in that direction (MoveUp = (0,-1), MoveRight = (+1,0), MoveDown = (0,+1),
MoveLeft = (-1,0)) is walkable, and the minimum hop count from `n` to `target` is one
less than the minimum hop count from `start` to `target`. -/
theorem C1_next_action_shortest (h : GameHelpers) (start target : Position)
    (hne : start ≠ target) (hwalk : h.IsWalkable start = true)
    (hreach : ∃ k, Hops h.WalkStep start target k) (fuel : Nat)
    (hfuel : h.searchFuel ≤ fuel) :
    ∃ (a : Action) (n : Position), h.GetNextActionTowards fuel start target = some a ∧
      ((a = MoveUp ∧ n = ⟨start.X, start.Y - 1⟩) ∨
        (a = MoveRight ∧ n = ⟨start.X + 1, start.Y⟩) ∨
        (a = MoveDown ∧ n = ⟨start.X, start.Y + 1⟩) ∨
        (a = MoveLeft ∧ n = ⟨start.X - 1, start.Y⟩)) ∧
      a ≠ DoNothing ∧ a ≠ PlaceBomb ∧ h.IsWalkable n = true ∧
      ∃ d, MinHops h.WalkStep start target (d + 1) ∧ MinHops h.WalkStep n target d := by
  obtain ⟨sf, d, n, rest, hr, hpath, hstep, hm1, hm2⟩ :=
    pathfinder_core h start target hne hreach fuel hfuel
  have hact := actionFromStep_adjacent start n hstep.1
  refine ⟨actionFromStep start n, n, ?_, ?_, ?_, ?_, hstep.2, d, hm1, hm2⟩
  · unfold GameHelpers.GetNextActionTowards GameHelpers.bfs
    rw [if_neg hne, if_neg (by simp [hwalk]), bfsLoop_eq, hr]
    simp only [Option.map_some']
    rw [hpath]
  · rcases hact with ⟨h1, h2⟩ | ⟨h1, h2⟩ | ⟨h1, h2⟩ | ⟨h1, h2⟩
    · exact Or.inl ⟨h1, h2⟩
    · exact Or.inr (Or.inl ⟨h1, h2⟩)
    · exact Or.inr (Or.inr (Or.inl ⟨h1, h2⟩))
    · exact Or.inr (Or.inr (Or.inr ⟨h1, h2⟩))
  · rcases hact with ⟨h1, -⟩ | ⟨h1, -⟩ | ⟨h1, -⟩ | ⟨h1, -⟩ <;> rw [h1] <;> decide
  · rcases hact with ⟨h1, -⟩ | ⟨h1, -⟩ | ⟨h1, -⟩ | ⟨h1, -⟩ <;> rw [h1] <;> decide

theorem C1_next_action_shortest_witness :
    (GameHelpers.mk openTestState).GetNextActionTowards 27 ⟨1, 1⟩ ⟨3, 1⟩ = some MoveRight ∧
      ∃ (a : Action) (n : Position),
        (GameHelpers.mk openTestState).GetNextActionTowards 27 ⟨1, 1⟩ ⟨3, 1⟩ = some a ∧
        ((a = MoveUp ∧ n = ⟨(1 : Int), (1 : Int) - 1⟩) ∨
          (a = MoveRight ∧ n = ⟨(1 : Int) + 1, (1 : Int)⟩) ∨
          (a = MoveDown ∧ n = ⟨(1 : Int), (1 : Int) + 1⟩) ∨
          (a = MoveLeft ∧ n = ⟨(1 : Int) - 1, (1 : Int)⟩)) ∧
        a ≠ DoNothing ∧ a ≠ PlaceBomb ∧ (GameHelpers.mk openTestState).IsWalkable n = true ∧
        ∃ d, MinHops (GameHelpers.mk openTestState).WalkStep ⟨1, 1⟩ ⟨3, 1⟩ (d + 1) ∧
          MinHops (GameHelpers.mk openTestState).WalkStep n ⟨3, 1⟩ d :=
  ⟨by decide,
    C1_next_action_shortest ⟨openTestState⟩ ⟨1, 1⟩ ⟨3, 1⟩ (by decide) (by decide)
      ⟨2, Hops.succ (Hops.succ Hops.zero (b := ⟨1, 1⟩) (c := ⟨2, 1⟩) (by decide))
        (c := ⟨3, 1⟩) (by decide)⟩ 27 (by decide)⟩

/-! ## Properties: the nearest box -/

theorem Hops.restrict {R : Position → Position → Prop} {P : Position → Prop}
    {a b : Position} {n : Nat} (hh : Hops R a b n)
    (hP : ∀ v j, j < n → Hops R a v j → P v) : Hops (fun u v => R u v ∧ P u) a b n := by
  induction hh with
  | zero => exact Hops.zero
  | succ hprev hstep ih =>
    exact Hops.succ (ih (fun v j hj hv => hP v j (by omega) hv))
      ⟨hstep, hP _ _ (Nat.lt_succ_self _) hprev⟩

/-- Claim C7. When `FindNearestBox start` returns `(p, true)`, the cell at `p` is a Box,
`p` is reached from `start` by 4-connected steps onto tiles of the board that are not a
Wall, none of the tiles left on the way being a Box, and no Box is reachable from `start`
in fewer hops, even through other boxes; if `start` is a Box, `p = start`. -/
theorem C7_nearest_box_found (h : GameHelpers) (fuel : Nat) (start p : Position)
    (hres : h.FindNearestBox fuel start = some (p, true)) :
    h.State.Field.CellAt p = Box ∧
      ∃ d, Hops (fun u v => h.BoxStep u v ∧ h.State.Field.CellAt u ≠ Box) start p d ∧
        (∀ q k, h.State.Field.CellAt q = Box → Hops h.BoxStep start q k → d ≤ k) ∧
        (h.State.Field.CellAt start = Box → p = start) := by
  unfold GameHelpers.FindNearestBox at hres
  have heq := boxLoop_eq h fuel ⟨[start], [start], []⟩
  simp only at heq
  rw [heq] at hres
  cases hr : searchLoop h.boxNeighbours (fun c => decide (h.State.Field.CellAt c = Box)) fuel
      ⟨[start], [start], []⟩ with
  | none => rw [hr] at hres; simp at hres
  | some r =>
    rw [hr] at hres
    rcases searchLoop_spec (mem_boxNeighbours h) start fuel _ 0 [start] []
      (SearchInv.init _ _ _) r hr with ⟨rfl, -⟩ | ⟨c, sf, d, A, B, rfl, hstop, hinv⟩
    · simp at hres
    · have hcp : c = p := by simpa using hres
      subst hcp
      have hbox : h.State.Field.CellAt c = Box := by simpa using hstop
      have hm : MinHops h.BoxStep start c d := hinv.levA c (List.mem_cons_self _ _)
      have hmin : ∀ q k, h.State.Field.CellAt q = Box → Hops h.BoxStep start q k → d ≤ k :=
        fun q k hq hk => hinv.stop_min q k hk (by simpa using hq)
      refine ⟨hbox, d, ?_, hmin, ?_⟩
      · apply hm.1.restrict
        intro v j hj hv hvbox
        have := hmin v j hvbox hv
        omega
      · intro hsb
        have := hmin start 0 hsb Hops.zero
        have hd : d = 0 := by omega
        subst hd
        exact hm.1.start_eq

theorem C7_nearest_box_found_witness :
    (GameHelpers.mk boxTestState).FindNearestBox 14 ⟨0, 0⟩ = some (⟨1, 0⟩, true) ∧
      boxTestState.Field.CellAt ⟨1, 0⟩ = Box ∧
      ∃ d, Hops (fun u v => (GameHelpers.mk boxTestState).BoxStep u v ∧
          boxTestState.Field.CellAt u ≠ Box) ⟨0, 0⟩ ⟨1, 0⟩ d ∧
        (∀ q k, boxTestState.Field.CellAt q = Box →
          Hops (GameHelpers.mk boxTestState).BoxStep ⟨0, 0⟩ q k → d ≤ k) ∧
        (boxTestState.Field.CellAt ⟨0, 0⟩ = Box → (⟨1, 0⟩ : Position) = ⟨0, 0⟩) :=
  ⟨by decide, C7_nearest_box_found ⟨boxTestState⟩ 14 ⟨0, 0⟩ ⟨1, 0⟩ (by decide)⟩

/-! ## Properties: the nearest safe tile -/

theorem dequeueOrderLoop_total (h : GameHelpers) (fuel : Nat) (s : SearchState)
    (r : Option (Position × SearchState))
    (hr : searchLoop h.GetAdjacentWalkablePositions (fun _ => false) fuel s = some r) :
    ∃ order, h.dequeueOrderLoop fuel s.queue s.visited = some order := by
  induction fuel generalizing s with
  | zero => simp [searchLoop] at hr
  | succ fuel ih =>
    obtain ⟨queue, visited, prev⟩ := s
    cases queue with
    | nil => exact ⟨[], rfl⟩
    | cons c rest =>
      simp only [searchLoop, Bool.false_eq_true, if_false] at hr
      obtain ⟨order, ho⟩ := ih _ hr
      have := safeExpand_eq c (h.GetAdjacentWalkablePositions c) ⟨rest, visited, prev⟩
      simp only at this
      refine ⟨c :: order, ?_⟩
      simp only [GameHelpers.dequeueOrderLoop]
      rw [this, ho]
      rfl

/-- The loop of `GetNearestSafePosition` returns the first tile of the breadth-first
dequeue order that is walkable and safe, and `start` when there is none. -/
theorem safeLoop_order (h : GameHelpers) (start : Position) (fuel : Nat)
    (queue visited order : List Position)
    (ho : h.dequeueOrderLoop fuel queue visited = some order) :
    h.safeLoop start fuel queue visited =
      some (match order.find? (fun t => h.IsWalkable t && h.IsSafe t) with
        | some r => r
        | none => start) := by
  induction fuel generalizing queue visited order with
  | zero => simp [GameHelpers.dequeueOrderLoop] at ho
  | succ fuel ih =>
    cases queue with
    | nil =>
      simp only [GameHelpers.dequeueOrderLoop] at ho
      have : order = [] := (Option.some.inj ho).symm
      subst this
      rfl
    | cons c rest =>
      simp only [GameHelpers.dequeueOrderLoop, Option.map_eq_some'] at ho
      obtain ⟨order', ho', rfl⟩ := ho
      simp only [GameHelpers.safeLoop]
      by_cases hc : (h.IsWalkable c && h.IsSafe c) = true
      · rw [if_pos hc, List.find?_cons]
        simp only [hc]
      · have hc' : (h.IsWalkable c && h.IsSafe c) = false := by simpa using hc
        rw [if_neg hc, List.find?_cons]
        simp only [hc']
        exact ih _ _ _ ho'

theorem dequeueOrder_total (h : GameHelpers) (start : Position) (fuel : Nat)
    (hfuel : h.searchFuel ≤ fuel) : ∃ order, h.dequeueOrder fuel start = some order := by
  obtain ⟨r, hr⟩ := searchLoop_total h (fun _ => false) h.GetAdjacentWalkablePositions start
    (walkStep_mem_board h start) fuel hfuel
  exact dequeueOrderLoop_total h fuel ⟨[start], [start], []⟩ r hr

/-- The first call of `GetNearestSafePosition`, `bfs` with an unsafe start allowed, finds
a goal whenever a walkable and safe tile other than `start` is reachable. -/
theorem bfs_safe_found (h : GameHelpers) (start : Position)
    (hns : ¬ (h.IsWalkable start = true ∧ h.IsSafe start = true))
    (hreach : ∃ t k, Hops h.WalkStep start t k ∧ h.IsWalkable t = true ∧ h.IsSafe t = true)
    (fuel : Nat) (hfuel : h.searchFuel ≤ fuel) :
    ∃ prev, h.bfs fuel start (fun pos => h.IsWalkable pos && h.IsSafe pos) true =
      some (some prev) := by
  obtain ⟨r, hr⟩ := searchLoop_total h
    (fun c => decide (c ≠ start) && (fun pos => h.IsWalkable pos && h.IsSafe pos) c)
    h.GetAdjacentWalkablePositions start (walkStep_mem_board h start) fuel hfuel
  rcases searchLoop_spec (mem_getAdjacentWalkablePositions h) start fuel _ 0 [start] []
    (SearchInv.init _ _ _) r hr with ⟨-, hnone⟩ | ⟨c, sf, d, A, B, rfl, -, -⟩
  · exfalso
    obtain ⟨t, k, hk, hw, hs⟩ := hreach
    have hts : t ≠ start := by
      intro e
      subst e
      exact hns ⟨hw, hs⟩
    have := hnone t k hk
    simp [hts, hw, hs] at this
  · refine ⟨sf.prev, ?_⟩
    unfold GameHelpers.bfs
    rw [if_neg (by simp), bfsLoop_eq, hr]
    rfl

/-- Claim C6. When `start` is not both walkable and safe and some walkable and safe tile is
reachable from it by 4-connected steps onto walkable tiles, `GetNearestSafePosition`
returns, on `searchFuel` rounds or more, a tile that is walkable and safe, reachable from
`start`, at a hop count that no reachable walkable and safe tile beats, and that is the
first walkable and safe tile of the breadth-first dequeue order (north, east, south, west
expansion) from `start`. -/
theorem C6_nearest_safe_found (h : GameHelpers) (start : Position)
    (hns : ¬ (h.IsWalkable start = true ∧ h.IsSafe start = true))
    (hreach : ∃ t k, Hops h.WalkStep start t k ∧ h.IsWalkable t = true ∧ h.IsSafe t = true)
    (fuel : Nat) (hfuel : h.searchFuel ≤ fuel) :
    ∃ r, h.GetNearestSafePosition fuel start = some r ∧
      h.IsWalkable r = true ∧ h.IsSafe r = true ∧
      (∃ d, Hops h.WalkStep start r d ∧
        ∀ t k, Hops h.WalkStep start t k → h.IsWalkable t = true → h.IsSafe t = true →
          d ≤ k) ∧
      ∃ order, h.dequeueOrder fuel start = some order ∧
        order.find? (fun t => h.IsWalkable t && h.IsSafe t) = some r := by
  obtain ⟨prev, hprev⟩ := bfs_safe_found h start hns hreach fuel hfuel
  obtain ⟨r, hr⟩ := searchLoop_total h (fun c => h.IsWalkable c && h.IsSafe c)
    h.GetAdjacentWalkablePositions start (walkStep_mem_board h start) fuel hfuel
  have hloop := safeLoop_eq h start fuel ⟨[start], [start], []⟩
  simp only at hloop
  rw [hr] at hloop
  have hget : h.GetNearestSafePosition fuel start = h.safeLoop start fuel [start] [start] := by
    unfold GameHelpers.GetNearestSafePosition
    rw [if_neg (by simpa using hns), hprev]
  rcases searchLoop_spec (mem_getAdjacentWalkablePositions h) start fuel _ 0 [start] []
    (SearchInv.init _ _ _) r hr with ⟨-, hnone⟩ | ⟨c, sf, d, A, B, rfl, hstop, hinv⟩
  · exfalso
    obtain ⟨t, k, hk, hw, hs⟩ := hreach
    have := hnone t k hk
    simp [hw, hs] at this
  · have hws : h.IsWalkable c = true ∧ h.IsSafe c = true := by simpa using hstop
    have hm : MinHops h.WalkStep start c d := hinv.levA c (List.mem_cons_self _ _)
    obtain ⟨order, ho⟩ := dequeueOrder_total h start fuel hfuel
    have hso := safeLoop_order h start fuel [start] [start] order ho
    rw [hloop] at hso
    simp only [Option.map_some', Option.some.injEq] at hso
    refine ⟨c, by rw [hget, hloop]; rfl, hws.1, hws.2, ⟨d, hm.1, ?_⟩, order, ho, ?_⟩
    · intro t k hk hw hs
      exact hinv.stop_min t k hk (by simp [hw, hs])
    · cases hf : order.find? (fun t => h.IsWalkable t && h.IsSafe t) with
      | none =>
        rw [hf] at hso
        simp only at hso
        exact absurd (hso ▸ hws) hns
      | some r' =>
        rw [hf] at hso
        simp only at hso
        rw [hso]

theorem C6_nearest_safe_found_witness :
    (GameHelpers.mk nearestSafeTestState).GetNearestSafePosition 27 ⟨2, 2⟩ = some ⟨3, 1⟩ ∧
      ∃ r, (GameHelpers.mk nearestSafeTestState).GetNearestSafePosition 27 ⟨2, 2⟩ = some r ∧
        (GameHelpers.mk nearestSafeTestState).IsWalkable r = true ∧
        (GameHelpers.mk nearestSafeTestState).IsSafe r = true ∧
        (∃ d, Hops (GameHelpers.mk nearestSafeTestState).WalkStep ⟨2, 2⟩ r d ∧
          ∀ t k, Hops (GameHelpers.mk nearestSafeTestState).WalkStep ⟨2, 2⟩ t k →
            (GameHelpers.mk nearestSafeTestState).IsWalkable t = true →
            (GameHelpers.mk nearestSafeTestState).IsSafe t = true → d ≤ k) ∧
        ∃ order, (GameHelpers.mk nearestSafeTestState).dequeueOrder 27 ⟨2, 2⟩ = some order ∧
          order.find? (fun t => (GameHelpers.mk nearestSafeTestState).IsWalkable t &&
            (GameHelpers.mk nearestSafeTestState).IsSafe t) = some r :=
  ⟨by decide,
    C6_nearest_safe_found ⟨nearestSafeTestState⟩ ⟨2, 2⟩ (by decide)
      ⟨⟨3, 1⟩, 2, Hops.succ (Hops.succ Hops.zero (b := ⟨2, 2⟩) (c := ⟨2, 1⟩) (by decide))
        (c := ⟨3, 1⟩) (by decide), by decide, by decide⟩ 27 (by decide)⟩

/-! ## Properties: searches that find nothing -/

/-- From a start that is not walkable `GetNextActionTowards` calls `bfs` with
`allowUnsafeStart = false`, gets the nil map and returns DoNothing, whatever the fuel. -/
theorem getNextActionTowards_unwalkable (h : GameHelpers) (fuel : Nat) (start target : Position)
    (hw : h.IsWalkable start = false) :
    h.GetNextActionTowards fuel start target = some DoNothing := by
  unfold GameHelpers.GetNextActionTowards
  by_cases hst : start = target
  · rw [if_pos hst]
  · rw [if_neg hst]
    unfold GameHelpers.bfs
    rw [if_pos (by simp [hw])]

/-- When `bfs`, allowed an unwalkable start, returns the nil map, the goal fails on every
tile other than `start` that is reachable from `start` over walkable tiles. -/
theorem bfs_nil_unreachable (h : GameHelpers) (fuel : Nat) (start : Position)
    (goal : Position → Bool) (hb : h.bfs fuel start goal true = some none) (v : Position)
    (k : Nat) (hv : Hops h.WalkStep start v k) (hne : v ≠ start) : goal v = false := by
  unfold GameHelpers.bfs at hb
  rw [if_neg (by simp), bfsLoop_eq] at hb
  cases hr : searchLoop h.GetAdjacentWalkablePositions
      (fun c => decide (c ≠ start) && goal c) fuel ⟨[start], [start], []⟩ with
  | none => rw [hr] at hb; simp at hb
  | some r =>
    rw [hr] at hb
    rcases searchLoop_spec (mem_getAdjacentWalkablePositions h) start fuel _ 0 [start] []
      (SearchInv.init _ _ _) r hr with ⟨-, hnone⟩ | ⟨c, sf, d, A, B, rfl, -, -⟩
    · have := hnone v k hv
      simpa [hne] using this
    · simp at hb

/-- The search of `bfs` for a goal that fails on every reachable tile other than `start`
ends, on `searchFuel` rounds or more, on the empty queue. -/
theorem searchLoop_none_of_unreachable (h : GameHelpers) (start : Position)
    (goal : Position → Bool)
    (hun : ∀ v k, Hops h.WalkStep start v k → v ≠ start → goal v = false) (fuel : Nat)
    (hfuel : h.searchFuel ≤ fuel) :
    searchLoop h.GetAdjacentWalkablePositions (fun c => decide (c ≠ start) && goal c) fuel
      ⟨[start], [start], []⟩ = some none := by
  obtain ⟨r, hr⟩ := searchLoop_total h (fun c => decide (c ≠ start) && goal c)
    h.GetAdjacentWalkablePositions start (walkStep_mem_board h start) fuel hfuel
  rcases searchLoop_spec (mem_getAdjacentWalkablePositions h) start fuel _ 0 [start] []
    (SearchInv.init _ _ _) r hr with ⟨rfl, -⟩ | ⟨c, sf, d, A, B, rfl, hstop, hinv⟩
  · exact hr
  · exfalso
    simp only [Bool.and_eq_true, decide_eq_true_eq] at hstop
    have hm : MinHops h.WalkStep start c d := hinv.levA c (List.mem_cons_self _ _)
    have := hun c d hm.1 hstop.1
    rw [this] at hstop
    exact absurd hstop.2 (by simp)

theorem bfs_nil_of_unreachable (h : GameHelpers) (start : Position) (goal : Position → Bool)
    (allowUnsafeStart : Bool)
    (hun : ∀ v k, Hops h.WalkStep start v k → v ≠ start → goal v = false) (fuel : Nat)
    (hfuel : h.searchFuel ≤ fuel) :
    h.bfs fuel start goal allowUnsafeStart = some none := by
  unfold GameHelpers.bfs
  split
  · rfl
  · rw [bfsLoop_eq, searchLoop_none_of_unreachable h start goal hun fuel hfuel]
    rfl

/-- Claim C11 (as amended). From a start that is not walkable `GetNextActionTowards` returns
DoNothing for every target, `bfs` being called with `allowUnsafeStart = false`. The search
loop itself filters only the neighbours through `IsWalkable`: called with
`allowUnsafeStart = true`, as `GetNearestSafePosition` does, it reaches from such a start
every other target that is reachable over walkable tiles, and the rebuilt path begins with
the first step of a shortest such path. -/
theorem C11_unwalkable_start_does_nothing (h : GameHelpers) (fuel : Nat)
    (start target : Position) (hw : h.IsWalkable start = false) :
    h.GetNextActionTowards fuel start target = some DoNothing ∧
      (start ≠ target → (∃ k, Hops h.WalkStep start target k) → h.searchFuel ≤ fuel →
        ∃ prev n rest d,
          h.bfs fuel start (fun pos => decide (pos = target)) true = some (some prev) ∧
          rebuildPath fuel start target prev = some (start :: n :: rest) ∧
          h.WalkStep start n ∧ MinHops h.WalkStep start target (d + 1) ∧
          MinHops h.WalkStep n target d) := by
  refine ⟨getNextActionTowards_unwalkable h fuel start target hw, ?_⟩
  intro hne hreach hfuel
  obtain ⟨sf, d, n, rest, hr, hpath, hstep, hm1, hm2⟩ :=
    pathfinder_core h start target hne hreach fuel hfuel
  refine ⟨sf.prev, n, rest, d, ?_, hpath, hstep, hm1, hm2⟩
  unfold GameHelpers.bfs
  rw [if_neg (by simp), bfsLoop_eq, hr]
  rfl

theorem C11_unwalkable_start_does_nothing_witness :
    (GameHelpers.mk nearestSafeTestState).IsWalkable ⟨2, 2⟩ = false ∧
      (GameHelpers.mk nearestSafeTestState).GetNextActionTowards 27 ⟨2, 2⟩ ⟨2, 0⟩ =
        some DoNothing :=
  ⟨by decide,
    (C11_unwalkable_start_does_nothing ⟨nearestSafeTestState⟩ 27 ⟨2, 2⟩ ⟨2, 0⟩ (by decide)).1⟩

/-- Claim C11 (as stated) fails. In the snapshot of the nearest-safe test the tile (2,2)
holds a bomb, so it is not walkable; (2,0) is two steps away over the walkable tiles
(2,1) and (2,0); yet `GetNextActionTowards` from (2,2) to (2,0) is DoNothing, on any
fuel. -/
theorem C11_counterexample :
    (GameHelpers.mk nearestSafeTestState).IsWalkable ⟨2, 2⟩ = false ∧
      (⟨2, 2⟩ : Position) ≠ ⟨2, 0⟩ ∧
      Hops (GameHelpers.mk nearestSafeTestState).WalkStep ⟨2, 2⟩ ⟨2, 0⟩ 2 ∧
      ∀ fuel, (GameHelpers.mk nearestSafeTestState).GetNextActionTowards fuel ⟨2, 2⟩ ⟨2, 0⟩ =
        some DoNothing :=
  ⟨by decide, by decide,
    Hops.succ (Hops.succ Hops.zero (b := ⟨2, 2⟩) (c := ⟨2, 1⟩) (by decide))
      (c := ⟨2, 0⟩) (by decide),
    fun fuel => getNextActionTowards_unwalkable _ fuel _ _ (by decide)⟩

/-- Claim C12. For `start ≠ target` with `target` not reachable from `start` by 4-connected
steps over walkable tiles, `GetNextActionTowards` returns DoNothing on `searchFuel` rounds
or more. -/
theorem C12_unreachable_does_nothing (h : GameHelpers) (start target : Position)
    (hne : start ≠ target) (hun : ¬ ∃ k, Hops h.WalkStep start target k) (fuel : Nat)
    (hfuel : h.searchFuel ≤ fuel) :
    h.GetNextActionTowards fuel start target = some DoNothing := by
  unfold GameHelpers.GetNextActionTowards
  rw [if_neg hne, bfs_nil_of_unreachable h start _ false ?_ fuel hfuel]
  intro v k hv _
  by_cases hvt : v = target
  · subst hvt
    exact absurd ⟨k, hv⟩ hun
  · simpa using hvt

theorem C12_unreachable_does_nothing_witness :
    (¬ ∃ k, Hops (GameHelpers.mk unreachableTestState).WalkStep ⟨0, 0⟩ ⟨2, 2⟩ k) ∧
      (GameHelpers.mk unreachableTestState).GetNextActionTowards 11 ⟨0, 0⟩ ⟨2, 2⟩ =
        some DoNothing :=
  have hun : ¬ ∃ k, Hops (GameHelpers.mk unreachableTestState).WalkStep ⟨0, 0⟩ ⟨2, 2⟩ k := by
    rintro ⟨k, hk⟩
    have := bfs_nil_unreachable ⟨unreachableTestState⟩ 11 ⟨0, 0⟩
      (fun pos => decide (pos = ⟨2, 2⟩)) (by decide) ⟨2, 2⟩ k hk (by decide)
    simp at this
  ⟨hun, C12_unreachable_does_nothing ⟨unreachableTestState⟩ ⟨0, 0⟩ ⟨2, 2⟩ (by decide) hun 11
    (by decide)⟩

/-- Claim C13. `GetNextActionTowards p p` is DoNothing for every position `p`, on the board
or not, walkable or not, and on any fuel: the test `start == target` comes first. -/
theorem C13_same_tile_does_nothing (h : GameHelpers) (fuel : Nat) (p : Position) :
    h.GetNextActionTowards fuel p p = some DoNothing := by
  unfold GameHelpers.GetNextActionTowards
  rw [if_pos rfl]

/-- Claim C14. When `start` is walkable and safe, `GetNearestSafePosition start` is
`start`, on any fuel: no search is run. -/
theorem C14_safe_start_stays (h : GameHelpers) (fuel : Nat) (start : Position)
    (hw : h.IsWalkable start = true) (hs : h.IsSafe start = true) :
    h.GetNearestSafePosition fuel start = some start := by
  unfold GameHelpers.GetNearestSafePosition
  rw [if_pos (by simp [hw, hs])]

theorem C14_safe_start_stays_witness :
    (GameHelpers.mk nearestSafeTestState).GetNearestSafePosition 27 ⟨0, 0⟩ = some ⟨0, 0⟩ :=
  C14_safe_start_stays ⟨nearestSafeTestState⟩ 27 ⟨0, 0⟩ (by decide) (by decide)

/-- Whatever `GetNearestSafePosition` returns is `start` or a walkable and safe tile. -/
theorem getNearestSafePosition_result (h : GameHelpers) (fuel : Nat) (start r : Position)
    (hr : h.GetNearestSafePosition fuel start = some r) :
    r = start ∨ (h.IsWalkable r = true ∧ h.IsSafe r = true) := by
  unfold GameHelpers.GetNearestSafePosition at hr
  split at hr
  · exact Or.inl (Option.some.inj hr).symm
  · split at hr
    · cases hr
    · exact Or.inl (Option.some.inj hr).symm
    · have hloop := safeLoop_eq h start fuel ⟨[start], [start], []⟩
      simp only at hloop
      rw [hloop] at hr
      cases hs : searchLoop h.GetAdjacentWalkablePositions
          (fun c => h.IsWalkable c && h.IsSafe c) fuel ⟨[start], [start], []⟩ with
      | none => rw [hs] at hr; cases hr
      | some res =>
        rw [hs] at hr
        rcases searchLoop_spec (mem_getAdjacentWalkablePositions h) start fuel _ 0 [start] []
          (SearchInv.init _ _ _) res hs with ⟨rfl, -⟩ | ⟨c, sf, d, A, B, rfl, hstop, -⟩
        · exact Or.inl (by simpa using hr.symm)
        · have hcr : c = r := by simpa using hr
          subst hcr
          exact Or.inr (by simpa using hstop)

/-- Claim C15. When no walkable and safe tile is reachable from `start` by 4-connected
steps onto walkable tiles, `start` included, `GetNearestSafePosition start` is `start`, on
`searchFuel` rounds or more; and on any fuel a result other than `start` is walkable and
safe. -/
theorem C15_nearest_safe_not_found (h : GameHelpers) (start : Position) :
    (∀ fuel, h.searchFuel ≤ fuel →
      (¬ ∃ t k, Hops h.WalkStep start t k ∧ h.IsWalkable t = true ∧ h.IsSafe t = true) →
      h.GetNearestSafePosition fuel start = some start) ∧
    (∀ fuel r, h.GetNearestSafePosition fuel start = some r → r ≠ start →
      h.IsWalkable r = true ∧ h.IsSafe r = true) := by
  refine ⟨?_, ?_⟩
  · intro fuel hfuel hun
    have hns : ¬ (h.IsWalkable start && h.IsSafe start) = true := by
      intro hws
      simp only [Bool.and_eq_true] at hws
      exact hun ⟨start, 0, Hops.zero, hws.1, hws.2⟩
    unfold GameHelpers.GetNearestSafePosition
    rw [if_neg hns, bfs_nil_of_unreachable h start _ true ?_ fuel hfuel]
    intro v k hv _
    by_contra hg
    simp only [Bool.not_eq_false, Bool.and_eq_true] at hg
    exact hun ⟨v, k, hv, hg.1, hg.2⟩
  · intro fuel r hr hne
    rcases getNearestSafePosition_result h fuel start r hr with h1 | h1
    · exact absurd h1 hne
    · exact h1

theorem C15_nearest_safe_not_found_witness :
    (¬ ∃ t k, Hops (GameHelpers.mk trappedTestState).WalkStep ⟨0, 0⟩ t k ∧
        (GameHelpers.mk trappedTestState).IsWalkable t = true ∧
        (GameHelpers.mk trappedTestState).IsSafe t = true) ∧
      (GameHelpers.mk trappedTestState).GetNearestSafePosition 3 ⟨0, 0⟩ = some ⟨0, 0⟩ ∧
      (GameHelpers.mk nearestSafeTestState).IsWalkable ⟨3, 1⟩ = true ∧
      (GameHelpers.mk nearestSafeTestState).IsSafe ⟨3, 1⟩ = true :=
  have hun : ¬ ∃ t k, Hops (GameHelpers.mk trappedTestState).WalkStep ⟨0, 0⟩ t k ∧
      (GameHelpers.mk trappedTestState).IsWalkable t = true ∧
      (GameHelpers.mk trappedTestState).IsSafe t = true := by
    rintro ⟨t, k, hk, hw, hs⟩
    by_cases hts : t = ⟨0, 0⟩
    · subst hts
      revert hw
      decide
    · have := bfs_nil_unreachable ⟨trappedTestState⟩ 3 ⟨0, 0⟩
        (fun pos => (GameHelpers.mk trappedTestState).IsWalkable pos &&
          (GameHelpers.mk trappedTestState).IsSafe pos) (by decide) t k hk hts
      simp [hw, hs] at this
  ⟨hun, (C15_nearest_safe_not_found ⟨trappedTestState⟩ ⟨0, 0⟩).1 3 (by decide) hun,
    (C15_nearest_safe_not_found ⟨nearestSafeTestState⟩ ⟨2, 2⟩).2 27 ⟨3, 1⟩ (by decide)
      (by decide)⟩

/-! ## Properties: no box in reach -/

/-- Claim C16. On `searchFuel` rounds or more `FindNearestBox start` returns, and its
flag is false exactly when no Box is reachable from `start` by 4-connected steps onto
tiles of the board that are not a Wall, `start` itself counting as reached; the position
returned with a false flag is (0,0). -/
theorem C16_nearest_box_not_found (h : GameHelpers) (start : Position) (fuel : Nat)
    (hfuel : h.searchFuel ≤ fuel) :
    ∃ p found, h.FindNearestBox fuel start = some (p, found) ∧
      (found = false ↔
        ¬ ∃ q k, Hops h.BoxStep start q k ∧ h.State.Field.CellAt q = Box) ∧
      (found = false → p = ⟨0, 0⟩) := by
  obtain ⟨r, hr⟩ := searchLoop_total h (fun c => decide (h.State.Field.CellAt c = Box))
    h.boxNeighbours start (boxStep_mem_board h start) fuel hfuel
  have heq := boxLoop_eq h fuel ⟨[start], [start], []⟩
  simp only at heq
  unfold GameHelpers.FindNearestBox
  rw [heq, hr]
  rcases searchLoop_spec (mem_boxNeighbours h) start fuel _ 0 [start] []
    (SearchInv.init _ _ _) r hr with ⟨rfl, hnone⟩ | ⟨c, sf, d, A, B, rfl, hstop, hinv⟩
  · refine ⟨⟨0, 0⟩, false, rfl, ?_, fun _ => rfl⟩
    refine ⟨fun _ => ?_, fun _ => rfl⟩
    rintro ⟨q, k, hk, hbox⟩
    have := hnone q k hk
    simp [hbox] at this
  · refine ⟨c, true, rfl, ?_, fun hf => Bool.noConfusion hf⟩
    refine ⟨fun hf => Bool.noConfusion hf, fun hno => ?_⟩
    exfalso
    have hm : MinHops h.BoxStep start c d := hinv.levA c (List.mem_cons_self _ _)
    exact hno ⟨c, d, hm.1, by simpa using hstop⟩

theorem C16_nearest_box_not_found_witness :
    (GameHelpers.mk noBoxTestState).FindNearestBox 14 ⟨0, 0⟩ = some (⟨0, 0⟩, false) ∧
      ∃ p found, (GameHelpers.mk noBoxTestState).FindNearestBox 14 ⟨0, 0⟩ = some (p, found) ∧
        (found = false ↔
          ¬ ∃ q k, Hops (GameHelpers.mk noBoxTestState).BoxStep ⟨0, 0⟩ q k ∧
            noBoxTestState.Field.CellAt q = Box) ∧
        (found = false → p = ⟨0, 0⟩) :=
  ⟨by decide, C16_nearest_box_not_found ⟨noBoxTestState⟩ ⟨0, 0⟩ 14 (by decide)⟩

/-! ## Properties: the Manhattan distance -/

theorem roundNatAt_exact (n : Nat) (hn : n ≤ 2 ^ 53) : roundNatAt n 64 0 = n := by
  rcases Nat.lt_or_eq_of_le hn with hlt | heq
  · show roundNatAt n (63 + 1) 0 = n
    rw [roundNatAt, if_pos (by simpa using hlt)]
    simp [Nat.mod_one]
  · subst heq
    decide

theorem float64OfInt_exact (z : Int) (hz : |z| ≤ 2 ^ 53) : float64OfInt z = z := by
  have hnat : z.natAbs ≤ 2 ^ 53 := by
    have h1 : (z.natAbs : Int) ≤ 2 ^ 53 := by rw [Int.natCast_natAbs]; exact hz
    exact_mod_cast h1
  unfold float64OfInt
  rw [roundNatAt_exact _ hnat]
  by_cases hneg : z < 0
  · rw [if_pos hneg]; omega
  · rw [if_neg hneg]; omega

theorem wrapInt64_exact (z : Int) (hz : |z| ≤ 2 ^ 53) : wrapInt64 z = z := by
  have h1 := abs_le.mp hz
  unfold wrapInt64
  omega

theorem distanceTo_exact (p q : Position) (hsmall : |p.X - q.X| + |p.Y - q.Y| ≤ 2 ^ 53) :
    p.DistanceTo q = some (|p.X - q.X| + |p.Y - q.Y|) := by
  have hx0 := abs_nonneg (p.X - q.X)
  have hy0 := abs_nonneg (p.Y - q.Y)
  have hx : |p.X - q.X| ≤ 2 ^ 53 := by omega
  have hy : |p.Y - q.Y| ≤ 2 ^ 53 := by omega
  have hsum : |(|p.X - q.X| + |p.Y - q.Y|)| ≤ 2 ^ 53 := by
    rw [abs_of_nonneg (by omega)]; exact hsmall
  unfold Position.DistanceTo float64Add intOfFloat64
  rw [wrapInt64_exact _ hx, wrapInt64_exact _ hy, float64OfInt_exact _ hx,
    float64OfInt_exact _ hy, float64OfInt_exact _ hsum]
  rw [if_pos (by constructor <;> omega)]

/-- Claim C20 (as amended). For positions `p` and `q` whose Manhattan distance
`|p.X - q.X| + |p.Y - q.Y|` is at most `2 ^ 53`, so that the float64 sum and not only its
two terms is exact, `p.DistanceTo q` is that distance; hence it is not negative, the same
from `q` to `p`, and zero iff `p = q`. -/
theorem C20_distanceTo_manhattan (p q : Position)
    (hsmall : |p.X - q.X| + |p.Y - q.Y| ≤ 2 ^ 53) :
    p.DistanceTo q = some (|p.X - q.X| + |p.Y - q.Y|) ∧
      0 ≤ |p.X - q.X| + |p.Y - q.Y| ∧
      q.DistanceTo p = p.DistanceTo q ∧
      (p.DistanceTo q = some 0 ↔ p = q) := by
  have hx0 := abs_nonneg (p.X - q.X)
  have hy0 := abs_nonneg (p.Y - q.Y)
  have hsym : |q.X - p.X| + |q.Y - p.Y| = |p.X - q.X| + |p.Y - q.Y| := by
    rw [abs_sub_comm q.X, abs_sub_comm q.Y]
  refine ⟨distanceTo_exact p q hsmall, by omega, ?_, ?_⟩
  · rw [distanceTo_exact p q hsmall, distanceTo_exact q p (by rw [hsym]; exact hsmall), hsym]
  · rw [distanceTo_exact p q hsmall, Option.some.injEq]
    constructor
    · intro h0
      have h1 : |p.X - q.X| = 0 := by omega
      have h2 : |p.Y - q.Y| = 0 := by omega
      rw [abs_eq_zero] at h1 h2
      obtain ⟨px, py⟩ := p
      obtain ⟨qx, qy⟩ := q
      simp only at h1 h2
      rw [Position.mk.injEq]
      constructor <;> omega
    · rintro rfl
      simp

theorem C20_distanceTo_manhattan_witness :
    Position.DistanceTo ⟨1, 2⟩ ⟨-2, 6⟩ = some 7 ∧
      Position.DistanceTo ⟨1, 2⟩ ⟨-2, 6⟩ = some (|(1 : Int) - (-2)| + |(2 : Int) - 6|) :=
  ⟨by decide, (C20_distanceTo_manhattan ⟨1, 2⟩ ⟨-2, 6⟩ (by norm_num)).1⟩

/-- Claim C20 (as stated) fails. From (2^53 - 1, 2) to (0, 0) both coordinate differences
are below 2^53, but their sum 2^53 + 1 is no float64: the sum rounds to 2^53, which
`DistanceTo` returns in place of the Manhattan distance 2^53 + 1. -/
theorem C20_counterexample :
    |((2 : Int) ^ 53 - 1) - 0| < 2 ^ 53 ∧ |(2 : Int) - 0| < 2 ^ 53 ∧
      Position.DistanceTo ⟨2 ^ 53 - 1, 2⟩ ⟨0, 0⟩ = some 9007199254740992 ∧
      |((2 : Int) ^ 53 - 1) - 0| + |(2 : Int) - 0| = 9007199254740993 := by
  refine ⟨by norm_num, by norm_num, by decide, by norm_num⟩

/-! ## Properties: the decoding of a snapshot -/

/-- Claim C19 (as amended). `decodeCell` maps every JSON string to the cell type with that
text, without error ("AIR" to Air, "WALL" to Wall, "BOX" to Box); it maps every JSON
integer `n` that fits a Go `int` without error to Wall if `n = 0`, Air if `n = 1`, Box if
`n = 2` and Air otherwise (99 for one); and for an integer outside that range and for
every raw value other than a string, an integer and `null` it returns an error together
with the fallback cell Air. -/
theorem C19_decodeCell_spec :
    (∀ s : String, decodeCell (.string s) = (s, none)) ∧
      decodeCell (.string "AIR") = (Air, none) ∧
      decodeCell (.string "WALL") = (Wall, none) ∧
      decodeCell (.string "BOX") = (Box, none) ∧
      (∀ n : Int, -(2 : Int) ^ 63 ≤ n → n < 2 ^ 63 →
        decodeCell (.integer n) =
          (if n = 0 then Wall else if n = 1 then Air else if n = 2 then Box else Air, none)) ∧
      decodeCell (.integer 99) = (Air, none) ∧
      (∀ n : Int, n < -(2 : Int) ^ 63 ∨ 2 ^ 63 ≤ n →
        decodeCell (.integer n) = (Air, some (.unsupportedCellEncoding (.integer n)))) ∧
      decodeCell .other = (Air, some (.unsupportedCellEncoding .other)) := by
  refine ⟨fun s => rfl, rfl, rfl, rfl, ?_, by decide, ?_, rfl⟩
  · intro n h1 h2
    simp only [decodeCell, unmarshalString, unmarshalInt]
    rw [if_pos ⟨h1, h2⟩]
    by_cases h0 : n = 0
    · simp [h0]
    · by_cases h1 : n = 1
      · simp [h1]
      · by_cases h2 : n = 2
        · simp [h2]
        · simp [h0, h1, h2]
  · intro n hn
    simp only [decodeCell, unmarshalString, unmarshalInt]
    rw [if_neg (by omega)]

theorem C19_decodeCell_spec_witness :
    decodeCell (.integer 2) = (Box, none) ∧
      decodeCell (.integer (2 ^ 63)) =
        (Air, some (.unsupportedCellEncoding (.integer (2 ^ 63)))) :=
  ⟨(C19_decodeCell_spec.2.2.2.2.1 2 (by norm_num) (by norm_num)).trans (by decide),
    C19_decodeCell_spec.2.2.2.2.2.2.1 (2 ^ 63) (Or.inr (le_refl _))⟩

/-- Claim C19 (as stated) fails. The JSON integer 2^63 does not fit a Go `int`:
`decodeCell` returns the error, not Air without error. The JSON value `null` is neither a
string nor an integer, but the library stores it into a `string` without error:
`decodeCell` returns the empty cell type and no error, not Air with an error. -/
theorem C19_counterexample :
    decodeCell (.integer (2 ^ 63)) =
        (Air, some (.unsupportedCellEncoding (.integer (2 ^ 63)))) ∧
      decodeCell .null = ("", none) ∧ ("" : CellType) ≠ Air := by
  decide

theorem assignPlayers_opponents (myID : String) (players : List Player) (me : Option Player)
    (opponents : List Player) :
    (assignPlayers myID players (me, opponents)).2 =
      opponents ++ players.filter (fun p => decide (p.ID ≠ myID)) := by
  induction players generalizing me opponents with
  | nil => simp [assignPlayers]
  | cons p rest ih =>
    unfold assignPlayers
    by_cases hp : p.ID = myID
    · rw [if_pos hp, ih, List.filter_cons_of_neg (by simp [hp])]
    · rw [if_neg hp, ih, List.filter_cons_of_pos (by simp [hp])]
      simp

theorem assignPlayers_me_none (myID : String) (players : List Player) (me : Option Player)
    (opponents : List Player) (hno : ∀ p ∈ players, p.ID ≠ myID) :
    (assignPlayers myID players (me, opponents)).1 = me := by
  induction players generalizing opponents with
  | nil => rfl
  | cons p rest ih =>
    unfold assignPlayers
    rw [if_neg (hno p (List.mem_cons_self _ _))]
    exact ih _ (fun q hq => hno q (List.mem_cons_of_mem _ hq))

theorem assignPlayers_me_some (myID : String) (players : List Player) (me : Option Player)
    (opponents : List Player) (hex : ∃ p ∈ players, p.ID = myID) :
    ∃ m, (assignPlayers myID players (me, opponents)).1 = some m ∧ m.ID = myID ∧
      m ∈ players := by
  induction players generalizing me opponents with
  | nil =>
    obtain ⟨p, hp, -⟩ := hex
    simp at hp
  | cons p rest ih =>
    unfold assignPlayers
    by_cases hp : p.ID = myID
    · rw [if_pos hp]
      by_cases hrest : ∃ q ∈ rest, q.ID = myID
      · obtain ⟨m, h1, h2, h3⟩ := ih (some p) opponents hrest
        exact ⟨m, h1, h2, List.mem_cons_of_mem _ h3⟩
      · have hno : ∀ q ∈ rest, q.ID ≠ myID := fun q hq hid => hrest ⟨q, hq, hid⟩
        exact ⟨p, assignPlayers_me_none myID rest (some p) opponents hno, hp,
          List.mem_cons_self _ _⟩
    · rw [if_neg hp]
      obtain ⟨q, hq, hid⟩ := hex
      rcases List.mem_cons.mp hq with rfl | hq'
      · exact absurd hid hp
      · obtain ⟨m, h1, h2, h3⟩ := ih me (opponents ++ [p]) ⟨q, hq', hid⟩
        exact ⟨m, h1, h2, List.mem_cons_of_mem _ h3⟩

/-- The state returned by `parseClassicState` when its player loop has found `myID`: `Me`
and `Opponents` are what the loop left. -/
theorem parseClassicState_players (payload : classicStatePayload) (myID : String)
    (st : GameState) (hok : parseClassicState (some payload) myID = .state st)
    (hme : (assignPlayers myID payload.Players (none, [])).1 ≠ none) :
    st.Me = (assignPlayers myID payload.Players (none, [])).1 ∧
      st.Opponents = (assignPlayers myID payload.Players (none, [])).2 := by
  unfold parseClassicState at hok
  simp only at hok
  split at hok
  · cases hok
  · split at hok
    · cases hok
    · rw [if_neg (fun hc => hme hc.1)] at hok
      cases hok
      exact ⟨rfl, rfl⟩

/-- Claim C18. When some player of the payload has the ID `myID`, a state returned by
`parseClassicState` has as `Me` a player of the payload whose ID is `myID`, and as
`Opponents` the players whose ID differs from `myID`, in payload order. -/
theorem C18_me_and_opponents (payload : classicStatePayload) (myID : String) (st : GameState)
    (hex : ∃ p ∈ payload.Players, p.ID = myID)
    (hok : parseClassicState (some payload) myID = .state st) :
    (∃ me, st.Me = some me ∧ me.ID = myID ∧ me ∈ payload.Players) ∧
      st.Opponents = payload.Players.filter (fun p => decide (p.ID ≠ myID)) := by
  obtain ⟨m, h1, h2, h3⟩ := assignPlayers_me_some myID payload.Players none [] hex
  obtain ⟨e1, e2⟩ := parseClassicState_players payload myID st hok (by rw [h1]; simp)
  refine ⟨⟨m, by rw [e1, h1], h2, h3⟩, ?_⟩
  rw [e2, assignPlayers_opponents]
  simp

theorem C18_me_and_opponents_witness :
    ∃ st, parseClassicState (some assignTestPayload) "p2" = .state st ∧
      st.Me = some ⟨"p2", ⟨1, 0⟩, 2, 2⟩ ∧ st.Opponents = [⟨"p1", ⟨0, 0⟩, 3, 1⟩] ∧
      (∃ me, st.Me = some me ∧ me.ID = "p2" ∧ me ∈ assignTestPayload.Players) ∧
      st.Opponents = assignTestPayload.Players.filter (fun p => decide (p.ID ≠ "p2")) :=
  ⟨_, rfl, rfl, rfl,
    C18_me_and_opponents assignTestPayload "p2" _ ⟨⟨"p2", ⟨1, 0⟩, 2, 2⟩, by decide, rfl⟩ rfl⟩

/-- Claim C17 (the code at the failing input). With the single player `first` and an
unknown `myID`, `parseClassicState` returns a state whose `Me` is `first` and whose
`Opponents` is still `[first]`, not the empty rest of the list: the fallback replaces the
opponents gathered by the player loop only when there are two players or more, as in the
payload of the fallback test, where `Me` is `first` and `Opponents` is `[second]`. -/
theorem C17_fallback_single_player :
    (∃ st, parseClassicState (some singlePlayerPayload) "unknown-id" = .state st ∧
      st.Me = some ⟨"first", ⟨0, 0⟩, 3, 1⟩ ∧ st.Opponents = [⟨"first", ⟨0, 0⟩, 3, 1⟩] ∧
      singlePlayerPayload.Players.drop 1 = []) ∧
    (∃ st, parseClassicState (some fallbackTestPayload) "unknown-id" = .state st ∧
      st.Me = some ⟨"first", ⟨0, 0⟩, 3, 1⟩ ∧ st.Opponents = [⟨"second", ⟨1, 0⟩, 2, 2⟩]) :=
  ⟨⟨_, rfl, rfl, rfl, rfl⟩, ⟨_, rfl, rfl, rfl⟩⟩

/-- The fallback of `parseClassicState` when no player has the ID `myID`: `Me` is the
first player; `Opponents` is the rest of the list when there are two players or more, and
the whole list, `Me` included, when there is one. -/
theorem parseClassicState_fallback (payload : classicStatePayload) (myID : String)
    (st : GameState) (first : Player) (rest : List Player)
    (hplayers : payload.Players = first :: rest)
    (hno : ∀ p ∈ payload.Players, p.ID ≠ myID)
    (hok : parseClassicState (some payload) myID = .state st) :
    st.Me = some first ∧
      (rest ≠ [] → st.Opponents = rest) ∧ (rest = [] → st.Opponents = [first]) := by
  have hme := assignPlayers_me_none myID payload.Players none [] hno
  have hopp := assignPlayers_opponents myID payload.Players none []
  have hfilter : payload.Players.filter (fun p => decide (p.ID ≠ myID)) = payload.Players := by
    rw [List.filter_eq_self]
    intro p hp
    simpa using hno p hp
  rw [hfilter, List.nil_append] at hopp
  unfold parseClassicState at hok
  simp only at hok
  split at hok
  · cases hok
  · split at hok
    · cases hok
    · rw [hme, hopp, hplayers] at hok
      rw [if_pos ⟨rfl, by simp⟩] at hok
      simp only at hok
      cases rest with
      | nil =>
        rw [if_neg (by simp)] at hok
        cases hok
        exact ⟨rfl, fun hne => absurd rfl hne, fun _ => rfl⟩
      | cons second rest' =>
        rw [if_pos (by simp)] at hok
        cases hok
        exact ⟨rfl, fun _ => rfl, fun hnil => by cases hnil⟩

/-! ## Properties: danger and the threats -/

theorem blastCells_congr (h h' : GameHelpers) (hf : h'.State.Field = h.State.Field)
    (o : Position) : h'.blastCells o = h.blastCells o := by
  simp only [GameHelpers.blastCells, GameHelpers.blastLane, defaultBombRange,
    GameHelpers.outOfBounds, hf]

theorem outOfBounds_congr (h h' : GameHelpers) (hf : h'.State.Field = h.State.Field)
    (p : Position) : h'.outOfBounds p = h.outOfBounds p := by
  simp only [GameHelpers.outOfBounds, hf]

/-- More bombs and more explosions on the same grid keep every detonating bomb
detonating. -/
theorem detonating_more_threats (h h' : GameHelpers) (hf : h'.State.Field = h.State.Field)
    (hb : ∀ b ∈ h.State.Bombs, b ∈ h'.State.Bombs)
    (he : ∀ e ∈ h.State.Explosions, e ∈ h'.State.Explosions) (q : Position)
    (hq : Detonating h q) : Detonating h' q := by
  induction hq with
  | fuse b hmem hfuse => exact Detonating.fuse b (hb b hmem) hfuse
  | explosion b hmem hex => exact Detonating.explosion b (hb b hmem) (he _ hex)
  | chain q b _ hmem hblast ih =>
    exact Detonating.chain q b ih (hb b hmem) (by rw [blastCells_congr h h' hf]; exact hblast)

theorem danger_more_threats (h h' : GameHelpers) (hf : h'.State.Field = h.State.Field)
    (hb : ∀ b ∈ h.State.Bombs, b ∈ h'.State.Bombs)
    (he : ∀ e ∈ h.State.Explosions, e ∈ h'.State.Explosions) (p : Position)
    (hp : p ∈ h.computeDangerPositions) : p ∈ h'.computeDangerPositions := by
  rw [mem_computeDangerPositions] at hp ⊢
  rcases hp with hex | ⟨q, hq, hblast⟩
  · exact Or.inl (he p hex)
  · exact Or.inr ⟨q, detonating_more_threats h h' hf hb he q hq,
      by rw [blastCells_congr h h' hf]; exact hblast⟩

theorem unsafe_more_threats (h h' : GameHelpers) (hf : h'.State.Field = h.State.Field)
    (hb : ∀ b ∈ h.State.Bombs, b ∈ h'.State.Bombs)
    (he : ∀ e ∈ h.State.Explosions, e ∈ h'.State.Explosions) (pos : Position)
    (hp : h.IsSafe pos = false) : h'.IsSafe pos = false := by
  rw [← Bool.not_eq_true, isSafe_iff] at hp ⊢
  intro hsafe
  apply hp
  refine ⟨?_, ?_, ?_⟩
  · rw [← outOfBounds_congr h h' hf]; exact hsafe.1
  · rw [bombAt_eq_false]
    intro b hmem
    exact (bombAt_eq_false _ _).mp hsafe.2.1 b (hb b hmem)
  · intro hd
    exact hsafe.2.2 (danger_more_threats h h' hf hb he pos hd)

/-- Claim C27. On an unchanged grid, appending one more bomb, whatever its position and
fuse, or one more explosion position to the snapshot keeps every position of the danger
map in the danger map, and keeps every unsafe position unsafe. The same holds for any
snapshot on the same grid that has at least the same bombs and explosions. -/
theorem C27_danger_monotone (h : GameHelpers) (b : Bomb) (e : Position) :
    (∀ p ∈ h.computeDangerPositions,
      p ∈ (GameHelpers.mk
        { h.State with Bombs := h.State.Bombs ++ [b] }).computeDangerPositions) ∧
    (∀ p ∈ h.computeDangerPositions,
      p ∈ (GameHelpers.mk
        { h.State with Explosions := h.State.Explosions ++ [e] }).computeDangerPositions) ∧
    (∀ pos, h.IsSafe pos = false →
      (GameHelpers.mk { h.State with Bombs := h.State.Bombs ++ [b] }).IsSafe pos = false) ∧
    (∀ pos, h.IsSafe pos = false →
      (GameHelpers.mk
        { h.State with Explosions := h.State.Explosions ++ [e] }).IsSafe pos = false) ∧
    (∀ h' : GameHelpers, h'.State.Field = h.State.Field →
      (∀ b' ∈ h.State.Bombs, b' ∈ h'.State.Bombs) →
      (∀ e' ∈ h.State.Explosions, e' ∈ h'.State.Explosions) →
      (∀ p ∈ h.computeDangerPositions, p ∈ h'.computeDangerPositions) ∧
        ∀ pos, h.IsSafe pos = false → h'.IsSafe pos = false) := by
  refine ⟨?_, ?_, ?_, ?_, ?_⟩
  · exact fun p hp => danger_more_threats h
      ⟨{ h.State with Bombs := h.State.Bombs ++ [b] }⟩ rfl
      (fun b' hb' => List.mem_append_left _ hb') (fun e' he' => he') p hp
  · exact fun p hp => danger_more_threats h
      ⟨{ h.State with Explosions := h.State.Explosions ++ [e] }⟩ rfl (fun b' hb' => hb')
      (fun e' he' => List.mem_append_left _ he') p hp
  · exact fun pos hp => unsafe_more_threats h
      ⟨{ h.State with Bombs := h.State.Bombs ++ [b] }⟩ rfl
      (fun b' hb' => List.mem_append_left _ hb') (fun e' he' => he') pos hp
  · exact fun pos hp => unsafe_more_threats h
      ⟨{ h.State with Explosions := h.State.Explosions ++ [e] }⟩ rfl (fun b' hb' => hb')
      (fun e' he' => List.mem_append_left _ he') pos hp
  · intro h' hf hb he
    exact ⟨fun p hp => danger_more_threats h h' hf hb he p hp,
      fun pos hp => unsafe_more_threats h h' hf hb he pos hp⟩

theorem C27_danger_monotone_witness :
    (GameHelpers.mk nearestSafeTestState).IsSafe ⟨2, 3⟩ = false ∧
      (GameHelpers.mk { nearestSafeTestState with
        Bombs := nearestSafeTestState.Bombs ++ [⟨⟨4, 4⟩, 7⟩] }).IsSafe ⟨2, 3⟩ = false ∧
      (GameHelpers.mk { nearestSafeTestState with
        Explosions := nearestSafeTestState.Explosions ++ [⟨0, 0⟩] }).IsSafe ⟨2, 3⟩ = false :=
  ⟨by decide,
    (C27_danger_monotone ⟨nearestSafeTestState⟩ ⟨⟨4, 4⟩, 7⟩ ⟨0, 0⟩).2.2.1 ⟨2, 3⟩ (by decide),
    (C27_danger_monotone ⟨nearestSafeTestState⟩ ⟨⟨4, 4⟩, 7⟩ ⟨0, 0⟩).2.2.2.1 ⟨2, 3⟩ (by decide)⟩

theorem danger_empty_of_long_fuses (h : GameHelpers) (hno : h.State.Explosions = [])
    (hfuse : ∀ b ∈ h.State.Bombs, 2 ≤ b.Fuse) : h.computeDangerPositions = [] := by
  have hdet : ∀ q, ¬ Detonating h q := by
    intro q hq
    induction hq with
    | fuse b hmem hf =>
      have := hfuse b hmem
      omega
    | explosion b hmem hex => rw [hno] at hex; simp at hex
    | chain q b _ _ _ ih => exact ih
  rw [List.eq_nil_iff_forall_not_mem]
  intro p hp
  rw [mem_computeDangerPositions, hno] at hp
  rcases hp with hex | ⟨q, hq, -⟩
  · simp at hex
  · exact hdet q hq

/-- Claim C25. In a snapshot without explosion in which every bomb has a fuse of 2 or more
the danger map is empty; `IsSafe` then holds on every tile of the board that no bomb
occupies, the tiles next to a bomb included, and `GetNearestSafePosition` returns any
walkable `start` itself. -/
theorem C25_long_fuses_no_danger (h : GameHelpers) (hno : h.State.Explosions = [])
    (hfuse : ∀ b ∈ h.State.Bombs, 2 ≤ b.Fuse) :
    h.computeDangerPositions = [] ∧
      (∀ pos,
        (0 ≤ pos.X ∧ pos.X < h.State.Field.Width ∧ 0 ≤ pos.Y ∧ pos.Y < h.State.Field.Height) →
        (∀ b ∈ h.State.Bombs, b.Pos ≠ pos) → h.IsSafe pos = true) ∧
      (∀ fuel start, h.IsWalkable start = true →
        h.GetNearestSafePosition fuel start = some start) := by
  have hempty := danger_empty_of_long_fuses h hno hfuse
  have hsafe : ∀ pos, h.outOfBounds pos = false → bombAt h.State.Bombs pos = false →
      h.IsSafe pos = true := by
    intro pos hob hb
    rw [isSafe_iff, hempty]
    exact ⟨hob, hb, by simp⟩
  refine ⟨hempty, ?_, ?_⟩
  · intro pos hin hb
    exact hsafe pos ((outOfBounds_eq_false h pos).mpr hin) ((bombAt_eq_false _ _).mpr hb)
  · intro fuel start hw
    have hw' := (isWalkable_iff h start).mp hw
    have hs := hsafe start hw'.1 hw'.2.2.2
    unfold GameHelpers.GetNearestSafePosition
    rw [if_pos (by simp [hw, hs])]

theorem C25_long_fuses_no_danger_witness :
    (GameHelpers.mk walkableTestState).computeDangerPositions = [] ∧
      (GameHelpers.mk walkableTestState).IsSafe ⟨2, 1⟩ = true ∧
      (GameHelpers.mk walkableTestState).GetNearestSafePosition 0 ⟨2, 1⟩ = some ⟨2, 1⟩ :=
  ⟨(C25_long_fuses_no_danger ⟨walkableTestState⟩ rfl (by decide)).1,
    (C25_long_fuses_no_danger ⟨walkableTestState⟩ rfl (by decide)).2.1 ⟨2, 1⟩ (by decide)
      (by decide),
    (C25_long_fuses_no_danger ⟨walkableTestState⟩ rfl (by decide)).2.2 0 ⟨2, 1⟩ (by decide)⟩

/-! ## Properties: blocked targets and repeated calls -/

theorem boxLoop_found_box (h : GameHelpers) (fuel : Nat) (queue visited : List Position)
    (p : Position) (hres : h.boxLoop fuel queue visited = some (p, true)) :
    h.State.Field.CellAt p = Box := by
  induction fuel generalizing queue visited with
  | zero => simp [GameHelpers.boxLoop] at hres
  | succ fuel ih =>
    cases queue with
    | nil => simp [GameHelpers.boxLoop] at hres
    | cons c rest =>
      simp only [GameHelpers.boxLoop] at hres
      by_cases hc : h.State.Field.CellAt c = Box
      · rw [if_pos hc] at hres
        have : c = p := by simpa using hres
        rw [← this]; exact hc
      · rw [if_neg hc] at hres
        exact ih _ _ hres

theorem getNextActionTowards_blocked (h : GameHelpers) (start target : Position)
    (hw : h.IsWalkable target = false) (fuel : Nat) (hfuel : h.searchFuel ≤ fuel) :
    h.GetNextActionTowards fuel start target = some DoNothing := by
  unfold GameHelpers.GetNextActionTowards
  by_cases hne : start = target
  · rw [if_pos hne]
  · rw [if_neg hne, bfs_nil_of_unreachable h start _ false ?_ fuel hfuel]
    intro v k hv hvs
    by_cases hvt : v = target
    · subst hvt
      cases hv with
      | zero => exact absurd rfl hvs
      | succ _ hstep =>
        rw [hstep.2] at hw
        cases hw
    · simpa using hvt

/-- Claim C26. When `target` is not walkable (off the board, a Wall, a Box or under a bomb)
and differs from `start`, `GetNextActionTowards` returns DoNothing on `searchFuel` rounds
or more, also when `target` is next to `start`. A position that `FindNearestBox` returns
with a true flag is a Box, hence not walkable: as a target it gives DoNothing from every
start. -/
theorem C26_blocked_target (h : GameHelpers) (fuel : Nat) (hfuel : h.searchFuel ≤ fuel) :
    (∀ start target, start ≠ target → h.IsWalkable target = false →
      h.GetNextActionTowards fuel start target = some DoNothing) ∧
    (∀ boxFuel origin p start, h.FindNearestBox boxFuel origin = some (p, true) →
      h.IsWalkable p = false ∧ h.GetNextActionTowards fuel start p = some DoNothing) := by
  refine ⟨fun start target _ hw => getNextActionTowards_blocked h start target hw fuel hfuel,
    ?_⟩
  intro boxFuel origin p start hres
  have hbox := boxLoop_found_box h boxFuel [origin] [origin] p hres
  have hw : h.IsWalkable p = false := by
    rw [← Bool.not_eq_true, isWalkable_iff]
    intro hh
    exact hh.2.2.1 hbox
  exact ⟨hw, getNextActionTowards_blocked h start p hw fuel hfuel⟩

theorem C26_blocked_target_witness :
    (GameHelpers.mk boxTestState).FindNearestBox 14 ⟨0, 0⟩ = some (⟨1, 0⟩, true) ∧
      Adjacent ⟨0, 0⟩ ⟨1, 0⟩ ∧
      (GameHelpers.mk boxTestState).GetNextActionTowards 14 ⟨0, 0⟩ ⟨1, 0⟩ = some DoNothing ∧
      (GameHelpers.mk boxTestState).GetNextActionTowards 14 ⟨0, 0⟩ ⟨1, 1⟩ = some DoNothing :=
  ⟨by decide, by decide,
    ((C26_blocked_target ⟨boxTestState⟩ 14 (by decide)).2 14 ⟨0, 0⟩ ⟨1, 0⟩ ⟨0, 0⟩
      (by decide)).2,
    (C26_blocked_target ⟨boxTestState⟩ 14 (by decide)).1 ⟨0, 0⟩ ⟨1, 1⟩ (by decide)
      (by decide)⟩

theorem bfs_total (h : GameHelpers) (start : Position) (goal : Position → Bool)
    (allowUnsafeStart : Bool) (fuel : Nat) (hfuel : h.searchFuel ≤ fuel) :
    ∃ res, h.bfs fuel start goal allowUnsafeStart = some res := by
  unfold GameHelpers.bfs
  split
  · exact ⟨none, rfl⟩
  · obtain ⟨r, hr⟩ := searchLoop_total h (fun c => decide (c ≠ start) && goal c)
      h.GetAdjacentWalkablePositions start (walkStep_mem_board h start) fuel hfuel
    rw [bfsLoop_eq, hr]
    exact ⟨_, rfl⟩

theorem safeLoop_total (h : GameHelpers) (start : Position) (fuel : Nat)
    (hfuel : h.searchFuel ≤ fuel) : ∃ r, h.safeLoop start fuel [start] [start] = some r := by
  obtain ⟨r, hr⟩ := searchLoop_total h (fun c => h.IsWalkable c && h.IsSafe c)
    h.GetAdjacentWalkablePositions start (walkStep_mem_board h start) fuel hfuel
  have hloop := safeLoop_eq h start fuel ⟨[start], [start], []⟩
  simp only at hloop
  rw [hloop, hr]
  exact ⟨_, rfl⟩

theorem getNearestSafePosition_total (h : GameHelpers) (start : Position) (fuel : Nat)
    (hfuel : h.searchFuel ≤ fuel) : ∃ r, h.GetNearestSafePosition fuel start = some r := by
  unfold GameHelpers.GetNearestSafePosition
  split
  · exact ⟨start, rfl⟩
  · obtain ⟨res, hres⟩ := bfs_total h start (fun pos => h.IsWalkable pos && h.IsSafe pos)
      true fuel hfuel
    rw [hres]
    cases res with
    | none => exact ⟨start, rfl⟩
    | some prev => exact safeLoop_total h start fuel hfuel

/-- Claim C28. On a fixed snapshot `GetNearestSafePosition` is idempotent: on `searchFuel`
rounds or more it returns a tile on which it returns that same tile. -/
theorem C28_nearest_safe_idempotent (h : GameHelpers) (start : Position) (fuel : Nat)
    (hfuel : h.searchFuel ≤ fuel) :
    ∃ r, h.GetNearestSafePosition fuel start = some r ∧
      h.GetNearestSafePosition fuel r = some r := by
  obtain ⟨r, hr⟩ := getNearestSafePosition_total h start fuel hfuel
  refine ⟨r, hr, ?_⟩
  rcases getNearestSafePosition_result h fuel start r hr with h1 | ⟨hw, hs⟩
  · subst h1
    exact hr
  · unfold GameHelpers.GetNearestSafePosition
    rw [if_pos (by simp [hw, hs])]

theorem C28_nearest_safe_idempotent_witness :
    (GameHelpers.mk nearestSafeTestState).GetNearestSafePosition 27 ⟨2, 2⟩ = some ⟨3, 1⟩ ∧
      (GameHelpers.mk nearestSafeTestState).GetNearestSafePosition 27 ⟨3, 1⟩ = some ⟨3, 1⟩ ∧
      ∃ r, (GameHelpers.mk nearestSafeTestState).GetNearestSafePosition 27 ⟨2, 2⟩ = some r ∧
        (GameHelpers.mk nearestSafeTestState).GetNearestSafePosition 27 r = some r :=
  ⟨by decide, by decide,
    C28_nearest_safe_idempotent ⟨nearestSafeTestState⟩ ⟨2, 2⟩ 27 (by decide)⟩

/-! ## Properties: the cells of a decoded snapshot -/

/-- What the cell loop of `parseClassicState` returns when no cell fails to decode: as many
cells as it was given, the cell at `i + j` decoded from the `j`-th raw cell when that index
exists, and the other cells untouched. -/
theorem decodeCells_spec (raws : List RawJSON) (i : Nat) (cells out : List CellType)
    (hok : decodeCells raws i cells = .ok out) :
    out.length = cells.length ∧
      (∀ j raw, raws[j]? = some raw → i + j < cells.length →
        out[i + j]? = some (decodeCell raw).1) ∧
      (∀ j, j < i ∨ i + raws.length ≤ j → out[j]? = cells[j]?) := by
  induction raws generalizing i cells with
  | nil =>
    simp only [decodeCells] at hok
    cases hok
    exact ⟨rfl, fun j raw hj => by simp at hj, fun _ _ => rfl⟩
  | cons raw rest ih =>
    unfold decodeCells at hok
    by_cases hi : i < cells.length
    · rw [if_pos hi] at hok
      cases hd : decodeCell raw with
      | mk cell err =>
        rw [hd] at hok
        cases err with
        | some e => cases hok
        | none =>
          simp only at hok
          obtain ⟨h1, h2, h3⟩ := ih (i + 1) (cells.set i cell) hok
          rw [List.length_set] at h1 h2
          refine ⟨h1, ?_, ?_⟩
          · intro j raw' hj hlt
            cases j with
            | zero =>
              have hraw : raw = raw' := by simpa using hj
              subst hraw
              rw [Nat.add_zero, h3 i (Or.inl (Nat.lt_succ_self i)), List.getElem?_set, if_pos rfl,
                if_pos hi, hd]
            | succ j =>
              rw [List.getElem?_cons_succ] at hj
              have := h2 j raw' hj (by omega)
              rwa [show i + 1 + j = i + (j + 1) by omega] at this
          · intro j hj
            have hne : ¬ i = j := by
              simp only [List.length_cons] at hj
              omega
            rw [h3 j (by simp only [List.length_cons] at hj; omega), List.getElem?_set,
              if_neg hne]
    · rw [if_neg hi] at hok
      cases hok
      exact ⟨rfl, fun j raw' _ hlt => by omega, fun _ _ => rfl⟩

/-- The field of a state returned by `parseClassicState`: width and height of the payload,
and the cells the cell loop leaves from as many empty cells as the Go `int` product of
width and height, which is not negative. -/
theorem parseClassicState_field (payload : classicStatePayload) (myID : String)
    (st : GameState) (hok : parseClassicState (some payload) myID = .state st) :
    0 ≤ wrapInt64 (payload.Field.Width * payload.Field.Height) ∧
      ∃ cells, decodeCells payload.Field.Field 0
          (List.replicate (wrapInt64 (payload.Field.Width * payload.Field.Height)).toNat "") =
            .ok cells ∧
        st.Field = ⟨payload.Field.Width, payload.Field.Height, cells⟩ := by
  unfold parseClassicState at hok
  simp only at hok
  split at hok
  · cases hok
  · rename_i hn
    refine ⟨by omega, ?_⟩
    split at hok
    · cases hok
    · rename_i cells hcells
      refine ⟨cells, hcells, ?_⟩
      split at hok
      · split at hok
        · split at hok <;> cases hok <;> rfl
        · cases hok; rfl
      · cases hok; rfl

/-- Claim C24 (as amended). When `parseClassicState` returns a state for a payload whose
width and height are not negative and whose product fits a Go `int`, the field of the
state has the width and height of the payload and exactly width times height cells; cell
`i` is `decodeCell` of the `i`-th supplied cell for every `i` below both lengths, the
cells beyond the supplied ones are the zero-value cell type, and supplied cells beyond
width times height are ignored. -/
theorem C24_cells_of_parsed_state (payload : classicStatePayload) (myID : String)
    (st : GameState) (hok : parseClassicState (some payload) myID = .state st)
    (hw : 0 ≤ payload.Field.Width) (hh : 0 ≤ payload.Field.Height)
    (hfit : payload.Field.Width * payload.Field.Height < 2 ^ 63) :
    st.Field.Width = payload.Field.Width ∧ st.Field.Height = payload.Field.Height ∧
      (st.Field.Cells.length : Int) = payload.Field.Width * payload.Field.Height ∧
      (∀ i raw, payload.Field.Field[i]? = some raw → i < st.Field.Cells.length →
        st.Field.Cells[i]? = some (decodeCell raw).1) ∧
      (∀ i, payload.Field.Field.length ≤ i → i < st.Field.Cells.length →
        st.Field.Cells[i]? = some "") := by
  obtain ⟨hn, cells, hcells, hfield⟩ := parseClassicState_field payload myID st hok
  obtain ⟨h1, h2, h3⟩ := decodeCells_spec _ _ _ _ hcells
  have hprod : 0 ≤ payload.Field.Width * payload.Field.Height := mul_nonneg hw hh
  have hwrap : wrapInt64 (payload.Field.Width * payload.Field.Height) =
      payload.Field.Width * payload.Field.Height := by
    unfold wrapInt64
    omega
  rw [List.length_replicate] at h1 h2
  rw [hfield]
  refine ⟨rfl, rfl, ?_, ?_, ?_⟩
  · show (cells.length : Int) = _
    rw [h1, Int.toNat_of_nonneg hn, hwrap]
  · intro i raw hraw hi
    have := h2 i raw hraw (by rw [Nat.zero_add, ← h1]; exact hi)
    rwa [Nat.zero_add] at this
  · intro i hlen hi
    show cells[i]? = some ""
    rw [h3 i (Or.inr (by omega)), List.getElem?_replicate, if_pos (by rw [← h1]; exact hi)]

theorem C24_cells_of_parsed_state_witness :
    (∃ st, parseClassicState (some shortFieldPayload) "" = .state st ∧
      st.Field.Cells = [Box, Wall, Air, ""]) ∧
    (∃ st, parseClassicState (some longFieldPayload) "" = .state st ∧
      st.Field.Cells = [Box, Wall]) ∧
    ∃ st, parseClassicState (some assignTestPayload) "p2" = .state st ∧
      st.Field.Cells = [Air, Wall, Box, Box, Wall, Air] ∧
      (st.Field.Cells.length : Int) =
        assignTestPayload.Field.Width * assignTestPayload.Field.Height :=
  ⟨⟨_, rfl, by decide⟩, ⟨_, rfl, by decide⟩, _, rfl, by decide,
    (C24_cells_of_parsed_state assignTestPayload "p2" _ rfl (by decide) (by decide)
      (by decide)).2.2.1⟩

/-- Claim C24 (as stated) fails. Width and height 2^32 are not negative; their product
2^64 is 0 as a Go `int`, so `make` builds no cell and `parseClassicState` returns a state
whose field has 0 cells, not 2^64. -/
theorem C24_counterexample :
    ∃ st, parseClassicState (some overflowPayload) "" = .state st ∧
      0 ≤ st.Field.Width ∧ 0 ≤ st.Field.Height ∧ st.Field.Cells.length = 0 ∧
      st.Field.Width * st.Field.Height = 18446744073709551616 :=
  ⟨_, rfl, by decide, by decide, by decide, by decide⟩

/-! ## Properties: the rounds of the chain reaction -/

/-- A bomb index enters the queue through `markCell` only when it is not triggered yet,
hence not queued yet. -/
theorem markCell_queue (h : GameHelpers) (s : DangerState) (c : Position)
    (hs : DangerSound h s) (hnd : s.queue.Nodup) :
    (markCell h.bombIndex s c).queue.Nodup ∧
      ∀ i ∈ (markCell h.bombIndex s c).queue,
        i ∈ s.queue ∨ s.triggered.getD i false = false := by
  rcases markCell_cases h.bombIndex s c with ⟨j, -, hf, heq⟩ | ⟨-, heq⟩
  · rw [heq]
    have hj : j ∉ s.queue := by
      intro hmem
      rw [hs.queued j hmem] at hf
      cases hf
    refine ⟨?_, ?_⟩
    · rw [List.nodup_append]
      refine ⟨hnd, List.nodup_singleton j, ?_⟩
      intro x hx hx'
      have : x = j := by simpa using hx'
      exact hj (this ▸ hx)
    · intro i hi
      rcases List.mem_append.mp hi with h1 | h1
      · exact Or.inl h1
      · have : i = j := by simpa using h1
        rw [this]; exact Or.inr hf
  · rw [heq]
    exact ⟨hnd, fun i hi => Or.inl hi⟩

theorem untriggered_of_grows {s1 s2 : DangerState} (hg : Grows s1 s2) (i : Nat)
    (hi : s2.triggered.getD i false = false) : s1.triggered.getD i false = false := by
  cases h1 : s1.triggered.getD i false with
  | false => rfl
  | true => rw [hg.trig i h1] at hi; cases hi

theorem foldl_markCell_queue (h : GameHelpers) (cells : List Position) (s : DangerState)
    (hs : DangerSound h s) (hnd : s.queue.Nodup)
    (hbomb : ∀ c ∈ cells, ∀ b ∈ h.State.Bombs, b.Pos = c → Detonating h c)
    (hcell : ∀ c ∈ cells,
      c ∈ h.State.Explosions ∨ ∃ q, Detonating h q ∧ c ∈ h.blastCells q) :
    (cells.foldl (markCell h.bombIndex) s).queue.Nodup ∧
      ∀ i ∈ (cells.foldl (markCell h.bombIndex) s).queue,
        i ∈ s.queue ∨ s.triggered.getD i false = false := by
  induction cells generalizing s with
  | nil => exact ⟨hnd, fun i hi => Or.inl hi⟩
  | cons c cells ih =>
    have h1 := markCell_sound h s c hs (hbomb c (List.mem_cons_self _ _))
      (hcell c (List.mem_cons_self _ _))
    have h2 := markCell_queue h s c hs hnd
    have hg := (markCell_grows h s c hs.len).1
    obtain ⟨i1, i2⟩ := ih (markCell h.bombIndex s c) h1 h2.1
      (fun c' hc' => hbomb c' (List.mem_cons_of_mem _ hc'))
      (fun c' hc' => hcell c' (List.mem_cons_of_mem _ hc'))
    refine ⟨i1, ?_⟩
    intro i hi
    rcases i2 i hi with h3 | h3
    · exact h2.2 i h3
    · exact Or.inr (untriggered_of_grows hg i h3)

/-- The loop over the fuses enqueues a bomb index that is not triggered yet, hence not
queued yet. -/
theorem seedFuses_queue (rest : List Bomb) (k : Nat) (s : DangerState)
    (hlen : k + rest.length ≤ s.triggered.length)
    (hq : ∀ i ∈ s.queue, s.triggered.getD i false = true) (hnd : s.queue.Nodup) :
    (seedFuses rest k s).queue.Nodup := by
  induction rest generalizing k s with
  | nil => exact hnd
  | cons b rest ih =>
    simp only [List.length_cons] at hlen
    unfold seedFuses
    by_cases hc : b.Fuse ≤ 1 ∧ (!(s.triggered.getD k false)) = true
    · rw [if_pos hc]
      have hf : s.triggered.getD k false = false := by simpa using hc.2
      have hk : k ∉ s.queue := by
        intro hmem
        rw [hq k hmem] at hf
        cases hf
      refine ih (k + 1) _ (by simp only [List.length_set]; omega) ?_ ?_
      · intro i hi
        rcases List.mem_append.mp hi with h1 | h1
        · exact (getD_set_true _ _ _).mpr (Or.inr (hq i h1))
        · have : i = k := by simpa using h1
          subst this
          exact (getD_set_true _ _ _).mpr (Or.inl ⟨rfl, by omega⟩)
      · show (s.queue ++ [k]).Nodup
        rw [List.nodup_append]
        refine ⟨hnd, List.nodup_singleton k, ?_⟩
        intro x hx hx'
        have : x = k := by simpa using hx'
        exact hk (this ▸ hx)
    · rw [if_neg hc]
      exact ih (k + 1) s (by omega) hq hnd

theorem dangerSeed_queue (h : GameHelpers) : h.dangerSeed.queue.Nodup := by
  have hnone : ∀ i, (List.replicate h.State.Bombs.length false).getD i false = false := by
    intro i
    rw [List.getD_eq_getElem?_getD, List.getElem?_replicate]
    split <;> rfl
  have hs0 : DangerSound h ⟨[], List.replicate h.State.Bombs.length false, []⟩ := by
    refine ⟨by simp, fun i hi => by simp at hi, ?_, fun p hp => by simp at hp⟩
    intro i hi
    rw [hnone i] at hi
    cases hi
  have hb : ∀ c ∈ h.State.Explosions, ∀ b ∈ h.State.Bombs, b.Pos = c → Detonating h c :=
    fun c hc b hb hbc => by
      rw [← hbc]; exact Detonating.explosion b hb (by rw [hbc]; exact hc)
  obtain ⟨a1, -, -⟩ := foldl_markCell h h.State.Explosions _ hs0 hb (fun c hc => Or.inl hc)
  obtain ⟨q1, -⟩ := foldl_markCell_queue h h.State.Explosions _ hs0 List.nodup_nil hb
    (fun c hc => Or.inl hc)
  exact seedFuses_queue h.State.Bombs 0 _ (by rw [a1.len]; omega) a1.queued q1

/-- The rounds of the worklist loop: on a fuel larger than the number of queued plus
untriggered bombs the loop ends, no index is dequeued twice, every dequeued index was
queued or untriggered at the start and names a bomb, and there are at most as many rounds
as queued plus untriggered bombs. -/
theorem dangerRounds_spec (h : GameHelpers) (fuel : Nat) (s : DangerState)
    (hs : DangerSound h s) (hnd : s.queue.Nodup)
    (hfuel : s.queue.length + s.triggered.count false < fuel) :
    ∃ rounds, h.dangerRounds h.bombIndex fuel s = some rounds ∧ rounds.Nodup ∧
      (∀ i ∈ rounds, i ∈ s.queue ∨ s.triggered.getD i false = false) ∧
      (∀ i ∈ rounds, i < h.State.Bombs.length) ∧
      rounds.length ≤ s.queue.length + s.triggered.count false := by
  induction fuel generalizing s with
  | zero => omega
  | succ fuel ih =>
    obtain ⟨danger, triggered, queue⟩ := s
    cases queue with
    | nil =>
      exact ⟨[], rfl, List.nodup_nil, fun i hi => by simp at hi, fun i hi => by simp at hi,
        Nat.zero_le _⟩
    | cons idx rest =>
      obtain ⟨b, hb, hdet⟩ := hs.trig idx (hs.queued idx (List.mem_cons_self _ _))
      have hs1 : DangerSound h ⟨danger, triggered, rest⟩ :=
        ⟨hs.len, fun i hi => hs.queued i (List.mem_cons_of_mem _ hi), hs.trig, hs.danger⟩
      have hnd1 : rest.Nodup := (List.nodup_cons.mp hnd).2
      have hidx : idx ∉ rest := (List.nodup_cons.mp hnd).1
      have hbomb : ∀ c ∈ h.blastCells b.Pos, ∀ b' ∈ h.State.Bombs, b'.Pos = c →
          Detonating h c := fun c hc b' hb' hbc => by
        rw [← hbc]; exact Detonating.chain b.Pos b' hdet hb' (by rw [hbc]; exact hc)
      have hcell : ∀ c ∈ h.blastCells b.Pos,
          c ∈ h.State.Explosions ∨ ∃ q, Detonating h q ∧ c ∈ h.blastCells q :=
        fun c hc => Or.inr ⟨b.Pos, hdet, hc⟩
      obtain ⟨i1, i2, -⟩ := foldl_markCell h (h.blastCells b.Pos) ⟨danger, triggered, rest⟩ hs1
        hbomb hcell
      obtain ⟨q1, q2⟩ := foldl_markCell_queue h (h.blastCells b.Pos)
        ⟨danger, triggered, rest⟩ hs1 hnd1 hbomb hcell
      have hm := i2.measure
      simp only [List.length_cons] at hfuel hm ⊢
      obtain ⟨rounds, e1, e2, e3, e4, e5⟩ := ih _ i1 q1 (by omega)
      have hfrom : ∀ i ∈ rounds, i ∈ rest ∨ triggered.getD i false = false := by
        intro i hi
        rcases e3 i hi with h1 | h1
        · exact q2 i h1
        · exact Or.inr (untriggered_of_grows i2 i h1)
      refine ⟨idx :: rounds, ?_, ?_, ?_, ?_, ?_⟩
      · simp only [GameHelpers.dangerRounds, hb]
        rw [e1]; rfl
      · refine List.nodup_cons.mpr ⟨?_, e2⟩
        intro hmem
        rcases hfrom idx hmem with h1 | h1
        · exact hidx h1
        · have := hs.queued idx (List.mem_cons_self _ _)
          rw [h1] at this
          cases this
      · intro i hi
        rcases List.mem_cons.mp hi with h1 | h1
        · exact Or.inl (h1 ▸ List.mem_cons_self _ _)
        · rcases hfrom i h1 with h2 | h2
          · exact Or.inl (List.mem_cons_of_mem _ h2)
          · exact Or.inr h2
      · intro i hi
        rcases List.mem_cons.mp hi with h1 | h1
        · rw [h1]; exact (List.getElem?_eq_some.mp hb).1
        · exact e4 i h1
      · simp only [List.length_cons]
        omega

/-- The worklist loop takes one unit of fuel per dequeued index and one for the test that
finds the queue empty. -/
theorem dangerLoop_rounds (h : GameHelpers) (bi : List (Position × Nat)) (fuel : Nat)
    (s : DangerState) (rounds : List Nat) (hr : h.dangerRounds bi fuel s = some rounds) :
    h.dangerLoop bi (rounds.length + 1) s = h.dangerLoop bi fuel s ∧
      (h.dangerLoop bi fuel s).isSome = true ∧
      h.dangerLoop bi rounds.length s = none := by
  induction fuel generalizing s rounds with
  | zero => simp [GameHelpers.dangerRounds] at hr
  | succ fuel ih =>
    obtain ⟨danger, triggered, queue⟩ := s
    cases queue with
    | nil =>
      simp only [GameHelpers.dangerRounds, Option.some.injEq] at hr
      subst hr
      exact ⟨rfl, rfl, rfl⟩
    | cons idx rest =>
      simp only [GameHelpers.dangerRounds] at hr
      cases hb : h.State.Bombs[idx]? with
      | none => simp [hb] at hr
      | some b =>
        simp only [hb] at hr
        cases hr' : h.dangerRounds bi fuel
            ((h.blastCells b.Pos).foldl (markCell bi) ⟨danger, triggered, rest⟩) with
        | none => rw [hr'] at hr; simp at hr
        | some rounds' =>
          rw [hr'] at hr
          simp only [Option.map_some', Option.some.injEq] at hr
          subst hr
          obtain ⟨e1, e2, e3⟩ := ih _ rounds' hr'
          simp only [List.length_cons, GameHelpers.dangerLoop, hb]
          exact ⟨e1, e2, e3⟩

/-- Claim C22. The chain-reaction worklist of `computeDangerPositions` converges on every
snapshot. The loop dequeues a list `rounds` of bomb indices and then finds the queue
empty: no index occurs twice in it (an index is enqueued at most once), every index names
a bomb, and there are at most `len(Bombs)` rounds; the loop returns the danger map after
exactly these rounds (fuel `rounds.length + 1`, and not on less), hence on any fuel above
`len(Bombs)`. Every enqueueing goes through `markCell` or the fuse loop, which append an
index only when its flag is unset and set the flag in the same step. Cyclic example: in
the snapshot of the chain-reaction test the bombs at (2,2) and (4,2) lie in each other's
footprints, and the loop takes the two rounds 0, 1. -/
theorem C22_worklist_converges :
    (∀ h : GameHelpers, ∃ rounds,
      h.dangerRounds h.bombIndex (h.State.Bombs.length + 1) h.dangerSeed = some rounds ∧
      rounds.Nodup ∧ (∀ i ∈ rounds, i < h.State.Bombs.length) ∧
      rounds.length ≤ h.State.Bombs.length ∧
      h.computeDangerPositionsFuel (rounds.length + 1) = some h.computeDangerPositions ∧
      h.computeDangerPositionsFuel rounds.length = none ∧
      ∀ fuel, h.State.Bombs.length + 1 ≤ fuel →
        h.computeDangerPositionsFuel fuel = some h.computeDangerPositions) ∧
    (∀ (bi : List (Position × Nat)) (s : DangerState) (c : Position),
      (markCell bi s c).queue = s.queue ∧ (markCell bi s c).triggered = s.triggered ∨
      ∃ j, s.triggered.getD j false = false ∧ (markCell bi s c).queue = s.queue ++ [j] ∧
        (markCell bi s c).triggered = s.triggered.set j true) ∧
    (∀ (b : Bomb) (rest : List Bomb) (k : Nat) (s : DangerState),
      seedFuses (b :: rest) k s = seedFuses rest (k + 1) s ∨
      s.triggered.getD k false = false ∧
        seedFuses (b :: rest) k s = seedFuses rest (k + 1)
          { s with triggered := s.triggered.set k true, queue := s.queue ++ [k] }) ∧
    ((⟨4, 2⟩ : Position) ∈ (GameHelpers.mk chainTestState).blastCells ⟨2, 2⟩ ∧
      (⟨2, 2⟩ : Position) ∈ (GameHelpers.mk chainTestState).blastCells ⟨4, 2⟩ ∧
      (GameHelpers.mk chainTestState).dangerRounds (GameHelpers.mk chainTestState).bombIndex 3
        (GameHelpers.mk chainTestState).dangerSeed = some [0, 1]) := by
  refine ⟨?_, ?_, ?_, by decide⟩
  · intro h
    obtain ⟨c1, -, c3, -⟩ := dangerSeed_spec h
    obtain ⟨rounds, e1, e2, -, e4, e5⟩ := dangerRounds_spec h (h.State.Bombs.length + 1)
      h.dangerSeed c1 (dangerSeed_queue h) (by omega)
    obtain ⟨r1, -, r3⟩ := dangerLoop_rounds h h.bombIndex _ _ rounds e1
    have hfull := computeDangerPositionsFuel_eq h (h.State.Bombs.length + 1) (le_refl _)
    refine ⟨rounds, e1, e2, e4, by omega, ?_, r3, fun fuel hf =>
      computeDangerPositionsFuel_eq h fuel hf⟩
    unfold GameHelpers.computeDangerPositionsFuel at hfull ⊢
    rw [r1]; exact hfull
  · intro bi s c
    rcases markCell_cases bi s c with ⟨j, -, hf, heq⟩ | ⟨-, heq⟩
    · exact Or.inr ⟨j, hf, by rw [heq], by rw [heq]⟩
    · exact Or.inl ⟨by rw [heq], by rw [heq]⟩
  · intro b rest k s
    by_cases hc : b.Fuse ≤ 1 ∧ (!(s.triggered.getD k false)) = true
    · right
      refine ⟨by simpa using hc.2, ?_⟩
      conv_lhs => unfold seedFuses
      rw [if_pos hc]
    · left
      conv_lhs => unfold seedFuses
      rw [if_neg hc]

/-! ## Properties: the searches are total -/

/-- The queue, read backwards, is a sublist of the visited tiles, and stays so. -/
theorem bfsExpand_sublist (cur : Position) (ns : List Position) (s : SearchState)
    (hq : s.queue.reverse.Sublist s.visited) :
    (bfsExpand cur ns s).queue.reverse.Sublist (bfsExpand cur ns s).visited := by
  induction ns generalizing s with
  | nil => exact hq
  | cons n ns ih =>
    unfold bfsExpand
    by_cases hn : n ∈ s.visited
    · rw [if_pos hn]; exact ih s hq
    · rw [if_neg hn]
      apply ih
      show (s.queue ++ [n]).reverse.Sublist (n :: s.visited)
      rw [List.reverse_append]
      exact List.Sublist.cons₂ n hq

/-- The dequeue order of `searchLoop` when every tile it can visit belongs to the finite set
`U`: the loop ends, no tile is dequeued twice, a dequeued tile was queued at the start or
is a neighbour enqueued later, and there are at most as many dequeues as tiles of `U` not
visited yet plus queued tiles; the loop returns on one more unit of fuel than dequeues. -/
theorem searchOrder_spec {stop : Position → Bool} {nbrs : Position → List Position}
    (U : Finset Position) (hU : ∀ p q, q ∈ nbrs p → q ∈ U) (fuel : Nat) (s : SearchState)
    (hnd : s.visited.Nodup) (hsub : ∀ v ∈ s.visited, v ∈ U)
    (hq : s.queue.reverse.Sublist s.visited)
    (hfuel : (U.card - s.visited.length) + s.queue.length < fuel) :
    ∃ order, searchOrder nbrs stop fuel s = some order ∧ order.Nodup ∧
      (∀ v ∈ order, v ∈ s.queue ∨ (v ∉ s.visited ∧ ∃ p, v ∈ nbrs p)) ∧
      order.length ≤ (U.card - s.visited.length) + s.queue.length ∧
      searchLoop nbrs stop (order.length + 1) s = searchLoop nbrs stop fuel s ∧
      (searchLoop nbrs stop fuel s).isSome = true := by
  induction fuel generalizing s with
  | zero => omega
  | succ fuel ih =>
    obtain ⟨queue, visited, prev⟩ := s
    cases queue with
    | nil =>
      exact ⟨[], rfl, List.nodup_nil, fun v hv => by simp at hv, Nat.zero_le _, rfl, rfl⟩
    | cons c rest =>
      simp only [searchOrder, searchLoop]
      by_cases hstop : stop c = true
      · rw [if_pos hstop, if_pos hstop]
        refine ⟨[c], rfl, List.nodup_singleton c, ?_, ?_, ?_, rfl⟩
        · intro v hv
          have : v = c := by simpa using hv
          rw [this]; exact Or.inl (List.mem_cons_self _ _)
        · simp only [List.length_singleton, List.length_cons, List.length_nil] at hfuel ⊢
          omega
        · simp only [List.length_singleton, searchLoop]
          rw [if_pos hstop]
      · rw [if_neg hstop, if_neg hstop]
        obtain ⟨fresh, h1, h2, h3, h4, h5, -⟩ :=
          bfsExpand_spec c (nbrs c) ⟨rest, visited, prev⟩
        simp only at h1 h2 h3 h4 h5 hq
        have hnd' := h5 hnd
        have hsub' : ∀ v ∈ (bfsExpand c (nbrs c) ⟨rest, visited, prev⟩).visited, v ∈ U := by
          intro v hv
          rcases (h2 v).mp hv with hv | hv
          · exact hsub v hv
          · exact hU c v ((h3 v).mp hv).1
        have hle : (bfsExpand c (nbrs c) ⟨rest, visited, prev⟩).visited.length ≤ U.card := by
          rw [← List.toFinset_card_of_nodup hnd']
          apply Finset.card_le_card
          intro v hv
          exact hsub' v (List.mem_toFinset.mp hv)
        have hqnd : (c :: rest).Nodup := by
          have := hq.nodup hnd
          exact List.nodup_reverse.mp this
        have hrest : rest.reverse.Sublist visited := by
          refine List.Sublist.trans ?_ hq
          rw [List.reverse_cons]
          exact List.sublist_append_left _ _
        have hcv : c ∈ visited := hq.subset (by simp)
        have hq' := bfsExpand_sublist c (nbrs c) ⟨rest, visited, prev⟩ hrest
        simp only [List.length_cons] at hfuel
        obtain ⟨order, e1, e2, e3, e4, e5, e6⟩ := ih _ hnd' hsub' hq' (by
          rw [h1, List.length_append]
          rw [h4] at hle ⊢
          omega)
        have hfrom : ∀ v ∈ order, v ∈ rest ∨ (v ∉ visited ∧ ∃ p, v ∈ nbrs p) := by
          intro v hv
          rcases e3 v hv with k1 | ⟨k1, k2⟩
          · rw [h1] at k1
            rcases List.mem_append.mp k1 with k3 | k3
            · exact Or.inl k3
            · exact Or.inr ⟨((h3 v).mp k3).2, c, ((h3 v).mp k3).1⟩
          · exact Or.inr ⟨fun hv' => k1 ((h2 v).mpr (Or.inl hv')), k2⟩
        refine ⟨c :: order, by rw [e1]; rfl, ?_, ?_, ?_, ?_, e6⟩
        · refine List.nodup_cons.mpr ⟨?_, e2⟩
          intro hmem
          rcases hfrom c hmem with k1 | ⟨k1, -⟩
          · exact (List.nodup_cons.mp hqnd).1 k1
          · exact k1 hcv
        · intro v hv
          rcases List.mem_cons.mp hv with k1 | k1
          · rw [k1]; exact Or.inl (List.mem_cons_self _ _)
          · rcases hfrom v k1 with k2 | k2
            · exact Or.inl (List.mem_cons_of_mem _ k2)
            · exact Or.inr k2
        · rw [h1, List.length_append] at e4
          rw [h4] at e4 hle
          simp only [List.length_cons]
          omega
        · simp only [List.length_cons, searchLoop]
          rw [if_neg hstop]
          exact e5

/-- The dequeue order of a search from `start` whose neighbours lie on the board. -/
theorem searchOrder_board (h : GameHelpers) (stop : Position → Bool)
    (nbrs : Position → List Position) (start : Position)
    (hb : ∀ p q, q ∈ nbrs p → h.outOfBounds q = false)
    (hw : 0 ≤ h.State.Field.Width) (hh : 0 ≤ h.State.Field.Height) :
    ∃ order, searchOrder nbrs stop h.searchFuel ⟨[start], [start], []⟩ = some order ∧
      order.Nodup ∧ (∀ p ∈ order, p = start ∨ h.outOfBounds p = false) ∧
      (order.length : Int) ≤ h.State.Field.Width * h.State.Field.Height + 1 ∧
      (searchLoop nbrs stop (order.length + 1) ⟨[start], [start], []⟩).isSome = true ∧
      ∀ fuel, order.length + 1 ≤ fuel →
        searchLoop nbrs stop fuel ⟨[start], [start], []⟩ =
          searchLoop nbrs stop (order.length + 1) ⟨[start], [start], []⟩ := by
  have hcard := card_insert_boardCells h start
  have h2 : 2 ≤ h.searchFuel := Nat.le_add_left _ _
  have hcb := card_boardCells h
  have hci := Finset.card_insert_le start h.boardCells
  obtain ⟨order, e1, e2, e3, e4, e5, e6⟩ := searchOrder_spec (insert start h.boardCells)
    (fun p q hq => Finset.mem_insert_of_mem (mem_boardCells h q (hb p q hq)))
    h.searchFuel ⟨[start], [start], []⟩ (by simp)
    (fun v hv => by
      have : v = start := by simpa using hv
      rw [this]; exact Finset.mem_insert_self _ _)
    (by simp)
    (by simp only [List.length_singleton]; omega)
  have hsome : (searchLoop nbrs stop (order.length + 1) ⟨[start], [start], []⟩).isSome =
      true := by rw [e5]; exact e6
  refine ⟨order, e1, e2, ?_, ?_, hsome, ?_⟩
  · intro p hp
    rcases e3 p hp with k1 | ⟨-, q, k2⟩
    · left; simpa using k1
    · exact Or.inr (hb q p k2)
  · simp only [List.length_singleton] at e4
    have hprod : ((h.State.Field.Width.toNat * h.State.Field.Height.toNat : Nat) : Int) =
        h.State.Field.Width * h.State.Field.Height := by
      rw [Nat.cast_mul, Int.toNat_of_nonneg hw, Int.toNat_of_nonneg hh]
    have hlen : order.length ≤ h.State.Field.Width.toNat * h.State.Field.Height.toNat + 1 := by
      omega
    rw [← hprod]
    exact_mod_cast hlen
  · intro fuel hfuel
    obtain ⟨r, hr⟩ := Option.isSome_iff_exists.mp hsome
    obtain ⟨k, rfl⟩ := Nat.exists_eq_add_of_le hfuel
    rw [hr]
    exact searchLoop_fuel_mono _ _ r hr k

theorem searchLoop_map_fuel_mono {α : Type} {stop : Position → Bool}
    {nbrs : Position → List Position} (f : Option (Position × SearchState) → α)
    (fuel : Nat) (s : SearchState) (r : α)
    (hr : (searchLoop nbrs stop fuel s).map f = some r) (k : Nat) :
    (searchLoop nbrs stop (fuel + k) s).map f = some r := by
  cases hs : searchLoop nbrs stop fuel s with
  | none => rw [hs] at hr; simp at hr
  | some r' =>
    rw [searchLoop_fuel_mono fuel s r' hs k]
    rw [hs] at hr
    exact hr

theorem bfs_fuel_mono (h : GameHelpers) (start : Position) (goal : Position → Bool)
    (allowUnsafeStart : Bool) (fuel : Nat) (res : Option PrevMap)
    (hr : h.bfs fuel start goal allowUnsafeStart = some res) (k : Nat) :
    h.bfs (fuel + k) start goal allowUnsafeStart = some res := by
  unfold GameHelpers.bfs at hr ⊢
  split
  · rename_i hc
    rw [if_pos hc] at hr
    exact hr
  · rename_i hc
    rw [if_neg hc, bfsLoop_eq] at hr
    rw [bfsLoop_eq]
    exact searchLoop_map_fuel_mono _ fuel _ res hr k

theorem rebuildLoop_fuel_mono (start : Position) (prev : PrevMap) (fuel : Nat)
    (cur : Position) (path : List Position) (r : Option (List Position))
    (hr : rebuildLoop start prev fuel cur path = some r) (k : Nat) :
    rebuildLoop start prev (fuel + k) cur path = some r := by
  induction fuel generalizing cur path with
  | zero => simp [rebuildLoop] at hr
  | succ fuel ih =>
    rw [show fuel + 1 + k = (fuel + k) + 1 by omega]
    unfold rebuildLoop at hr ⊢
    by_cases hc : cur = start
    · rw [if_pos hc] at hr ⊢
      exact hr
    · rw [if_neg hc] at hr ⊢
      cases hp : mapGet prev cur with
      | none => rw [hp] at hr; exact hr
      | some p =>
        rw [hp] at hr
        exact ih p _ hr

theorem rebuildPath_fuel_mono (start target : Position) (prev : PrevMap) (fuel : Nat)
    (path : List Position) (hr : rebuildPath fuel start target prev = some path) (k : Nat) :
    rebuildPath (fuel + k) start target prev = some path := by
  unfold rebuildPath at hr ⊢
  cases hl : rebuildLoop start prev fuel target [target] with
  | none => rw [hl] at hr; simp at hr
  | some r =>
    rw [rebuildLoop_fuel_mono start prev fuel target [target] r hl k]
    rw [hl] at hr
    exact hr

theorem getNextActionTowards_fuel_mono (h : GameHelpers) (start target : Position)
    (fuel : Nat) (a : Action) (hr : h.GetNextActionTowards fuel start target = some a)
    (k : Nat) : h.GetNextActionTowards (fuel + k) start target = some a := by
  unfold GameHelpers.GetNextActionTowards at hr ⊢
  by_cases hst : start = target
  · rw [if_pos hst] at hr ⊢
    exact hr
  · rw [if_neg hst] at hr ⊢
    cases hb : h.bfs fuel start (fun pos => decide (pos = target)) false with
    | none => rw [hb] at hr; simp at hr
    | some res =>
      rw [bfs_fuel_mono h start _ false fuel res hb k]
      rw [hb] at hr
      cases res with
      | none => exact hr
      | some prev =>
        simp only at hr ⊢
        cases hp : rebuildPath fuel start target prev with
        | none => rw [hp] at hr; simp at hr
        | some path =>
          rw [rebuildPath_fuel_mono start target prev fuel path hp k]
          rw [hp] at hr
          exact hr

theorem safeLoop_fuel_mono (h : GameHelpers) (start : Position) (fuel : Nat)
    (s : SearchState) (r : Position) (hr : h.safeLoop start fuel s.queue s.visited = some r)
    (k : Nat) : h.safeLoop start (fuel + k) s.queue s.visited = some r := by
  rw [safeLoop_eq] at hr ⊢
  exact searchLoop_map_fuel_mono _ fuel s r hr k

theorem getNearestSafePosition_fuel_mono (h : GameHelpers) (start : Position) (fuel : Nat)
    (r : Position) (hr : h.GetNearestSafePosition fuel start = some r) (k : Nat) :
    h.GetNearestSafePosition (fuel + k) start = some r := by
  unfold GameHelpers.GetNearestSafePosition at hr ⊢
  split
  · rename_i hc
    rw [if_pos hc] at hr
    exact hr
  · rename_i hc
    rw [if_neg hc] at hr
    cases hb : h.bfs fuel start (fun pos => h.IsWalkable pos && h.IsSafe pos) true with
    | none => rw [hb] at hr; simp at hr
    | some res =>
      rw [bfs_fuel_mono h start _ true fuel res hb k]
      rw [hb] at hr
      cases res with
      | none => exact hr
      | some prev =>
        simp only at hr ⊢
        exact safeLoop_fuel_mono h start fuel ⟨[start], [start], []⟩ r hr k

theorem findNearestBox_fuel_mono (h : GameHelpers) (start : Position) (fuel : Nat)
    (r : Position × Bool) (hr : h.FindNearestBox fuel start = some r) (k : Nat) :
    h.FindNearestBox (fuel + k) start = some r := by
  unfold GameHelpers.FindNearestBox at hr ⊢
  have e1 := boxLoop_eq h fuel ⟨[start], [start], []⟩
  have e2 := boxLoop_eq h (fuel + k) ⟨[start], [start], []⟩
  simp only at e1 e2
  rw [e1] at hr
  rw [e2]
  exact searchLoop_map_fuel_mono _ fuel _ r hr k

theorem getNextActionTowards_total (h : GameHelpers) (start target : Position) (fuel : Nat)
    (hfuel : h.searchFuel ≤ fuel) : ∃ a, h.GetNextActionTowards fuel start target = some a := by
  by_cases hst : start = target
  · exact ⟨DoNothing, by unfold GameHelpers.GetNextActionTowards; rw [if_pos hst]⟩
  · by_cases hreach : ∃ k, Hops h.WalkStep start target k
    · cases hw : h.IsWalkable start with
      | false => exact ⟨DoNothing, getNextActionTowards_unwalkable h fuel start target hw⟩
      | true =>
        obtain ⟨sf, d, n, rest, e1, e2, -⟩ := pathfinder_core h start target hst hreach fuel hfuel
        refine ⟨actionFromStep start n, ?_⟩
        unfold GameHelpers.GetNextActionTowards GameHelpers.bfs
        rw [if_neg hst, if_neg (by simp [hw]), bfsLoop_eq, e1]
        simp only [Option.map_some']
        rw [e2]
    · refine ⟨DoNothing, ?_⟩
      unfold GameHelpers.GetNextActionTowards
      rw [if_neg hst, bfs_nil_of_unreachable h start _ false ?_ fuel hfuel]
      intro v k hv _
      by_cases hvt : v = target
      · subst hvt
        exact absurd ⟨k, hv⟩ hreach
      · simpa using hvt

theorem findNearestBox_total (h : GameHelpers) (start : Position) (fuel : Nat)
    (hfuel : h.searchFuel ≤ fuel) : ∃ r, h.FindNearestBox fuel start = some r := by
  obtain ⟨r, hr⟩ := searchLoop_total h (fun c => decide (h.State.Field.CellAt c = Box))
    h.boxNeighbours start (boxStep_mem_board h start) fuel hfuel
  have heq := boxLoop_eq h fuel ⟨[start], [start], []⟩
  simp only at heq
  unfold GameHelpers.FindNearestBox
  rw [heq, hr]
  exact ⟨_, rfl⟩

/-- Claim C23. Every search is total. On a snapshot with non-negative width and height, for
every start and target, each of `GetNextActionTowards`, `GetNearestSafePosition` and
`FindNearestBox` returns one and the same result on every fuel from `searchFuel` =
width*height + 2 rounds on. For each breadth-first loop (`bfs` and the loop of
`GetNearestSafePosition` are `searchLoop` over the walkable neighbours by `bfsLoop_eq` and
`safeLoop_eq`, the loop of `FindNearestBox` is `searchLoop` over `boxNeighbours` by
`boxLoop_eq`, each with its own exit test `stop`) the dequeued tiles form a list without
repetition, each of them is `start` or lies inside the grid, there are at most
width*height + 1 of them, and the loop returns after these rounds. -/
theorem C23_searches_total (h : GameHelpers) (hw : 0 ≤ h.State.Field.Width)
    (hh : 0 ≤ h.State.Field.Height) (start target : Position) :
    (∃ a, ∀ fuel, h.searchFuel ≤ fuel → h.GetNextActionTowards fuel start target = some a) ∧
    (∃ p, ∀ fuel, h.searchFuel ≤ fuel → h.GetNearestSafePosition fuel start = some p) ∧
    (∃ r, ∀ fuel, h.searchFuel ≤ fuel → h.FindNearestBox fuel start = some r) ∧
    (h.searchFuel : Int) = h.State.Field.Width * h.State.Field.Height + 2 ∧
    (∀ (nbrs : Position → List Position) (stop : Position → Bool),
      nbrs = h.GetAdjacentWalkablePositions ∨ nbrs = h.boxNeighbours →
      ∃ order, searchOrder nbrs stop h.searchFuel ⟨[start], [start], []⟩ = some order ∧
        order.Nodup ∧ (∀ p ∈ order, p = start ∨ h.outOfBounds p = false) ∧
        (order.length : Int) ≤ h.State.Field.Width * h.State.Field.Height + 1 ∧
        (searchLoop nbrs stop (order.length + 1) ⟨[start], [start], []⟩).isSome = true ∧
        ∀ fuel, order.length + 1 ≤ fuel →
          searchLoop nbrs stop fuel ⟨[start], [start], []⟩ =
            searchLoop nbrs stop (order.length + 1) ⟨[start], [start], []⟩) := by
  refine ⟨?_, ?_, ?_, ?_, ?_⟩
  · obtain ⟨a, ha⟩ := getNextActionTowards_total h start target h.searchFuel (le_refl _)
    refine ⟨a, fun fuel hfuel => ?_⟩
    obtain ⟨k, rfl⟩ := Nat.exists_eq_add_of_le hfuel
    exact getNextActionTowards_fuel_mono h start target _ a ha k
  · obtain ⟨p, hp⟩ := getNearestSafePosition_total h start h.searchFuel (le_refl _)
    refine ⟨p, fun fuel hfuel => ?_⟩
    obtain ⟨k, rfl⟩ := Nat.exists_eq_add_of_le hfuel
    exact getNearestSafePosition_fuel_mono h start _ p hp k
  · obtain ⟨r, hr⟩ := findNearestBox_total h start h.searchFuel (le_refl _)
    refine ⟨r, fun fuel hfuel => ?_⟩
    obtain ⟨k, rfl⟩ := Nat.exists_eq_add_of_le hfuel
    exact findNearestBox_fuel_mono h start _ r hr k
  · unfold GameHelpers.searchFuel
    rw [Nat.cast_add, Nat.cast_mul, Int.toNat_of_nonneg hw, Int.toNat_of_nonneg hh]
    rfl
  · intro nbrs stop hn
    rcases hn with rfl | rfl
    · exact searchOrder_board h stop _ start
        (fun p q hq => ((isWalkable_iff h q).mp
          ((mem_getAdjacentWalkablePositions h p q).mp hq).2).1) hw hh
    · exact searchOrder_board h stop _ start
        (fun p q hq => ((mem_boxNeighbours h p q).mp hq).2.1) hw hh

theorem C23_searches_total_witness :
    0 ≤ openTestState.Field.Width ∧ 0 ≤ openTestState.Field.Height ∧
      (∃ a, ∀ fuel, (GameHelpers.mk openTestState).searchFuel ≤ fuel →
        (GameHelpers.mk openTestState).GetNextActionTowards fuel ⟨1, 1⟩ ⟨2, 0⟩ = some a) ∧
      ((GameHelpers.mk openTestState).searchFuel : Int) =
        openTestState.Field.Width * openTestState.Field.Height + 2 :=
  ⟨by decide, by decide,
    (C23_searches_total ⟨openTestState⟩ (by decide) (by decide) ⟨1, 1⟩ ⟨2, 0⟩).1,
    (C23_searches_total ⟨openTestState⟩ (by decide) (by decide) ⟨1, 1⟩ ⟨2, 0⟩).2.2.2.1⟩

/-! ## Properties: the tie-break of the pathfinder -/

theorem Hops.first {R : Position → Position → Prop} {a b : Position} {k : Nat}
    (hh : Hops R a b k) : ∀ n, k = n + 1 → ∃ m, R a m ∧ Hops R m b n := by
  induction hh with
  | zero => intro n hn; omega
  | succ hab hstep ih =>
    rename_i b' c n'
    intro n hn
    have hnn : n' = n := by omega
    subst hnn
    cases n' with
    | zero =>
      have := hab.start_eq
      subst this
      exact ⟨c, hstep, Hops.zero⟩
    | succ j =>
      obtain ⟨m, h1, h2⟩ := ih j rfl
      exact ⟨m, h1, Hops.succ h2 hstep⟩

theorem BestStep.at_level {R : Position → Position → Prop} {a : Position}
    {rank : Position → Nat} {v n : Position} {d : Nat} (hb : BestStep R a rank v n)
    (hm : MinHops R a v (d + 1)) :
    R a n ∧ Hops R n v d ∧ ∀ m, R a m → Hops R m v d → rank n ≤ rank m := by
  obtain ⟨k, h1, h2, h3, h4⟩ := hb
  have hk : k = d := by
    have := h1.unique hm
    omega
  subst hk
  exact ⟨h2, h3, h4⟩

theorem BestStep.exists_le {R : Position → Position → Prop} {a : Position}
    (rank : Position → Nat) {v : Position} {k : Nat} (hv : MinHops R a v (k + 1)) :
    ∀ r m, rank m = r → R a m → Hops R m v k → ∃ n, BestStep R a rank v n ∧ rank n ≤ rank m := by
  intro r
  induction r using Nat.strong_induction_on with
  | _ r ih =>
    intro m hr hRm hh
    by_cases hex : ∃ m', R a m' ∧ Hops R m' v k ∧ rank m' < rank m
    · obtain ⟨m', h1, h2, h3⟩ := hex
      obtain ⟨n, hn, hle⟩ := ih (rank m') (by omega) m' rfl h1 h2
      exact ⟨n, hn, by omega⟩
    · refine ⟨m, ⟨k, hv, hRm, hh, ?_⟩, le_refl _⟩
      intro m' h1 h2
      by_contra hlt
      exact hex ⟨m', h1, h2, by omega⟩

theorem RankLE.same (R : Position → Position → Prop) (a : Position) (rank : Position → Nat)
    (x : Position) : RankLE R a rank x x := by
  intro n hb m k hm hRm hh
  exact (hb.at_level hm).2.2 m hRm hh

/-- The tiles `bfsExpand` appends to the queue come in the order of the neighbour list. -/
theorem bfsExpand_fresh_sublist (cur : Position) (ns : List Position) (s : SearchState) :
    ∃ fresh : List Position, (bfsExpand cur ns s).queue = s.queue ++ fresh ∧
      fresh.Sublist ns := by
  induction ns generalizing s with
  | nil => exact ⟨[], by simp [bfsExpand], List.Sublist.refl _⟩
  | cons n ns ih =>
    unfold bfsExpand
    by_cases hn : n ∈ s.visited
    · rw [if_pos hn]
      obtain ⟨fresh, h1, h2⟩ := ih s
      exact ⟨fresh, h1, List.Sublist.cons n h2⟩
    · rw [if_neg hn]
      obtain ⟨fresh, h1, h2⟩ := ih
        { queue := s.queue ++ [n], visited := n :: s.visited, prev := mapSet s.prev n cur }
      refine ⟨n :: fresh, ?_, List.Sublist.cons₂ n h2⟩
      rw [h1]
      simp

theorem BranchInv.initial (R : Position → Position → Prop) (a : Position)
    (rank : Position → Nat) : BranchInv R a rank ⟨[a], [a], []⟩ [a] [] where
  sorted := by simp
  done u hu hnq := absurd hu hnq
  prev_best v u hget := by simp [mapGet] at hget
  root _ := rfl

theorem BranchInv.next_level {R : Position → Position → Prop} {stop : Position → Bool}
    {a : Position} {rank : Position → Nat} {s : SearchState} {d : Nat} {B : List Position}
    (hinv : SearchInv R stop a s d [] B) (hb : BranchInv R a rank s [] B) :
    BranchInv R a rank s B [] := by
  refine ⟨by simpa using hb.sorted, hb.done, hb.prev_best, ?_⟩
  intro ha
  have := (hinv.levB a ha).unique (MinHops.self R a)
  omega

/-- A first step of a shortest path towards a tile `v` of the next level that is not
visited yet leads to `v` through a tile that waits in the level being served. -/
theorem SearchInv.pred_waiting {R : Position → Position → Prop} {stop : Position → Bool}
    {a : Position} {s : SearchState} {j : Nat} {A B : List Position}
    (hinv : SearchInv R stop a s (j + 1) A B)
    (hdone : ∀ u ∈ s.visited, u ∉ s.queue → ∀ v, R u v → v ∈ s.visited)
    {v m : Position} (hv : MinHops R a v (j + 2)) (hnv : v ∉ s.visited) (hRm : R a m)
    (hm : Hops R m v (j + 1)) :
    ∃ u ∈ A, MinHops R a u (j + 1) ∧ Hops R m u j := by
  cases hm with
  | succ hmu hRuv =>
    rename_i u
    have hau : Hops R a u (j + 1) := Hops.prepend hRm hmu
    have hmin : MinHops R a u (j + 1) := by
      refine ⟨hau, ?_⟩
      intro i hi
      have := hv.2 (i + 1) (Hops.succ hi hRuv)
      omega
    have huv : u ∈ s.visited := hinv.low u (j + 1) hau (le_refl _)
    have huq : u ∈ s.queue := by
      by_contra hnq
      exact hnv (hdone u huv hnq v hRuv)
    rw [hinv.split] at huq
    rcases List.mem_append.mp huq with h1 | h1
    · exact ⟨u, h1, hmin, hmu⟩
    · have := (hinv.levB u h1).unique hmin
      omega

theorem BranchInv.expand {R : Position → Position → Prop} {stop : Position → Bool}
    {nbrs : Position → List Position} (hn : ∀ p q, q ∈ nbrs p ↔ R p q)
    {a : Position} {rank : Position → Nat}
    (hrank : (nbrs a).Pairwise (fun x y => rank x ≤ rank y))
    {s : SearchState} {d : Nat} {c : Position} {A B : List Position}
    (hinv : SearchInv R stop a s d (c :: A) B) (hb : BranchInv R a rank s (c :: A) B)
    (B' : List Position)
    (hinv' : SearchInv R stop a (bfsExpand c (nbrs c) { s with queue := A ++ B }) d A B') :
    BranchInv R a rank (bfsExpand c (nbrs c) { s with queue := A ++ B }) A B' := by
  obtain ⟨fresh, h1, h2, h3, -, -, h6⟩ :=
    bfsExpand_spec c (nbrs c) { s with queue := A ++ B }
  obtain ⟨fresh', g1, g2⟩ := bfsExpand_fresh_sublist c (nbrs c) { s with queue := A ++ B }
  simp only at h1 h2 h3 h6 g1
  have hff : fresh' = fresh := List.append_cancel_left (g1.symm.trans h1)
  subst hff
  have hB' : B' = B ++ fresh' := by
    have := hinv'.split
    rw [h1, List.append_assoc] at this
    exact (List.append_cancel_left this).symm
  subst hB'
  have hc : MinHops R a c d := hinv.levA c (List.mem_cons_self _ _)
  have hfl : ∀ v ∈ fresh', MinHops R a v (d + 1) :=
    fun v hv => hinv'.levB v (List.mem_append_right _ hv)
  have hfn : ∀ v ∈ fresh', R c v ∧ v ∉ s.visited :=
    fun v hv => ⟨(hn c v).mp ((h3 v).mp hv).1, ((h3 v).mp hv).2⟩
  have hdone : ∀ u ∈ (bfsExpand c (nbrs c) { s with queue := A ++ B }).visited,
      u ∉ (bfsExpand c (nbrs c) { s with queue := A ++ B }).queue →
      ∀ v, R u v → v ∈ (bfsExpand c (nbrs c) { s with queue := A ++ B }).visited := by
    intro u hu hnq v hRuv
    rw [h1] at hnq
    rcases (h2 u).mp hu with hu | hu
    · by_cases huc : u = c
      · subst huc
        by_cases hvv : v ∈ s.visited
        · exact (h2 v).mpr (Or.inl hvv)
        · exact (h2 v).mpr (Or.inr ((h3 v).mpr ⟨(hn u v).mpr hRuv, hvv⟩))
      · have hnq' : u ∉ s.queue := by
          rw [hinv.split]
          intro hmem
          rcases List.mem_cons.mp hmem with k1 | k1
          · exact huc k1
          · exact hnq (List.mem_append_left _ k1)
        exact (h2 v).mpr (Or.inl (hb.done u hu hnq' v hRuv))
    · exact absurd (List.mem_append_right _ hu) hnq
  have hroot : a ∈ A → (bfsExpand c (nbrs c) { s with queue := A ++ B }).queue = [a] := by
    intro ha
    have hq := hb.root (List.mem_cons_of_mem _ ha)
    rw [hinv.split] at hq
    simp only [List.cons_append, List.cons.injEq, List.append_eq_nil] at hq
    rw [hq.2.1] at ha
    simp at ha
  by_cases hca : c = a
  · subst hca
    have hd0 : d = 0 := hc.unique (MinHops.self R c)
    subst hd0
    have hq := hb.root (List.mem_cons_self _ _)
    rw [hinv.split] at hq
    simp only [List.cons_append, List.cons.injEq, List.append_eq_nil, true_and] at hq
    obtain ⟨hA, hB⟩ := hq
    subst hA hB
    refine ⟨?_, hdone, ?_, hroot⟩
    · simp only [List.nil_append, List.append_nil]
      refine List.Pairwise.imp_of_mem ?_ (List.Pairwise.sublist g2 hrank)
      intro x y hx hy hxy n hbest m k hmy hRm hh
      have hn0 := (hbest.at_level (hfl x hx)).2.1.start_eq
      have hk : k = 0 := by
        have := hmy.unique (hfl y hy)
        omega
      subst hk
      have hm0 := hh.start_eq
      subst hn0
      subst hm0
      exact hxy
    · intro v u hget hua n hbest
      rw [h6] at hget
      by_cases hvf : v ∈ fresh'
      · rw [if_pos hvf] at hget
        exact absurd (Option.some.inj hget).symm hua
      · rw [if_neg hvf] at hget
        exact hb.prev_best v u hget hua n hbest
  · obtain ⟨j, rfl⟩ : ∃ j, d = j + 1 := by
      cases d with
      | zero => exact absurd hc.1.start_eq hca
      | succ j => exact ⟨j, rfl⟩
    obtain ⟨m0, hm0, hm0c⟩ := hc.1.first j rfl
    obtain ⟨nc, hnc, -⟩ := BestStep.exists_le rank hc (rank m0) m0 rfl hm0 hm0c
    have hncl := hnc.at_level hc
    obtain ⟨PB, PcA, PBA⟩ := List.pairwise_append.mp hb.sorted
    have hP : ∀ v ∈ fresh', ∀ m k, MinHops R a v (k + 1) → R a m → Hops R m v k →
        ∃ u ∈ c :: A, MinHops R a u (j + 1) ∧ Hops R m u j := by
      intro v hv m k hmv hRm hh
      have hk : k = j + 1 := by
        have := hmv.unique (hfl v hv)
        omega
      subst hk
      exact hinv.pred_waiting hb.done (hfl v hv) (hfn v hv).2 hRm hh
    have hQ : ∀ u ∈ c :: A, RankLE R a rank c u := by
      intro u hu
      rcases List.mem_cons.mp hu with k1 | k1
      · rw [k1]; exact RankLE.same R a rank c
      · exact List.rel_of_pairwise_cons PcA k1
    have hL : ∀ v ∈ fresh', ∀ n, BestStep R a rank v n → rank n ≤ rank nc := by
      intro v hv n hbest
      exact (hbest.at_level (hfl v hv)).2.2 nc hncl.1 (Hops.succ hncl.2.1 (hfn v hv).1)
    have hFF : ∀ v ∈ fresh', ∀ w ∈ fresh', RankLE R a rank v w := by
      intro v hv w hw n hbest m k hmw hRm hh
      obtain ⟨u, hu, hul, hmu⟩ := hP w hw m k hmw hRm hh
      have := hQ u hu nc hnc m j hul hRm hmu
      have := hL v hv n hbest
      omega
    refine ⟨?_, hdone, ?_, hroot⟩
    · rw [List.pairwise_append]
      refine ⟨?_, (List.pairwise_cons.mp PcA).2, ?_⟩
      · rw [List.pairwise_append]
        refine ⟨PB, List.pairwise_of_forall_mem_list hFF, ?_⟩
        intro y hy v hv n hbest m k hmv hRm hh
        obtain ⟨u, hu, hul, hmu⟩ := hP v hv m k hmv hRm hh
        exact PBA y hy u hu n hbest m j hul hRm hmu
      · intro x hx y hy
        rcases List.mem_append.mp hx with k1 | k1
        · exact PBA x k1 y (List.mem_cons_of_mem _ hy)
        · intro n hbest m k hmy hRm hh
          have := hQ y (List.mem_cons_of_mem _ hy) nc hnc m k hmy hRm hh
          have := hL x k1 n hbest
          omega
    · intro v u hget hua n hbest
      rw [h6] at hget
      by_cases hvf : v ∈ fresh'
      · rw [if_pos hvf] at hget
        have hcu : c = u := Option.some.inj hget
        subst hcu
        have hbl := hbest.at_level hc
        refine ⟨j + 1, hfl v hvf, hbl.1, Hops.succ hbl.2.1 (hfn v hvf).1, ?_⟩
        intro m hRm hh
        obtain ⟨u, hu, hul, hmu⟩ := hP v hvf m (j + 1) (hfl v hvf) hRm hh
        exact hQ u hu n hbest m j hul hRm hmu
      · rw [if_neg hvf] at hget
        exact hb.prev_best v u hget hua n hbest

/-- A search that leaves at a tile `c` does so in a state that keeps both invariants. -/
theorem searchLoop_branch {R : Position → Position → Prop} {stop : Position → Bool}
    {nbrs : Position → List Position} (hn : ∀ p q, q ∈ nbrs p ↔ R p q) (a : Position)
    (rank : Position → Nat) (hrank : (nbrs a).Pairwise (fun x y => rank x ≤ rank y))
    (fuel : Nat) (s : SearchState) (d : Nat) (A B : List Position)
    (hinv : SearchInv R stop a s d A B) (hb : BranchInv R a rank s A B)
    (c : Position) (sf : SearchState)
    (hr : searchLoop nbrs stop fuel s = some (some (c, sf))) :
    ∃ d' A' B', SearchInv R stop a sf d' (c :: A') B' ∧ BranchInv R a rank sf (c :: A') B' := by
  induction fuel generalizing s d A B with
  | zero => simp [searchLoop] at hr
  | succ fuel ih =>
    obtain ⟨queue, visited, prev⟩ := s
    cases queue with
    | nil => simp [searchLoop] at hr
    | cons c0 rest =>
      have key : ∃ d' A' B', SearchInv R stop a ⟨c0 :: rest, visited, prev⟩ d' (c0 :: A') B' ∧
          BranchInv R a rank ⟨c0 :: rest, visited, prev⟩ (c0 :: A') B' ∧
          rest = A' ++ B' := by
        cases A with
        | nil =>
          have hB : B = c0 :: rest := by simpa using hinv.split.symm
          have hne : B ≠ [] := by rw [hB]; simp
          have h1 := hinv.shift hne
          have h2 := BranchInv.next_level hinv hb
          rw [hB] at h1 h2
          exact ⟨d + 1, rest, [], h1, h2, by simp⟩
        | cons c' A' =>
          have hsplit := hinv.split
          simp only [List.cons_append, List.cons.injEq] at hsplit
          obtain ⟨hcc, hrest⟩ := hsplit
          subst hcc
          exact ⟨d, A', B, hinv, hb, hrest⟩
      obtain ⟨d', A', B', hinv', hb', hrest⟩ := key
      simp only [searchLoop] at hr
      by_cases hstop : stop c0 = true
      · rw [if_pos hstop] at hr
        have := Option.some.inj (Option.some.inj hr)
        simp only [Prod.mk.injEq] at this
        obtain ⟨e1, e2⟩ := this
        subst e1 e2
        exact ⟨d', A', B', hinv', hb'⟩
      · rw [if_neg hstop] at hr
        have hstop' : stop c0 = false := by simpa using hstop
        obtain ⟨B'', hstep⟩ := hinv'.step hn hstop'
        have hbstep := BranchInv.expand hn hrank hinv' hb' B'' hstep
        simp only at hstep hbstep
        rw [← hrest] at hstep hbstep
        exact ih _ d' A' B'' hstep hbstep hr

/-- The predecessor walk of `rebuildPath` from a visited tile `cur` at `k` hops reaches the
start in `k` rounds; read backwards it begins with the start and a best first step
towards `cur`. -/
theorem rebuildLoop_best {R : Position → Position → Prop} {stop : Position → Bool}
    {a : Position} {rank : Position → Nat} {s : SearchState} {d : Nat} {A B : List Position}
    (hinv : SearchInv R stop a s d A B) (hb : BranchInv R a rank s A B) (k : Nat)
    (cur : Position) (path : List Position) (fuel : Nat) (hv : cur ∈ s.visited)
    (hm : MinHops R a cur k) (hfuel : k < fuel) :
    ∃ tail, rebuildLoop a s.prev fuel cur path = some (some (path ++ tail)) ∧
      ((k = 0 ∧ cur = a ∧ tail = []) ∨
        ∃ n rest, (cur :: tail).reverse = a :: n :: rest ∧ BestStep R a rank cur n) := by
  induction k generalizing cur path fuel with
  | zero =>
    have hca := hm.1.start_eq
    cases fuel with
    | zero => omega
    | succ fuel =>
      refine ⟨[], ?_, Or.inl ⟨rfl, hca, rfl⟩⟩
      simp [rebuildLoop, hca]
  | succ k ih =>
    have hne : cur ≠ a := by
      intro e
      subst e
      have := hm.unique (MinHops.self R cur)
      omega
    obtain ⟨u, hu, huv, hstep, hmu⟩ := hinv.prev_step cur k hv hm
    cases fuel with
    | zero => omega
    | succ fuel =>
      obtain ⟨tail, ht, hcase⟩ := ih u (path ++ [u]) fuel huv hmu (by omega)
      refine ⟨u :: tail, ?_, Or.inr ?_⟩
      · simp only [rebuildLoop, if_neg hne, hu]
        rw [ht]; simp
      · rcases hcase with ⟨hk0, hua, htail⟩ | ⟨n, rest, hrev, hbest⟩
        · subst hk0 hua htail
          refine ⟨cur, [], by simp, 0, hm, hstep, Hops.zero, ?_⟩
          intro m _ hh
          rw [hh.start_eq]
        · have hua : u ≠ a := by
            intro e
            subst e
            obtain ⟨k0, hk0, -⟩ := hbest
            have := hk0.unique (MinHops.self R u)
            omega
          refine ⟨n, rest ++ [cur], ?_, hb.prev_best cur u hu hua n hbest⟩
          rw [List.reverse_cons, hrev]; simp

theorem actionFromStep_neighbours (p : Position) :
    actionFromStep p ⟨p.X, p.Y - 1⟩ = MoveUp ∧ actionFromStep p ⟨p.X + 1, p.Y⟩ = MoveRight ∧
      actionFromStep p ⟨p.X, p.Y + 1⟩ = MoveDown ∧
      actionFromStep p ⟨p.X - 1, p.Y⟩ = MoveLeft := by
  refine ⟨?_, ?_, ?_, ?_⟩ <;> simp [actionFromStep] <;> intro hcontra <;> omega

/-- The walkable neighbours of a tile are listed in the order north, east, south, west. -/
theorem neighbours_ranked (h : GameHelpers) (p : Position) :
    (h.GetAdjacentWalkablePositions p).Pairwise
      (fun x y => directionRank (actionFromStep p x) ≤ directionRank (actionFromStep p y)) := by
  rw [getAdjacentWalkablePositions_eq]
  refine List.Pairwise.sublist (List.filter_sublist _) ?_
  obtain ⟨e1, e2, e3, e4⟩ := actionFromStep_neighbours p
  simp only [List.pairwise_cons, List.mem_cons, List.mem_singleton, forall_eq_or_imp, forall_eq,
    List.not_mem_nil, false_implies, implies_true, List.Pairwise.nil, and_true, e1, e2, e3, e4]
  decide

/-- The pathfinder towards a reachable target other than the start: the rebuilt path
begins with the start and with a best first step towards the target. -/
theorem pathfinder_best (h : GameHelpers) (start target : Position) (hne : start ≠ target)
    (hreach : ∃ k, Hops h.WalkStep start target k) (fuel : Nat) (hfuel : h.searchFuel ≤ fuel) :
    ∃ sf n rest,
      searchLoop h.GetAdjacentWalkablePositions
        (fun c => decide (c ≠ start) && decide (c = target)) fuel ⟨[start], [start], []⟩ =
          some (some (target, sf)) ∧
      rebuildPath fuel start target sf.prev = some (start :: n :: rest) ∧
      BestStep h.WalkStep start (fun m => directionRank (actionFromStep start m)) target n := by
  obtain ⟨sf, d, n0, rest0, hr, -, -, hm, -⟩ :=
    pathfinder_core h start target hne hreach fuel hfuel
  obtain ⟨d', A', B', hinv, hb⟩ := searchLoop_branch (mem_getAdjacentWalkablePositions h) start
    (fun m => directionRank (actionFromStep start m)) (neighbours_ranked h start) fuel _ 0
    [start] [] (SearchInv.init _ _ _) (BranchInv.initial _ _ _) target sf hr
  have hv : target ∈ sf.visited := hinv.low target (d + 1) hm.1 (by
    have := (hinv.levA target (List.mem_cons_self _ _)).unique hm
    omega)
  have hlen := searchLoop_found_visited (insert start h.boardCells)
    (walkStep_mem_board h start) fuel _ target sf hr (by simp)
    (fun v hv => by
      have : v = start := by simpa using hv
      rw [this]; exact Finset.mem_insert_self _ _)
  have hd' : d' = d + 1 := (hinv.levA target (List.mem_cons_self _ _)).unique hm
  have hcount := hinv.count
  have hcard := card_insert_boardCells h start
  obtain ⟨tail, ht, hcase⟩ := rebuildLoop_best hinv hb (d + 1) target [target] fuel hv hm
    (by omega)
  rcases hcase with ⟨hk0, -, -⟩ | ⟨n, rest, hrev, hbest⟩
  · omega
  · refine ⟨sf, n, rest, hr, ?_, hbest⟩
    unfold rebuildPath
    rw [ht]
    simpa using hrev

/-- Claim C21. Deterministic tie-break of the pathfinder. For a walkable `start` and a reachable
`target` other than `start`, `GetNextActionTowards` returns, on `searchFuel` rounds or
more, the move towards a walkable neighbour `n` of `start` whose hop distance to `target`
is one less than that of `start`, and among all the walkable neighbours `m` of `start` with
that hop distance the move towards `n` is the earliest in the fixed order MoveUp (north),
MoveRight (east), MoveDown (south), MoveLeft (west), which `directionRank` numbers 0 to 3;
every walkable neighbour lies in one of these four directions. -/
theorem C21_tie_break (h : GameHelpers) (start target : Position) (hne : start ≠ target)
    (hwalk : h.IsWalkable start = true) (hreach : ∃ k, Hops h.WalkStep start target k)
    (fuel : Nat) (hfuel : h.searchFuel ≤ fuel) :
    ∃ (n : Position) (d : Nat),
      h.GetNextActionTowards fuel start target = some (actionFromStep start n) ∧
      h.WalkStep start n ∧ MinHops h.WalkStep start target (d + 1) ∧
      MinHops h.WalkStep n target d ∧
      (∀ m, h.WalkStep start m → MinHops h.WalkStep m target d →
        directionRank (actionFromStep start n) ≤ directionRank (actionFromStep start m)) ∧
      (∀ m, h.WalkStep start m →
        (actionFromStep start m = MoveUp ∧ m = ⟨start.X, start.Y - 1⟩) ∨
        (actionFromStep start m = MoveRight ∧ m = ⟨start.X + 1, start.Y⟩) ∨
        (actionFromStep start m = MoveDown ∧ m = ⟨start.X, start.Y + 1⟩) ∨
        (actionFromStep start m = MoveLeft ∧ m = ⟨start.X - 1, start.Y⟩)) ∧
      directionRank MoveUp = 0 ∧ directionRank MoveRight = 1 ∧ directionRank MoveDown = 2 ∧
      directionRank MoveLeft = 3 := by
  obtain ⟨sf, n, rest, hr, hpath, k, hk, hRn, hhops, hbest⟩ :=
    pathfinder_best h start target hne hreach fuel hfuel
  refine ⟨n, k, ?_, hRn, hk, ⟨hhops, ?_⟩, ?_, ?_, by decide, by decide, by decide, by decide⟩
  · unfold GameHelpers.GetNextActionTowards GameHelpers.bfs
    rw [if_neg hne, if_neg (by simp [hwalk]), bfsLoop_eq, hr]
    simp only [Option.map_some']
    rw [hpath]
  · intro j hj
    have := hk.2 (j + 1) (Hops.prepend hRn hj)
    omega
  · intro m hRm hm
    exact hbest m hRm hm.1
  · intro m hRm
    exact actionFromStep_adjacent start m hRm.1

/-- On the open 5x5 board, from (1,1) to (2,0), north-then-east and east-then-north are
both shortest: the tiles (1,0) and (2,1) are walkable neighbours of (1,1) one hop away from
(2,0). The result is MoveUp. -/
theorem C21_tie_break_witness :
    (GameHelpers.mk openTestState).GetNextActionTowards 27 ⟨1, 1⟩ ⟨2, 0⟩ = some MoveUp ∧
      (GameHelpers.mk openTestState).WalkStep ⟨1, 1⟩ ⟨1, 0⟩ ∧
      (GameHelpers.mk openTestState).WalkStep ⟨1, 0⟩ ⟨2, 0⟩ ∧
      (GameHelpers.mk openTestState).WalkStep ⟨1, 1⟩ ⟨2, 1⟩ ∧
      (GameHelpers.mk openTestState).WalkStep ⟨2, 1⟩ ⟨2, 0⟩ ∧
      ¬ (GameHelpers.mk openTestState).WalkStep ⟨1, 1⟩ ⟨2, 0⟩ ∧
      ∃ (n : Position) (d : Nat),
        (GameHelpers.mk openTestState).GetNextActionTowards 27 ⟨1, 1⟩ ⟨2, 0⟩ =
          some (actionFromStep ⟨1, 1⟩ n) ∧
        (GameHelpers.mk openTestState).WalkStep ⟨1, 1⟩ n ∧
        MinHops (GameHelpers.mk openTestState).WalkStep ⟨1, 1⟩ ⟨2, 0⟩ (d + 1) ∧
        MinHops (GameHelpers.mk openTestState).WalkStep n ⟨2, 0⟩ d ∧
        (∀ m, (GameHelpers.mk openTestState).WalkStep ⟨1, 1⟩ m →
          MinHops (GameHelpers.mk openTestState).WalkStep m ⟨2, 0⟩ d →
          directionRank (actionFromStep ⟨1, 1⟩ n) ≤ directionRank (actionFromStep ⟨1, 1⟩ m)) :=
  ⟨by decide, by decide, by decide, by decide, by decide, by decide,
    (C21_tie_break ⟨openTestState⟩ ⟨1, 1⟩ ⟨2, 0⟩ (by decide) (by decide)
      ⟨2, Hops.succ (Hops.succ Hops.zero (b := ⟨1, 1⟩) (c := ⟨1, 0⟩) (by decide))
        (c := ⟨2, 0⟩) (by decide)⟩ 27 (by decide)).imp
      (fun _ hn => hn.imp (fun _ hd => ⟨hd.1, hd.2.1, hd.2.2.1, hd.2.2.2.1, hd.2.2.2.2.1⟩))⟩

end Bombahead
